import Mathlib

/-!
Verification development for the `juanlogs.nvim` log engine (`src/lib.rs`).

The engine is a line-indexed piece table over a read-only byte buffer (the
memory-mapped original file) together with an append-only edit buffer.  We give
a shallow embedding: bytes are `Nat` values (0..255), the mapped file and all
Rust `String`s are byte lists (Rust strings are UTF-8 byte buffers; the code's
`String::from_utf8_lossy` conversions are modelled as the identity on bytes,
which is exact for well-formed UTF-8 data), and each Rust method becomes an
executable Lean function.  I/O failure paths of `save` and the C-ABI null
checks are outside the model; `save` is modelled as the byte sequence written
on success.  Rust `while` loops over vector indices are modelled as structural
recursions over list suffixes or over an explicit counter, mirroring the loop
bodies statement by statement.
-/

/-- Byte value of a line feed. -/
def LF : Nat := 10

/-- Byte value of a carriage return. -/
def CR : Nat := 13

/-- The fixed chunk size used by the parallel line counter (`1024 * 1024`). -/
def chunkSize : Nat := 1024 * 1024

/-- Model of `&buf[a..b]`: the half-open byte span from `a` to `b`.
(Rust panics when `a > b` or `b > buf.len()`; at every use site below those
bounds hold, and the model then agrees with the Rust slice.) -/
def sliceBytes (m : List Nat) (a b : Nat) : List Nat :=
  (m.take b).drop a

/-- Model of `bytes.ends_with(b"\n")` / `s.ends_with('\n')`: a byte string
ends with the single byte LF exactly when its last byte is LF. -/
def endsLF (l : List Nat) : Bool :=
  l.getLast? = some LF

/-- Model of the terminator-counting loop used (identically) in three places
of `lib.rs` (chunk counting in `new`, and the in-piece prefix line counters of
both searches): scan for LF or CR; a CR immediately followed by LF consumes
both bytes; each step counts one terminator. -/
def scanCount : List Nat → Nat
  | [] => 0
  | b :: rest =>
    if b = CR then
      match rest with
      | [] => 1
      | b2 :: rest2 =>
        if b2 = LF then 1 + scanCount rest2 else 1 + scanCount (b2 :: rest2)
    else if b = LF then 1 + scanCount rest
    else scanCount rest

/-- Fuel-driven splitting into consecutive `chunkSize`-byte windows; the fuel
only bounds the number of windows (each step consumes at least one byte, so
fuel `m.length` suffices and the fuel-exhaustion branch is unreachable). -/
def chunksGo : Nat → List Nat → List (List Nat)
  | _, [] => []
  | 0, _ => []
  | fuel + 1, m => m.take chunkSize :: chunksGo fuel (m.drop chunkSize)

/-- Model of `rayon::par_chunks(chunk_size)`: the list of consecutive windows
of `chunkSize` bytes (the last one may be shorter); an empty buffer has no
windows. -/
def chunksOf (m : List Nat) : List (List Nat) :=
  chunksGo m.length m

/-- A chunk-index checkpoint: `ChunkMeta { byte_offset, start_line }`. -/
structure ChunkMeta where
  byte_offset : Nat
  start_line : Nat
deriving DecidableEq, Repr

/-- A piece of the piece table: `Piece::Original { start_line, line_count }`
or `Piece::Memory { start_idx, line_count }`. -/
inductive Piece where
  | Original (start_line : Nat) (line_count : Nat)
  | Memory (start_idx : Nat) (line_count : Nat)
deriving DecidableEq, Repr

/-- Model of `Piece::line_count`. -/
def Piece.lineCount : Piece → Nat
  | .Original _ c => c
  | .Memory _ c => c

/-- The engine state (`struct LogEngine`).  `mmap` is the read-only original,
`memory_buffer` the append-only edit buffer (each entry one line without
terminator), `last_block` the engine-owned scratch buffer handed to C. -/
structure LogEngine where
  mmap : List Nat
  chunks : List ChunkMeta
  original_total_lines : Nat
  pieces : List Piece
  memory_buffer : List (List Nat)
  last_block : List Nat
deriving DecidableEq, Repr

/-- Model of the accumulation loop of `LogEngine::new` over the per-chunk
line counts: for chunk `i` with count `count`, first apply the CR/LF boundary
correction (`mmap[off-1] == b'\r' && mmap.get(off) == Some(&b'\n')` with
`off = i * chunk_size`, only for `i > 0`), then record
`ChunkMeta { byte_offset, start_line = current_line }`, then add `count`.
Returns the chunk metadata together with the final `current_line`. -/
def buildChunksGo (m : List Nat) : Nat → Nat → List Nat → List ChunkMeta × Nat
  | _, cur, [] => ([], cur)
  | i, cur, count :: rest =>
    let off := i * chunkSize
    let cur1 := if 0 < i ∧ m.get? (off - 1) = some CR ∧ m.get? off = some LF
      then cur - 1 else cur
    let next := buildChunksGo m (i + 1) (cur1 + count) rest
    (ChunkMeta.mk off cur1 :: next.1, next.2)

/-- Model of `LogEngine::new` (without the I/O and `madvise` steps): chunked
line counting, boundary correction, the trailing-unterminated-line adjustment,
the non-empty clamp to at least one line, and the initial single original
piece covering all lines. -/
def LogEngine.new (m : List Nat) : LogEngine :=
  let counts := (chunksOf m).map scanCount
  let built := buildChunksGo m 0 0 counts
  let cur := built.2
  let otl :=
    if m = [] then cur
    else
      let withTail :=
        if m.getLast? ≠ some LF ∧ m.getLast? ≠ some CR then cur + 1 else cur
      if withTail = 0 then 1 else withTail
  { mmap := m
    chunks := built.1
    original_total_lines := otl
    pieces := [Piece.Original 0 otl]
    memory_buffer := []
    last_block := [] }

/-- Model of `memchr2(b'\n', b'\r', slice)`: index of the first LF or CR. -/
def findTerm (l : List Nat) : Option Nat :=
  l.findIdx? (fun b => b = LF || b = CR)

/-- Fuel-driven model of Rust `slice::binary_search_by_key` (the standard
library's loop: `mid = left + (right - left) / 2`, narrowing `[left, right)`;
`Sum.inl` is `Ok(idx)`, `Sum.inr` is `Err(insertion_point)`).  Each iteration
shrinks the interval by at least one, so fuel `keys.length + 1` never runs
out; the fall-through value is unreachable. -/
def binSearchGo (keys : List Nat) (target : Nat) : Nat → Nat → Nat → Sum Nat Nat
  | 0, left, _ => Sum.inr left
  | fuel + 1, left, right =>
    if left < right then
      let mid := left + (right - left) / 2
      let k := (keys.get? mid).getD 0
      if k < target then binSearchGo keys target fuel (mid + 1) right
      else if target < k then binSearchGo keys target fuel left mid
      else Sum.inl mid
    else Sum.inr left

/-- Rust `keys.binary_search(&target)` over the chunk `start_line` keys. -/
def binSearch (keys : List Nat) (target : Nat) : Sum Nat Nat :=
  binSearchGo keys target (keys.length + 1) 0 keys.length

/-- Model of the terminator-skipping walk of `line_to_byte_offset`: starting
at byte `offset`, skip the given number of terminators (on CR followed by LF,
consume both bytes); if the scan runs out of terminators, return the mapping
length. -/
def walkSkip (m : List Nat) : Nat → Nat → Nat
  | offset, 0 => offset
  | offset, skip + 1 =>
    if offset < m.length then
      match findTerm (m.drop offset) with
      | some pos =>
        let o := offset + pos + 1
        let o2 := if m.get? (offset + pos) = some CR ∧ o < m.length ∧
            m.get? o = some LF then o + 1 else o
        walkSkip m o2 skip
      | none => m.length
    else offset

/-- Model of `LogEngine::line_to_byte_offset`: lines at or past
`original_total_lines` resolve to the mapping length; otherwise binary-search
the chunk index by `start_line` (insertion point minus one on a miss) and walk
the remaining terminators.  (`chunks` is never empty when the guard passes, so
the `getD` default is unreachable.) -/
def LogEngine.line_to_byte_offset (e : LogEngine) (line : Nat) : Nat :=
  if e.original_total_lines ≤ line then e.mmap.length
  else
    let keys := e.chunks.map ChunkMeta.start_line
    let chunk_idx :=
      match binSearch keys line with
      | Sum.inl idx => idx
      | Sum.inr idx => idx - 1
    let chunk := (e.chunks.get? chunk_idx).getD (ChunkMeta.mk 0 0)
    walkSkip e.mmap chunk.byte_offset (line - chunk.start_line)

/-- Model of `LogEngine::get_original_bytes`. -/
def LogEngine.get_original_bytes (e : LogEngine) (start_line line_count : Nat) :
    List Nat :=
  if line_count = 0 then []
  else
    sliceBytes e.mmap (e.line_to_byte_offset start_line)
      (e.line_to_byte_offset (start_line + line_count))

/-- Model of `LogEngine::total_lines`: the sum of all piece line counts. -/
def LogEngine.total_lines (e : LogEngine) : Nat :=
  (e.pieces.map Piece.lineCount).sum

/-- Model of the accumulation loop of `find_piece_idx` (`i` is the index of
the head of the remaining piece-list suffix, `cur` the accumulated count). -/
def findPieceGo (logical : Nat) : List Piece → Nat → Nat → Nat × Nat
  | [], i, _ => (i, 0)
  | p :: rest, i, cur =>
    if logical < cur + p.lineCount then (i, logical - cur)
    else findPieceGo logical rest (i + 1) (cur + p.lineCount)

/-- Model of `LogEngine::find_piece_idx`: returns
`(piece_index, line_offset_inside_piece)`, or `(pieces.len(), 0)` when the
line is at or past the end. -/
def LogEngine.find_piece_idx (e : LogEngine) (logical : Nat) : Nat × Nat :=
  findPieceGo logical e.pieces 0 0

/-- Model of `Vec::insert(idx, x)` (the index never exceeds the length at the
use sites, so the out-of-range case — a Rust panic — is unreachable). -/
def insAt (x : Piece) : List Piece → Nat → List Piece
  | l, 0 => x :: l
  | [], _ + 1 => []
  | p :: l, i + 1 => p :: insAt x l i

/-- Model of `LogEngine::split_piece_at` acting on the piece list: no-op when
the offset is zero, the index is out of range, or the offset is not interior;
otherwise replace the piece by two pieces of the same variant partitioning its
range at the offset. -/
def splitPiecesAt : List Piece → Nat → Nat → List Piece
  | [], _, _ => []
  | p :: rest, 0, offset =>
    if offset = 0 then p :: rest
    else if p.lineCount ≤ offset then p :: rest
    else
      match p with
      | .Original s c => .Original s offset :: .Original (s + offset) (c - offset) :: rest
      | .Memory s c => .Memory s offset :: .Memory (s + offset) (c - offset) :: rest
  | p :: rest, i + 1, offset => p :: splitPiecesAt rest i offset

/-- Model of the deletion loop of `apply_edit`, acting on the piece-list
suffix that starts at the insertion index (`pieces.remove(piece_idx)` with
`piece_idx` fixed removes from the front of that suffix): while lines remain
to delete, remove pieces wholly covered, and split-then-drop the front of a
partially covered piece. -/
def deleteSuffix : List Piece → Nat → List Piece
  | [], _ => []
  | p :: rest, remaining =>
    if remaining = 0 then p :: rest
    else if p.lineCount ≤ remaining then deleteSuffix rest (remaining - p.lineCount)
    else
      match splitPiecesAt (p :: rest) 0 remaining with
      | [] => []
      | _ :: tail => tail

/-- Model of `new_text.split('\n')` on a UTF-8 byte string (the byte LF never
occurs inside a multi-byte UTF-8 sequence, so byte-level splitting agrees with
Rust's `char`-level split). -/
def splitOnLF : List Nat → List (List Nat)
  | [] => [[]]
  | 10 :: rest => [] :: splitOnLF rest
  | b :: rest =>
    match splitOnLF rest with
    | [] => [[b]]
    | s :: ss => (b :: s) :: ss

/-- Model of the trailing-empty-line drop of `apply_edit`: pop one final empty
entry produced by `split` when the text ended with LF. -/
def popTrailingEmpty (lines : List (List Nat)) : List (List Nat) :=
  if lines.getLast? = some [] then lines.dropLast else lines

/-- Model of `LogEngine::apply_edit`: locate and split the piece containing
`start_line`, advance past the left half, delete `num_deleted` lines, decode
`new_text` into lines and insert a single memory piece referencing the freshly
appended edit-buffer range. -/
def LogEngine.apply_edit (e : LogEngine) (start_line num_deleted : Nat)
    (new_text : List Nat) : LogEngine :=
  let found := e.find_piece_idx start_line
  let piece_idx0 := found.1
  let offset := found.2
  let pieces1 :=
    if piece_idx0 < e.pieces.length then splitPiecesAt e.pieces piece_idx0 offset
    else e.pieces
  let piece_idx := if piece_idx0 < e.pieces.length ∧ 0 < offset
    then piece_idx0 + 1 else piece_idx0
  let pieces2 := pieces1.take piece_idx ++
    deleteSuffix (pieces1.drop piece_idx) num_deleted
  if new_text = [] then { e with pieces := pieces2 }
  else
    let lines := popTrailingEmpty (splitOnLF new_text)
    if lines = [] then { e with pieces := pieces2 }
    else
      let start_idx := e.memory_buffer.length
      { e with
        memory_buffer := e.memory_buffer ++ lines
        pieces := insAt (Piece.Memory start_idx lines.length) pieces2 piece_idx }

/-- The three UTF-8 bytes of U+FFFD REPLACEMENT CHARACTER, pushed by
`String::from_utf8_lossy` for every maximal invalid subpart. -/
def replChar : List Nat := [239, 191, 189]

/-- A UTF-8 continuation byte (`0x80..=0xBF`). -/
def isCont (b : Nat) : Bool := 128 ≤ b ∧ b ≤ 191

/-- Admissible second byte of a three-byte UTF-8 sequence led by `b`
(`0xE0` needs `0xA0..=0xBF`, `0xED` needs `0x80..=0x9F`, the rest a plain
continuation byte), per the standard library validator. -/
def sndOk3 (b c : Nat) : Bool :=
  if b = 224 then 160 ≤ c ∧ c ≤ 191
  else if b = 237 then 128 ≤ c ∧ c ≤ 159
  else isCont c

/-- Admissible second byte of a four-byte UTF-8 sequence led by `b`
(`0xF0` needs `0x90..=0xBF`, `0xF4` needs `0x80..=0x8F`, the rest a plain
continuation byte). -/
def sndOk4 (b c : Nat) : Bool :=
  if b = 240 then 144 ≤ c ∧ c ≤ 191
  else if b = 244 then 128 ≤ c ∧ c ≤ 143
  else isCont c

/-- Byte-level model of `String::from_utf8_lossy`: valid UTF-8 sequences are
copied verbatim; each maximal invalid subpart (using the standard library's
error lengths: the offending leading byte alone, or the valid prefix of an
incomplete multi-byte sequence) is replaced by the three bytes of U+FFFD. -/
def utf8Lossy : List Nat → List Nat
  | [] => []
  | b :: rest =>
    if b < 128 then b :: utf8Lossy rest
    else if 194 ≤ b ∧ b ≤ 223 then
      match rest with
      | [] => replChar
      | c :: r2 =>
        if isCont c then b :: c :: utf8Lossy r2
        else replChar ++ utf8Lossy (c :: r2)
    else if 224 ≤ b ∧ b ≤ 239 then
      match rest with
      | [] => replChar
      | c :: r2 =>
        if sndOk3 b c then
          match r2 with
          | [] => replChar
          | d :: r3 =>
            if isCont d then b :: c :: d :: utf8Lossy r3
            else replChar ++ utf8Lossy (d :: r3)
        else replChar ++ utf8Lossy (c :: r2)
    else if 240 ≤ b ∧ b ≤ 244 then
      match rest with
      | [] => replChar
      | c :: r2 =>
        if sndOk4 b c then
          match r2 with
          | [] => replChar
          | d :: r3 =>
            if isCont d then
              match r3 with
              | [] => replChar
              | f :: r4 =>
                if isCont f then b :: c :: d :: f :: utf8Lossy r4
                else replChar ++ utf8Lossy (f :: r4)
            else replChar ++ utf8Lossy (d :: r3)
        else replChar ++ utf8Lossy (c :: r2)
    else replChar ++ utf8Lossy rest

/-- Model of the piece-walking loop of `get_block`: take up to the remaining
requested lines from each piece, appending the resolved original bytes decoded
through `from_utf8_lossy` (plus an LF when the accumulated buffer does not
already end with one) or the stored memory lines each followed by LF. -/
def getBlockGo (e : LogEngine) : List Piece → Nat → Nat → List Nat → List Nat
  | [], _, _, acc => acc
  | p :: rest, offset, remaining, acc =>
    if remaining = 0 then acc
    else
      let take := min (p.lineCount - offset) remaining
      let acc2 :=
        match p with
        | .Original p_start _ =>
          let bytes := utf8Lossy (sliceBytes e.mmap
            (e.line_to_byte_offset (p_start + offset))
            (e.line_to_byte_offset (p_start + offset + take)))
          let a := acc ++ bytes
          if ¬ endsLF a ∧ a ≠ [] then a ++ [LF] else a
        | .Memory start_idx _ =>
          acc ++ ((List.range take).map
            (fun i => (e.memory_buffer.get? (start_idx + offset + i)).getD [] ++ [LF])).flatten
      getBlockGo e rest 0 (remaining - take) acc2

/-- Model of `LogEngine::get_block`: the updated engine (its scratch
`last_block` rewritten) together with the returned view — `none` models the
null pointer of the early return, `some` the pointer into `last_block`. -/
def LogEngine.get_block (e : LogEngine) (start_line num_lines : Nat) :
    LogEngine × Option (List Nat) :=
  if num_lines = 0 ∨ e.total_lines ≤ start_line then
    ({ e with last_block := [] }, none)
  else
    let found := e.find_piece_idx start_line
    let b := getBlockGo e (e.pieces.drop found.1) found.2 num_lines []
    ({ e with last_block := b }, some b)

/-- Save output of a single piece: original bytes verbatim plus an LF when the
segment is non-empty and does not already end with LF; memory lines each
followed by LF. -/
def savePieceOut (e : LogEngine) : Piece → List Nat
  | .Original s c =>
    let bytes := e.get_original_bytes s c
    if ¬ endsLF bytes ∧ bytes ≠ [] then bytes ++ [LF] else bytes
  | .Memory start_idx c =>
    ((List.range c).map
      (fun i => (e.memory_buffer.get? (start_idx + i)).getD [] ++ [LF])).flatten

/-- Model of the piece-streaming loop of `LogEngine::save`. -/
def saveGo (e : LogEngine) : List Piece → List Nat
  | [] => []
  | p :: rest => savePieceOut e p ++ saveGo e rest

/-- Model of `LogEngine::save`: the byte sequence written to the temp file on
a successful save (I/O failures and the atomic rename are outside the model). -/
def LogEngine.save (e : LogEngine) : List Nat :=
  saveGo e e.pieces

/-- All start indices at which `needle` occurs in `hay` (ascending).  `head?`
of this list models `memmem::find`, `getLast?` models `memmem::rfind`. -/
def subPositions (hay needle : List Nat) : List Nat :=
  (List.range (hay.length + 1)).filter (fun i => needle.isPrefixOf (hay.drop i))

/-- Model of `str::contains` on byte strings: substring containment. -/
def containsBytes (hay needle : List Nat) : Bool :=
  (subPositions hay needle).head?.isSome

/-- Model of the forward piece-walking loop of `log_engine_search` over the
piece-list suffix starting at the located piece. -/
def searchGo (e : LogEngine) (q : List Nat) : List Piece → Nat → Nat → Int
  | [], _, _ => -1
  | p :: rest, offset, cur =>
    match p with
    | .Original p_start line_count =>
      let bytes := e.get_original_bytes (p_start + offset) (line_count - offset)
      match (subPositions bytes q).head? with
      | some pos => Int.ofNat (cur + scanCount (bytes.take pos))
      | none => searchGo e q rest 0 (cur + (p.lineCount - offset))
    | .Memory start_idx line_count =>
      match ((List.range' offset (line_count - offset)).find?
          (fun i => containsBytes ((e.memory_buffer.get? (start_idx + i)).getD []) q)) with
      | some i => Int.ofNat (cur + i - offset)
      | none => searchGo e q rest 0 (cur + (p.lineCount - offset))

/-- Model of `log_engine_search` (minus the null-pointer and NUL-termination
plumbing of the C ABI): `-1` for an empty query or no match, otherwise the
logical line containing the start of the first match at or after the start
line. -/
def LogEngine.search (e : LogEngine) (q : List Nat) (start_line : Nat) : Int :=
  if q = [] then -1
  else
    let found := e.find_piece_idx start_line
    searchGo e q (e.pieces.drop found.1) found.2 start_line

/-- Model of the backward piece-walking loop of `log_engine_search_backward`,
recursing from piece index `idx` down to `0`.  (The `pieces.get? idx = none`
case is a Rust index panic, unreachable for a non-empty piece table.) -/
def searchBackGo (e : LogEngine) (q : List Nat) : Nat → Nat → Nat → Int
  | idx, offset, cur =>
    match e.pieces.get? idx with
    | none => -1
    | some p =>
      let hit : Option Int :=
        match p with
        | .Original p_start _ =>
          let bytes := e.get_original_bytes p_start (offset + 1)
          match (subPositions bytes q).getLast? with
          | some pos => some (Int.ofNat (cur - offset + scanCount (bytes.take pos)))
          | none => none
        | .Memory start_idx _ =>
          match (((List.range (offset + 1)).reverse).find?
              (fun i => containsBytes ((e.memory_buffer.get? (start_idx + i)).getD []) q)) with
          | some i => some (Int.ofNat (cur - offset + i))
          | none => none
      match hit with
      | some r => r
      | none =>
        match idx with
        | 0 => -1
        | idx' + 1 =>
          let cur2 := cur - (offset + 1)
          searchBackGo e q idx' (((e.pieces.get? idx').getD (Piece.Original 0 0)).lineCount - 1) cur2

/-- Model of `log_engine_search_backward` (minus the C-ABI plumbing): locate
the starting piece, clamp a start past the end to the last line of the last
piece, then walk pieces right to left. -/
def LogEngine.search_backward (e : LogEngine) (q : List Nat) (start_line : Nat) : Int :=
  if q = [] then -1
  else
    let found := e.find_piece_idx start_line
    let clamped :=
      if e.pieces.length ≤ found.1 then
        let idx := e.pieces.length - 1
        (idx, ((e.pieces.get? idx).getD (Piece.Original 0 0)).lineCount - 1)
      else found
    searchBackGo e q clamped.1 clamped.2 start_line

/-- States reachable by engine operations: construction from a file followed
by any sequence of edits (the read-only operations do not touch the piece
table, so they are irrelevant to piece-table invariants). -/
inductive Reachable : LogEngine → Prop
  | base (m : List Nat) : m ≠ [] → Reachable (LogEngine.new m)
  | step (e : LogEngine) (L n : Nat) (t : List Nat) :
      Reachable e → Reachable (e.apply_edit L n t)

/-- Closed form of the terminator count used in the proofs: scan left to
right remembering the previous byte; a CR always counts, an LF counts exactly
when the previous byte is not CR. -/
def crlfGo (prev : Nat) : List Nat → Nat
  | [] => 0
  | b :: rest =>
    (if b = CR ∨ (b = LF ∧ prev ≠ CR) then 1 else 0) + crlfGo b rest

/-- Number of terminators completed strictly before byte position `p`. -/
def cnt (m : List Nat) (p : Nat) : Nat :=
  crlfGo 0 (m.take p)

/-- Byte position `o` is the start of a logical line of `m`: either the very
beginning, or the position right after a full terminator (LF, or a CR that is
not the first half of a CRLF pair). -/
def IsLineStart (m : List Nat) (o : Nat) : Prop :=
  o = 0 ∨ m.get? (o - 1) = some LF ∨
    (m.get? (o - 1) = some CR ∧ m.get? o ≠ some LF)

/-- Join a list of lines, terminating every line with LF. -/
def joinLF (lines : List (List Nat)) : List Nat :=
  (lines.map (fun l => l ++ [LF])).flatten

/-- The LF-termination step shared by `save` and `get_block`: append an LF
exactly when the byte string is non-empty and does not already end with LF. -/
def withLF (x : List Nat) : List Nat :=
  if ¬ endsLF x ∧ x ≠ [] then x ++ [LF] else x

/-- The concrete original file of the backward-search scenario:
`"foo\nbar\nfoo\n"`. -/
def fooBarFoo : List Nat := [102, 111, 111, 10, 98, 97, 114, 10, 102, 111, 111, 10]

/-- The query `"foo"`. -/
def fooQ : List Nat := [102, 111, 111]

/-- The scenario engine: open `"foo\nbar\nfoo\n"`, then `apply_edit(1, 0, "foo\n")`. -/
def scenarioEngine : LogEngine :=
  (LogEngine.new fooBarFoo).apply_edit 1 0 [102, 111, 111, 10]

/-- The four-byte file `"foo\n"`. -/
def fooNl : List Nat := [102, 111, 111, 10]

/-- The four-byte file `"x\ry\n"` (a lone-CR terminator followed by an
LF-terminated line). -/
def xry : List Nat := [120, 13, 121, 10]

/-- The logical lines of an LF-terminated original file: the LF-separated
chunks, with the trailing empty chunk (present when the file ends in LF)
dropped.  For a CR-free file this matches the constructor's line count. -/
def olinesOf (m : List Nat) : List (List Nat) :=
  popTrailingEmpty (splitOnLF m)

/-- Raw content of original line `j` (no terminator). -/
def origLine (m : List Nat) (j : Nat) : List Nat :=
  ((olinesOf m).get? j).getD []

/-- Original line `j` including its terminator bytes: the byte span between
the walk positions of lines `j` and `j + 1`. -/
def origLineT (m : List Nat) (j : Nat) : List Nat :=
  sliceBytes m (walkSkip m 0 j) (walkSkip m 0 (j + 1))

/-- Edit-buffer line lookup. -/
def memLine (e : LogEngine) (i : Nat) : List Nat :=
  (e.memory_buffer.get? i).getD []

/-- The logical lines contributed by one piece, parameterized by how an
original line and an edit-buffer line are rendered. -/
def pieceLinesBy (g mem : Nat → List Nat) : Piece → List (List Nat)
  | .Original s c => (List.range c).map (fun j => g (s + j))
  | .Memory s c => (List.range c).map (fun j => mem (s + j))

/-- The rendered document of a piece list: the concatenation of the per-piece
line lists. -/
def docBy (g mem : Nat → List Nat) (ps : List Piece) : List (List Nat) :=
  (ps.map (pieceLinesBy g mem)).flatten

/-- The sum of the line counts of a piece list. -/
def sumCounts (ps : List Piece) : Nat :=
  (ps.map Piece.lineCount).sum

/-- The raw document of an engine: original lines verbatim, edit-buffer lines
as stored.  `save` streams exactly these lines, each LF-terminated. -/
def docRaw (e : LogEngine) : List (List Nat) :=
  docBy (origLine e.mmap) (memLine e) e.pieces

/-- The decoded document of an engine: original lines decoded through
`from_utf8_lossy` (as `get_block` renders them), edit-buffer lines as
stored. -/
def docDec (e : LogEngine) : List (List Nat) :=
  docBy (fun j => utf8Lossy (origLine e.mmap j)) (memLine e) e.pieces

/-- The terminated-line document of an engine: original lines including their
terminator bytes, edit-buffer lines as stored.  Both searches test the query
against exactly these per-line byte strings. -/
def docT (e : LogEngine) : List (List Nat) :=
  docBy (origLineT e.mmap) (memLine e) e.pieces

/-- Line `i` of the rendered line list contains the query as a contiguous
byte substring. -/
def lineHit (q : List Nat) (ls : List (List Nat)) (i : Nat) : Prop :=
  containsBytes ((ls.get? i).getD []) q = true

/-- Structural invariant of every engine state reachable from a non-empty
original that fits in one chunk window: the mapping, chunk index and original
line count are those computed by the constructor; every piece is non-empty
and references an in-range span of the original or of the edit buffer; and
every edit-buffer line is LF-free (the buffer is only ever extended with
chunks of `split('\n')`). -/
structure EngInv (e : LogEngine) : Prop where
  hne : e.mmap ≠ []
  hlen : e.mmap.length ≤ chunkSize
  hch : e.chunks = [ChunkMeta.mk 0 0]
  hotl : e.original_total_lines = (LogEngine.new e.mmap).original_total_lines
  hcount : ∀ p ∈ e.pieces, 1 ≤ p.lineCount
  horig : ∀ s c, Piece.Original s c ∈ e.pieces → s + c ≤ e.original_total_lines
  hmemb : ∀ s c, Piece.Memory s c ∈ e.pieces → s + c ≤ e.memory_buffer.length
  hbuf : ∀ l ∈ e.memory_buffer, LF ∉ l


/-- Streaming the pieces during `save` is the concatenation of the per-piece
save outputs. -/
theorem saveGo_eq_flatten (e : LogEngine) (ps : List Piece) :
    saveGo e ps = (ps.map (savePieceOut e)).flatten := by
  induction ps with
  | nil => rfl
  | cons p rest ih => simp [saveGo, ih]

/-- C1: the claim states that in the scenario engine (original
`"foo\nbar\nfoo\n"` after `apply_edit(1, 0, "foo\n")`) backward search for
`"foo"` from line 3 returns 2.  It in fact returns 3: line 3 of the edited
document is the original's last `"foo"` line, which itself matches, and the
search starts at or before the start line. -/
theorem c1_counterexample : scenarioEngine.search_backward fooQ 3 ≠ 2 := by decide

/-- C1 (amended): in the scenario, `search_backward("foo", 3)` returns 3 (the
match on the start line itself) and `search_backward("foo", 1)` returns 1. -/
theorem c1_amended :
    scenarioEngine.search_backward fooQ 3 = 3 ∧
    scenarioEngine.search_backward fooQ 1 = 1 := by decide

/-- C2: the claim states an empty file yields zero total lines and an empty
piece table; the constructor in fact always inserts one original piece, here
of line count zero, so the piece table is not empty. -/
theorem c2_counterexample :
    ¬ ((LogEngine.new []).total_lines = 0 ∧ (LogEngine.new []).pieces = []) := by
  decide

/-- C2 (amended): an empty file yields zero total lines and a piece table
holding exactly one zero-length original piece. -/
theorem c2_amended :
    (LogEngine.new []).total_lines = 0 ∧
    (LogEngine.new []).pieces = [Piece.Original 0 0] := by decide

/-- C3: for the engine opened on `"foo\n"` (one line), a backward search for
`"foo"` from `start_line = 1 = total_lines()` returns 1 — an out-of-range
line — while the clamped search from `total_lines() - 1 = 0` returns 0.  The
code clamps the piece index and intra-piece offset but keeps
`current_logical` at the unclamped start line, so every result is shifted by
the overshoot, contradicting the intended clamping semantics. -/
theorem c3_divergence :
    (LogEngine.new fooNl).total_lines = 1 ∧
    (LogEngine.new fooNl).search_backward fooQ 1 = 1 ∧
    (LogEngine.new fooNl).search_backward fooQ 0 = 0 := by decide

/-- C4: the claim states an original segment ending in a lone CR receives no
appended LF on save.  The code only tests for a trailing LF, so the engine
opened on `"a\r"` saves `"a\r\n"`, not `"a\r"`. -/
theorem c4_counterexample : ¬ ((LogEngine.new [97, 13]).save = [97, 13]) := by
  decide

/-- C4 (amended): during save every original piece is written verbatim with
an LF appended exactly when the resolved segment does not already end with LF
— in particular a segment ending in a lone CR DOES receive an appended LF —
every memory line is written followed by LF, and the save output is the
concatenation of the per-piece outputs. -/
theorem c4_amended (e : LogEngine) (s c : Nat)
    (hcr : (e.get_original_bytes s c).getLast? = some CR) :
    savePieceOut e (Piece.Original s c) = e.get_original_bytes s c ++ [LF] ∧
    (∀ s2 c2, (e.get_original_bytes s2 c2).getLast? = some LF →
      savePieceOut e (Piece.Original s2 c2) = e.get_original_bytes s2 c2) ∧
    (∀ i k, savePieceOut e (Piece.Memory i k) =
      ((List.range k).map
        (fun j => (e.memory_buffer.get? (i + j)).getD [] ++ [LF])).flatten) ∧
    e.save = (e.pieces.map (savePieceOut e)).flatten := by
  refine ⟨?_, ?_, ?_, saveGo_eq_flatten e e.pieces⟩
  · have hne : e.get_original_bytes s c ≠ [] := by
      intro h
      rw [h] at hcr
      simp at hcr
    have hnl : endsLF (e.get_original_bytes s c) = false := by
      simp [endsLF, hcr, LF, CR]
    simp [savePieceOut, hnl, hne]
  · intro s2 c2 h
    have : endsLF (e.get_original_bytes s2 c2) = true := by simp [endsLF, h]
    simp [savePieceOut, this]
  · intro i k
    rfl

/-- C4 (witness): for the engine opened on `"a\r"` the single original piece
resolves to `"a\r"`, which ends in a lone CR, and its save output is
`"a\r\n"`. -/
theorem c4_witness :
    savePieceOut (LogEngine.new [97, 13]) (Piece.Original 0 1) =
      (LogEngine.new [97, 13]).get_original_bytes 0 1 ++ [LF] :=
  (c4_amended (LogEngine.new [97, 13]) 0 1 (by decide)).1

/-- C5: the claim states that replacing lines by their own block-extracted
content leaves the save output unchanged.  On the engine opened on `"x\ry\n"`
the block for line 0 is `"x\r\n"` (the extractor appends an LF after the lone
CR), and re-inserting it as a memory line changes the saved bytes from
`"x\ry\n"` to `"x\r\ny\n"`. -/
theorem c5_counterexample :
    ¬ (((LogEngine.new xry).apply_edit 0 1
          (((LogEngine.new xry).get_block 0 1).2.getD [])).save =
        (LogEngine.new xry).save) := by decide

/-- C8: the claim states `apply_edit(L, 0, "")` changes no block extraction.
On the engine opened on `"x\ry\n"` the edit `apply_edit(1, 0, "")` splits the
original piece after the lone-CR line; the block for lines 0–1 then gains an
LF after the CR (`"x\r\ny\n"` instead of `"x\ry\n"`). -/
theorem c8_counterexample :
    ¬ ((((LogEngine.new xry).apply_edit 1 0 []).get_block 0 2).2 =
        ((LogEngine.new xry).get_block 0 2).2) := by decide

/-- C9: the claim states that `search(q, 0) = L ≥ 0` implies
`search_backward(q, L) = L`.  On the engine opened on `"ab\ncd\n"` with the
terminator-spanning query `"b\ncd"`, the forward search reports line 0 (the
line containing the start of the match), but the backward search from line 0
only examines the bytes of line 0 and misses the match entirely. -/
theorem c9_counterexample :
    (LogEngine.new [97, 98, 10, 99, 100, 10]).search [98, 10, 99, 100] 0 = 0 ∧
    (LogEngine.new [97, 98, 10, 99, 100, 10]).search_backward [98, 10, 99, 100] 0 ≠ 0 := by
  decide

/-- Rewriting the scratch buffer changes no field the other operations read. -/
theorem scratch_mmap (e : LogEngine) (b : List Nat) :
    ({ e with last_block := b } : LogEngine).mmap = e.mmap := rfl

/-- The per-piece save output never reads the scratch buffer. -/
theorem savePieceOut_scratch (e : LogEngine) (b : List Nat) :
    savePieceOut { e with last_block := b } = savePieceOut e := rfl

/-- The save loop never reads the scratch buffer. -/
theorem saveGo_scratch (e : LogEngine) (b : List Nat) (ps : List Piece) :
    saveGo { e with last_block := b } ps = saveGo e ps := by
  induction ps with
  | nil => rfl
  | cons p rest ih => simp [saveGo, savePieceOut_scratch, ih]

/-- The forward search loop never reads the scratch buffer. -/
theorem searchGo_scratch (e : LogEngine) (b : List Nat) (q : List Nat)
    (ps : List Piece) : ∀ offset cur,
    searchGo { e with last_block := b } q ps offset cur = searchGo e q ps offset cur := by
  induction ps with
  | nil => intro offset cur; rfl
  | cons p rest ih =>
    intro offset cur
    cases p <;>
      simp only [searchGo,
        show LogEngine.get_original_bytes { e with last_block := b } =
          e.get_original_bytes from rfl,
        show ({ e with last_block := b } : LogEngine).memory_buffer =
          e.memory_buffer from rfl, Piece.lineCount, ih]

/-- The backward search loop never reads the scratch buffer. -/
theorem searchBackGo_scratch (e : LogEngine) (b : List Nat) (q : List Nat) :
    ∀ idx offset cur,
    searchBackGo { e with last_block := b } q idx offset cur =
      searchBackGo e q idx offset cur := by
  intro idx
  induction idx with
  | zero =>
    intro offset cur
    simp only [searchBackGo,
      show ({ e with last_block := b } : LogEngine).pieces = e.pieces from rfl,
      show LogEngine.get_original_bytes { e with last_block := b } =
        e.get_original_bytes from rfl,
      show ({ e with last_block := b } : LogEngine).memory_buffer =
        e.memory_buffer from rfl]
  | succ idx ih =>
    intro offset cur
    simp only [searchBackGo,
      show ({ e with last_block := b } : LogEngine).pieces = e.pieces from rfl,
      show LogEngine.get_original_bytes { e with last_block := b } =
        e.get_original_bytes from rfl,
      show ({ e with last_block := b } : LogEngine).memory_buffer =
        e.memory_buffer from rfl, ih]

/-- C10: among the modelled operations only `get_block` updates the engine
state, and it rewrites only the engine-owned scratch buffer `last_block`:
the piece table, edit buffer, chunk index, original line count and mapped
bytes of the result are those of the input, and `total_lines`, `search`,
`search_backward` and `save` are functions of the state that never read the
scratch buffer. -/
theorem c10_frame (e : LogEngine) (s n st : Nat) (q : List Nat) (b : List Nat) :
    ((e.get_block s n).1.mmap = e.mmap ∧
     (e.get_block s n).1.chunks = e.chunks ∧
     (e.get_block s n).1.original_total_lines = e.original_total_lines ∧
     (e.get_block s n).1.pieces = e.pieces ∧
     (e.get_block s n).1.memory_buffer = e.memory_buffer) ∧
    ({ e with last_block := b }.total_lines = e.total_lines ∧
     { e with last_block := b }.save = e.save ∧
     { e with last_block := b }.search q st = e.search q st ∧
     { e with last_block := b }.search_backward q st = e.search_backward q st) := by
  constructor
  · unfold LogEngine.get_block
    split <;> simp
  · refine ⟨rfl, saveGo_scratch e b e.pieces, ?_, ?_⟩
    · unfold LogEngine.search
      by_cases hq : q = []
      · simp [hq]
      · simp only [hq, if_false]
        exact searchGo_scratch e b q _ _ st
    · unfold LogEngine.search_backward
      by_cases hq : q = []
      · simp [hq]
      · simp only [hq, if_false]
        exact searchBackGo_scratch e b q _ _ st

/-- Splitting never introduces a zero-length piece: the guards make splits
that would produce one no-ops, and an interior split produces two halves of
positive length. -/
theorem lineCount_splitPiecesAt (l : List Piece) :
    ∀ i off, (∀ x ∈ l, 1 ≤ x.lineCount) →
    ∀ p ∈ splitPiecesAt l i off, 1 ≤ p.lineCount := by
  induction l with
  | nil => intro i off _ p hp; simp [splitPiecesAt] at hp
  | cons q rest ih =>
    intro i off h p hp
    cases i with
    | zero =>
      unfold splitPiecesAt at hp
      by_cases h0 : off = 0
      · rw [if_pos h0] at hp
        exact h p hp
      · rw [if_neg h0] at hp
        by_cases h1 : q.lineCount ≤ off
        · rw [if_pos h1] at hp
          exact h p hp
        · rw [if_neg h1] at hp
          cases q with
          | Original s c =>
            simp only [Piece.lineCount] at h1
            simp only [List.mem_cons] at hp
            rcases hp with hp | hp | hp
            · rw [hp]; simp [Piece.lineCount]; omega
            · rw [hp]; simp [Piece.lineCount]; omega
            · exact h p (by simp [hp])
          | Memory s c =>
            simp only [Piece.lineCount] at h1
            simp only [List.mem_cons] at hp
            rcases hp with hp | hp | hp
            · rw [hp]; simp [Piece.lineCount]; omega
            · rw [hp]; simp [Piece.lineCount]; omega
            · exact h p (by simp [hp])
    | succ i0 =>
      unfold splitPiecesAt at hp
      simp only [List.mem_cons] at hp
      rcases hp with hp | hp
      · exact h p (by simp [hp])
      · exact ih i0 off (fun x hx => h x (by simp [hx])) p hp

/-- The deletion loop never introduces a zero-length piece. -/
theorem lineCount_deleteSuffix (l : List Piece) :
    ∀ rem, (∀ x ∈ l, 1 ≤ x.lineCount) →
    ∀ p ∈ deleteSuffix l rem, 1 ≤ p.lineCount := by
  induction l with
  | nil => intro rem _ p hp; simp [deleteSuffix] at hp
  | cons q rest ih =>
    intro rem h p hp
    unfold deleteSuffix at hp
    by_cases h0 : rem = 0
    · rw [if_pos h0] at hp
      exact h p hp
    · rw [if_neg h0] at hp
      by_cases h1 : q.lineCount ≤ rem
      · rw [if_pos h1] at hp
        exact ih (rem - q.lineCount) (fun x hx => h x (by simp [hx])) p hp
      · rw [if_neg h1] at hp
        have hall := lineCount_splitPiecesAt (q :: rest) 0 rem h
        rcases hsp : splitPiecesAt (q :: rest) 0 rem with _ | ⟨hd, tl⟩
        · rw [hsp] at hp; simp at hp
        · rw [hsp] at hp
          exact hall p (by rw [hsp]; simp [hp])

/-- Insertion adds exactly the given piece. -/
theorem mem_insAt (x : Piece) (l : List Piece) :
    ∀ i p, p ∈ insAt x l i → p = x ∨ p ∈ l := by
  induction l with
  | nil =>
    intro i p hp
    cases i with
    | zero => simp [insAt] at hp; simp [hp]
    | succ i0 => simp [insAt] at hp
  | cons q rest ih =>
    intro i p hp
    cases i with
    | zero =>
      simp only [insAt, List.mem_cons] at hp
      simp only [List.mem_cons]
      tauto
    | succ i0 =>
      simp only [insAt, List.mem_cons] at hp
      simp only [List.mem_cons]
      rcases hp with hp | hp
      · tauto
      · rcases ih i0 p hp with h | h
        · tauto
        · tauto

/-- The piece table produced by an edit, written out explicitly: split at the
located position, delete from the advanced index, and insert a memory piece
when the decoded text is non-empty. -/
theorem apply_edit_pieces (e : LogEngine) (L n : Nat) (t : List Nat) :
    (e.apply_edit L n t).pieces =
      (if t = [] then
        (if (e.find_piece_idx L).1 < e.pieces.length then
            splitPiecesAt e.pieces (e.find_piece_idx L).1 (e.find_piece_idx L).2
          else e.pieces).take
            (if (e.find_piece_idx L).1 < e.pieces.length ∧ 0 < (e.find_piece_idx L).2
              then (e.find_piece_idx L).1 + 1 else (e.find_piece_idx L).1) ++
          deleteSuffix
            ((if (e.find_piece_idx L).1 < e.pieces.length then
                splitPiecesAt e.pieces (e.find_piece_idx L).1 (e.find_piece_idx L).2
              else e.pieces).drop
              (if (e.find_piece_idx L).1 < e.pieces.length ∧ 0 < (e.find_piece_idx L).2
                then (e.find_piece_idx L).1 + 1 else (e.find_piece_idx L).1)) n
      else if popTrailingEmpty (splitOnLF t) = [] then
        (if (e.find_piece_idx L).1 < e.pieces.length then
            splitPiecesAt e.pieces (e.find_piece_idx L).1 (e.find_piece_idx L).2
          else e.pieces).take
            (if (e.find_piece_idx L).1 < e.pieces.length ∧ 0 < (e.find_piece_idx L).2
              then (e.find_piece_idx L).1 + 1 else (e.find_piece_idx L).1) ++
          deleteSuffix
            ((if (e.find_piece_idx L).1 < e.pieces.length then
                splitPiecesAt e.pieces (e.find_piece_idx L).1 (e.find_piece_idx L).2
              else e.pieces).drop
              (if (e.find_piece_idx L).1 < e.pieces.length ∧ 0 < (e.find_piece_idx L).2
                then (e.find_piece_idx L).1 + 1 else (e.find_piece_idx L).1)) n
      else
        insAt (Piece.Memory e.memory_buffer.length (popTrailingEmpty (splitOnLF t)).length)
          ((if (e.find_piece_idx L).1 < e.pieces.length then
              splitPiecesAt e.pieces (e.find_piece_idx L).1 (e.find_piece_idx L).2
            else e.pieces).take
              (if (e.find_piece_idx L).1 < e.pieces.length ∧ 0 < (e.find_piece_idx L).2
                then (e.find_piece_idx L).1 + 1 else (e.find_piece_idx L).1) ++
            deleteSuffix
              ((if (e.find_piece_idx L).1 < e.pieces.length then
                  splitPiecesAt e.pieces (e.find_piece_idx L).1 (e.find_piece_idx L).2
                else e.pieces).drop
                (if (e.find_piece_idx L).1 < e.pieces.length ∧ 0 < (e.find_piece_idx L).2
                  then (e.find_piece_idx L).1 + 1 else (e.find_piece_idx L).1)) n)
          (if (e.find_piece_idx L).1 < e.pieces.length ∧ 0 < (e.find_piece_idx L).2
            then (e.find_piece_idx L).1 + 1 else (e.find_piece_idx L).1)) := by
  unfold LogEngine.apply_edit
  by_cases ht : t = []
  · simp [ht]
  · by_cases hl : popTrailingEmpty (splitOnLF t) = []
    · simp [ht, hl]
    · simp [ht, hl]

/-- A single edit never introduces a zero-length piece. -/
theorem lineCount_apply_edit (e : LogEngine) (L n : Nat) (t : List Nat)
    (h : ∀ p ∈ e.pieces, 1 ≤ p.lineCount) :
    ∀ p ∈ (e.apply_edit L n t).pieces, 1 ≤ p.lineCount := by
  intro p hp
  rw [apply_edit_pieces] at hp
  have h1 : ∀ x ∈ (if (e.find_piece_idx L).1 < e.pieces.length then
      splitPiecesAt e.pieces (e.find_piece_idx L).1 (e.find_piece_idx L).2
      else e.pieces), 1 ≤ x.lineCount := by
    split
    · exact lineCount_splitPiecesAt e.pieces _ _ h
    · exact h
  have h2 : ∀ x ∈ (if (e.find_piece_idx L).1 < e.pieces.length then
        splitPiecesAt e.pieces (e.find_piece_idx L).1 (e.find_piece_idx L).2
        else e.pieces).take
          (if (e.find_piece_idx L).1 < e.pieces.length ∧ 0 < (e.find_piece_idx L).2
            then (e.find_piece_idx L).1 + 1 else (e.find_piece_idx L).1) ++
        deleteSuffix
          ((if (e.find_piece_idx L).1 < e.pieces.length then
              splitPiecesAt e.pieces (e.find_piece_idx L).1 (e.find_piece_idx L).2
            else e.pieces).drop
            (if (e.find_piece_idx L).1 < e.pieces.length ∧ 0 < (e.find_piece_idx L).2
              then (e.find_piece_idx L).1 + 1 else (e.find_piece_idx L).1)) n,
      1 ≤ x.lineCount := by
    intro x hx
    rcases List.mem_append.mp hx with hm | hm
    · exact h1 x (List.take_subset _ _ hm)
    · exact lineCount_deleteSuffix _ _ (fun y hy => h1 y (List.drop_subset _ _ hy)) x hm
  split at hp
  · exact h2 p hp
  · split at hp
    · exact h2 p hp
    · rcases mem_insAt _ _ _ p hp with hq | hmem
      · rw [hq]
        simp only [Piece.lineCount]
        have hne : popTrailingEmpty (splitOnLF t) ≠ [] := by assumption
        exact List.length_pos.mpr hne
      · exact h2 p hmem

/-- The line count computed by the constructor, written out explicitly. -/
theorem new_otl (m : List Nat) : (LogEngine.new m).original_total_lines =
    if m = [] then (buildChunksGo m 0 0 ((chunksOf m).map scanCount)).2
    else
      if (if m.getLast? ≠ some LF ∧ m.getLast? ≠ some CR
          then (buildChunksGo m 0 0 ((chunksOf m).map scanCount)).2 + 1
          else (buildChunksGo m 0 0 ((chunksOf m).map scanCount)).2) = 0
      then 1
      else (if m.getLast? ≠ some LF ∧ m.getLast? ≠ some CR
          then (buildChunksGo m 0 0 ((chunksOf m).map scanCount)).2 + 1
          else (buildChunksGo m 0 0 ((chunksOf m).map scanCount)).2) := rfl

/-- The constructor's piece table is a single original piece covering all
lines. -/
theorem new_pieces (m : List Nat) :
    (LogEngine.new m).pieces =
      [Piece.Original 0 (LogEngine.new m).original_total_lines] := rfl

/-- A non-empty file opens with at least one original line. -/
theorem new_otl_pos (m : List Nat) (h : m ≠ []) :
    1 ≤ (LogEngine.new m).original_total_lines := by
  rw [new_otl, if_neg h]
  by_cases h0 : (if m.getLast? ≠ some LF ∧ m.getLast? ≠ some CR
      then (buildChunksGo m 0 0 ((chunksOf m).map scanCount)).2 + 1
      else (buildChunksGo m 0 0 ((chunksOf m).map scanCount)).2) = 0
  · rw [if_pos h0]
  · rw [if_neg h0]
    exact Nat.one_le_iff_ne_zero.mpr h0

/-- C6 (amended): in every state reachable by construction from a non-empty
file followed by any sequence of edits, every piece in the table has a line
count of at least one.  (The claim as stated also covers construction from an
empty file, where the constructor does insert a zero-length piece.) -/
theorem c6_amended (e : LogEngine) (he : Reachable e) :
    ∀ p ∈ e.pieces, 1 ≤ p.lineCount := by
  induction he with
  | base m hm =>
    intro p hp
    rw [new_pieces] at hp
    simp only [List.mem_singleton] at hp
    rw [hp]
    simpa [Piece.lineCount] using new_otl_pos m hm
  | step e0 L n t _ ih => exact lineCount_apply_edit e0 L n t ih

/-- C6 (witness): the invariant applied to the engine opened on `"a\n"`. -/
theorem c6_witness : 1 ≤ (Piece.Original 0 1).lineCount :=
  c6_amended (LogEngine.new [97, 10]) (Reachable.base [97, 10] (by decide))
    (Piece.Original 0 1) (by decide)

/-- C6 (counterexample): the engine constructed from an empty file is
reachable, yet its piece table holds a piece of line count zero. -/
theorem c6_counterexample :
    ¬ (∀ p ∈ (LogEngine.new []).pieces, 1 ≤ p.lineCount) := by decide

/-- The closed-form counter ignores the previous byte except to decide
whether a leading LF pairs with it. -/
theorem crlfGo_congr (l : List Nat) (p q : Nat)
    (h : l.head? = some LF → (p = CR ↔ q = CR)) : crlfGo p l = crlfGo q l := by
  cases l with
  | nil => rfl
  | cons b rest =>
    simp only [crlfGo]
    congr 1
    by_cases hb : b = LF
    · have hpq := h (by simp [hb])
      refine if_congr ?_ rfl rfl
      constructor
      · intro hx
        rcases hx with hx | ⟨hx1, hx2⟩
        · exact Or.inl hx
        · exact Or.inr ⟨hx1, fun hq => hx2 (hpq.mpr hq)⟩
      · intro hx
        rcases hx with hx | ⟨hx1, hx2⟩
        · exact Or.inl hx
        · exact Or.inr ⟨hx1, fun hp2 => hx2 (hpq.mp hp2)⟩
    · refine if_congr ?_ rfl rfl
      constructor
      · intro hx
        rcases hx with hx | ⟨hx1, hx2⟩
        · exact Or.inl hx
        · exact absurd hx1 hb
      · intro hx
        rcases hx with hx | ⟨hx1, hx2⟩
        · exact Or.inl hx
        · exact absurd hx1 hb

/-- The closed-form counter splits over concatenation, the right part
starting from the left part's final byte. -/
theorem crlfGo_append (a : List Nat) :
    ∀ p b, crlfGo p (a ++ b) = crlfGo p a + crlfGo (a.getLastD p) b := by
  induction a with
  | nil => intro p b; simp [crlfGo, List.getLastD]
  | cons x a2 ih =>
    intro p b
    simp only [List.cons_append, crlfGo, List.getLastD_cons, List.append_eq, ih x b]
    omega

/-- A list without terminator bytes counts zero terminators. -/
theorem crlfGo_eq_zero (l : List Nat) :
    ∀ p, (∀ b ∈ l, b ≠ CR ∧ b ≠ LF) → crlfGo p l = 0 := by
  induction l with
  | nil => intro p _; rfl
  | cons b rest ih =>
    intro p h
    have hb := h b (by simp)
    simp only [crlfGo]
    rw [if_neg (by tauto), ih b (fun x hx => h x (by simp [hx]))]

/-- A list containing a CR counts at least one terminator, whatever precedes
it. -/
theorem crlfGo_pos_of_CR (l : List Nat) :
    ∀ p, CR ∈ l → 1 ≤ crlfGo p l := by
  induction l with
  | nil => intro p h; simp at h
  | cons b rest ih =>
    intro p h
    simp only [crlfGo]
    by_cases hb : b = CR
    · rw [if_pos (Or.inl hb)]; omega
    · have hm : CR ∈ rest := by
        rcases List.mem_cons.mp h with h1 | h1
        · exact absurd h1.symm hb
        · exact h1
      have := ih b hm
      omega

/-- The scan loop computes the closed-form count (for any non-CR virtual
previous byte). -/
theorem scanCount_eq_crlfGo_aux :
    ∀ n l, List.length l ≤ n → ∀ p, p ≠ CR → scanCount l = crlfGo p l := by
  intro n
  induction n with
  | zero =>
    intro l hl p hp
    have h0 : l = [] := List.length_eq_zero.mp (Nat.le_zero.mp hl)
    rw [h0]; rfl
  | succ n ih =>
    intro l hl p hp
    cases l with
    | nil => rfl
    | cons b rest =>
      simp only [List.length_cons, Nat.add_le_add_iff_right] at hl
      cases rest with
      | nil =>
        rw [scanCount.eq_2]
        simp only [crlfGo]
        by_cases hb : b = CR
        · rw [if_pos hb, if_pos (Or.inl hb)]
        · rw [if_neg hb]
          by_cases hbl : b = LF
          · rw [if_pos hbl, if_pos (Or.inr ⟨hbl, hp⟩), scanCount.eq_1]
          · rw [if_neg hbl, if_neg (by rintro (hx | ⟨hx, _⟩) <;> [exact hb hx; exact hbl hx]),
              scanCount.eq_1]
      | cons b2 rest2 =>
        rw [scanCount.eq_3]
        conv_rhs => rw [crlfGo]
        by_cases hb : b = CR
        · rw [if_pos hb, if_pos (Or.inl hb)]
          subst hb
          by_cases hb2 : b2 = LF
          · rw [if_pos hb2]
            subst hb2
            conv_rhs => rw [crlfGo]
            rw [if_neg (by decide)]
            have h2 : List.length rest2 ≤ n := by
              simp only [List.length_cons] at hl; omega
            rw [ih rest2 h2 LF (by decide)]
            omega
          · rw [if_neg hb2]
            rw [show crlfGo CR (b2 :: rest2) = crlfGo 0 (b2 :: rest2) from
              crlfGo_congr _ _ _ (fun hh => by
                simp only [List.head?_cons, Option.some.injEq] at hh
                exact absurd hh hb2)]
            rw [← ih (b2 :: rest2) hl 0 (by decide)]
        · rw [if_neg hb]
          have hbc : crlfGo b (b2 :: rest2) = crlfGo 0 (b2 :: rest2) :=
            crlfGo_congr _ _ _
              (fun _ => ⟨fun hx => absurd hx hb, fun hx => absurd hx (by decide)⟩)
          rw [hbc, ← ih (b2 :: rest2) hl 0 (by decide)]
          by_cases hbl : b = LF
          · rw [if_pos hbl, if_pos (Or.inr ⟨hbl, hp⟩)]
          · rw [if_neg hbl,
              if_neg (by rintro (hx | ⟨hx, _⟩) <;> [exact hb hx; exact hbl hx])]
            omega

/-- The scan loop computes the closed-form count. -/
theorem scanCount_eq_crlfGo (l : List Nat) : scanCount l = crlfGo 0 l :=
  scanCount_eq_crlfGo_aux l.length l le_rfl 0 (by decide)

/-- An empty buffer has no windows. -/
theorem chunksOf_nil : chunksOf [] = [] := rfl

/-- The window list does not depend on the fuel, as long as the fuel is at
least the number of bytes. -/
theorem chunksGo_fuel :
    ∀ n m f1 f2, List.length m ≤ n → List.length m ≤ f1 → List.length m ≤ f2 →
    chunksGo f1 m = chunksGo f2 m := by
  intro n
  induction n with
  | zero =>
    intro m f1 f2 hn _ _
    have h0 : m = [] := List.length_eq_zero.mp (Nat.le_zero.mp hn)
    subst h0
    cases f1 <;> cases f2 <;> rfl
  | succ n ih =>
    intro m f1 f2 hn h1 h2
    cases m with
    | nil => cases f1 <;> cases f2 <;> rfl
    | cons b rest =>
      have hcs : 0 < chunkSize := by norm_num [chunkSize]
      rcases f1 with _ | f1
      · simp at h1
      · rcases f2 with _ | f2
        · simp at h2
        · show (b :: rest).take chunkSize :: chunksGo f1 ((b :: rest).drop chunkSize) =
            (b :: rest).take chunkSize :: chunksGo f2 ((b :: rest).drop chunkSize)
          congr 1
          apply ih
          · simp only [List.length_drop, List.length_cons] at hn ⊢
            omega
          · simp only [List.length_drop, List.length_cons] at h1 ⊢
            omega
          · simp only [List.length_drop, List.length_cons] at h2 ⊢
            omega

/-- The windows of a non-empty buffer are its first `chunkSize` bytes
followed by the windows of the rest. -/
theorem chunksOf_cons (m : List Nat) (h : m ≠ []) :
    chunksOf m = m.take chunkSize :: chunksOf (m.drop chunkSize) := by
  have hcs : 0 < chunkSize := by norm_num [chunkSize]
  cases m with
  | nil => exact absurd rfl h
  | cons b rest =>
    show chunksGo (b :: rest).length (b :: rest) = _
    rw [show (b :: rest).length = rest.length + 1 from rfl]
    show (b :: rest).take chunkSize :: chunksGo rest.length ((b :: rest).drop chunkSize) = _
    congr 1
    apply chunksGo_fuel ((b :: rest).drop chunkSize).length
    · exact le_rfl
    · rw [List.length_drop]
      simp only [List.length_cons]
      omega
    · exact le_rfl

/-- The chunk accumulation loop of the constructor computes the closed-form
count of the remaining suffix: per-window scan counts plus the CR/LF boundary
corrections equal one sequential scan. -/
theorem buildChunksGo_crlf (m : List Nat) :
    ∀ N s i cur, List.length s ≤ N → s = m.drop (i * chunkSize) →
    ((if i = 0 then (0 : Nat) else (m.get? (i * chunkSize - 1)).getD 0) = CR → 1 ≤ cur) →
    (buildChunksGo m i cur ((chunksOf s).map scanCount)).2 =
      cur + crlfGo (if i = 0 then (0 : Nat) else (m.get? (i * chunkSize - 1)).getD 0) s := by
  intro N
  induction N with
  | zero =>
    intro s i cur hN _ _
    have h0 : s = [] := List.length_eq_zero.mp (Nat.le_zero.mp hN)
    subst h0
    rw [chunksOf_nil]
    simp [buildChunksGo, crlfGo]
  | succ N ih =>
    intro s i cur hN hs hcur
    by_cases hsnil : s = []
    · subst hsnil
      rw [chunksOf_nil]
      simp [buildChunksGo, crlfGo]
    · have hcs : 0 < chunkSize := by norm_num [chunkSize]
      have hslen : 1 ≤ s.length := List.length_pos.mpr hsnil
      have hsm : (i + 1) * chunkSize = i * chunkSize + chunkSize := by ring
      have hmlen : i * chunkSize < m.length := by
        by_contra hcon
        push_neg at hcon
        have hd : m.drop (i * chunkSize) = [] := List.drop_eq_nil_of_le hcon
        rw [← hs] at hd
        exact hsnil hd
      have hslen_m : s.length = m.length - i * chunkSize := by
        rw [hs, List.length_drop]
      rw [chunksOf_cons s hsnil]
      simp only [List.map_cons]
      have hstep : (buildChunksGo m i cur
          (scanCount (s.take chunkSize) :: (chunksOf (s.drop chunkSize)).map scanCount)).2 =
        (buildChunksGo m (i + 1)
          ((if 0 < i ∧ m.get? (i * chunkSize - 1) = some CR ∧ m.get? (i * chunkSize) = some LF
            then cur - 1 else cur) + scanCount (s.take chunkSize))
          ((chunksOf (s.drop chunkSize)).map scanCount)).2 := rfl
      rw [hstep]
      have hs2 : s.drop chunkSize = m.drop ((i + 1) * chunkSize) := by
        rw [hsm, hs, List.drop_drop]
      have hlen2 : (s.drop chunkSize).length ≤ N := by
        rw [List.length_drop]
        omega
      have hhead : m.get? (i * chunkSize) = s.head? := by
        rw [hs, List.head?_eq_getElem?, List.getElem?_drop, List.get?_eq_getElem?,
          Nat.add_zero]
      have hcur2 : ((if i + 1 = 0 then (0 : Nat)
            else (m.get? ((i + 1) * chunkSize - 1)).getD 0) = CR →
          1 ≤ (if 0 < i ∧ m.get? (i * chunkSize - 1) = some CR ∧ m.get? (i * chunkSize) = some LF
              then cur - 1 else cur) + scanCount (s.take chunkSize)) := by
        intro hpb
        rw [if_neg (by omega)] at hpb
        have hsome : m.get? ((i + 1) * chunkSize - 1) = some CR := by
          cases hget : m.get? ((i + 1) * chunkSize - 1) with
          | none => rw [hget] at hpb; simp only [Option.getD_none] at hpb; exact absurd hpb (by decide)
          | some v =>
            rw [hget] at hpb
            simp only [Option.getD_some] at hpb
            rw [hpb]
        have hpos2 : (i + 1) * chunkSize - 1 = i * chunkSize + (chunkSize - 1) := by omega
        have hsc : s.get? (chunkSize - 1) = some CR := by
          rw [hs, List.get?_eq_getElem?, List.getElem?_drop, ← hpos2,
            ← List.get?_eq_getElem?, hsome]
        have hlt : chunkSize - 1 < s.length := by
          by_contra hcon
          push_neg at hcon
          rw [List.get?_eq_getElem?, List.getElem?_eq_none (by omega)] at hsc
          exact Option.noConfusion hsc
        have hmem : CR ∈ s.take chunkSize := by
          apply List.get?_mem (n := chunkSize - 1)
          rw [List.get?_eq_getElem?, List.getElem?_take_of_lt (by omega),
            ← List.get?_eq_getElem?, hsc]
        have hscan : 1 ≤ scanCount (s.take chunkSize) := by
          rw [scanCount_eq_crlfGo]
          exact crlfGo_pos_of_CR _ 0 hmem
        omega
      rw [ih (s.drop chunkSize) (i + 1)
        ((if 0 < i ∧ m.get? (i * chunkSize - 1) = some CR ∧ m.get? (i * chunkSize) = some LF
          then cur - 1 else cur) + scanCount (s.take chunkSize)) hlen2 hs2 hcur2]
      have hsplit : crlfGo (if i = 0 then (0 : Nat) else (m.get? (i * chunkSize - 1)).getD 0) s =
          crlfGo (if i = 0 then (0 : Nat) else (m.get? (i * chunkSize - 1)).getD 0)
            (s.take chunkSize) +
          crlfGo ((s.take chunkSize).getLastD
            (if i = 0 then (0 : Nat) else (m.get? (i * chunkSize - 1)).getD 0))
            (s.drop chunkSize) := by
        conv_lhs => rw [← List.take_append_drop chunkSize s]
        exact crlfGo_append _ _ _
      rw [hsplit]
      have hscan0 : scanCount (s.take chunkSize) = crlfGo 0 (s.take chunkSize) :=
        scanCount_eq_crlfGo _
      have hbridge : crlfGo ((s.take chunkSize).getLastD
            (if i = 0 then (0 : Nat) else (m.get? (i * chunkSize - 1)).getD 0))
          (s.drop chunkSize) =
        crlfGo (if i + 1 = 0 then (0 : Nat) else (m.get? ((i + 1) * chunkSize - 1)).getD 0)
          (s.drop chunkSize) := by
        by_cases hs2nil : s.drop chunkSize = []
        · rw [hs2nil]; rfl
        · have hlong : chunkSize < s.length := by
            by_contra hcon
            push_neg at hcon
            exact hs2nil (List.drop_eq_nil_of_le hcon)
          have hpos2 : (i + 1) * chunkSize - 1 = i * chunkSize + (chunkSize - 1) := by omega
          have hv : (s.take chunkSize).getLast? = m.get? ((i + 1) * chunkSize - 1) := by
            rw [List.getLast?_eq_getElem?]
            have hlen_take : (s.take chunkSize).length = chunkSize := by
              rw [List.length_take]
              omega
            have hlt2 : chunkSize - 1 < chunkSize := by omega
            rw [hlen_take, List.getElem?_take_of_lt hlt2, hs, List.getElem?_drop,
              List.get?_eq_getElem?, hpos2]
          have hne1 : ¬ (i + 1 = 0) := by omega
          congr 1
          rw [List.getLastD_eq_getLast?, hv, if_neg hne1]
          cases hgx : m.get? ((i + 1) * chunkSize - 1) with
          | none =>
            exfalso
            rw [List.get?_eq_getElem?, List.getElem?_eq_none_iff] at hgx
            omega
          | some v => rfl
      rw [hbridge]
      by_cases hcorr :
          0 < i ∧ m.get? (i * chunkSize - 1) = some CR ∧ m.get? (i * chunkSize) = some LF
      · rw [if_pos hcorr]
        have hpb : (if i = 0 then (0 : Nat) else (m.get? (i * chunkSize - 1)).getD 0) = CR := by
          rw [if_neg (by omega), hcorr.2.1]
          rfl
        have hcurpos := hcur hpb
        have hheadLF : (s.take chunkSize).head? = some LF := by
          have hcorr3 := hcorr.2.2
          rw [hhead] at hcorr3
          cases s with
          | nil => exact absurd rfl hsnil
          | cons b srest =>
            simp only [List.head?_cons, Option.some.injEq] at hcorr3
            cases hck : chunkSize with
            | zero => exact absurd hck (by decide)
            | succ ck => simp [hcorr3]
        have hdiff : crlfGo 0 (s.take chunkSize) = crlfGo CR (s.take chunkSize) + 1 := by
          obtain ⟨crest, hc⟩ : ∃ crest, s.take chunkSize = LF :: crest := by
            cases hctk : s.take chunkSize with
            | nil => rw [hctk] at hheadLF; simp at hheadLF
            | cons bb crest =>
              rw [hctk] at hheadLF
              simp only [List.head?_cons, Option.some.injEq] at hheadLF
              exact ⟨crest, by rw [hheadLF]⟩
          have hA : crlfGo 0 (LF :: crest) = 1 + crlfGo LF crest := by
            conv_lhs => rw [crlfGo]
            rw [if_pos (Or.inr ⟨rfl, by decide⟩)]
          have hB : crlfGo CR (LF :: crest) = crlfGo LF crest := by
            conv_lhs => rw [crlfGo]
            rw [if_neg (by decide)]
            exact Nat.zero_add _
          rw [hc, hA, hB]
          omega
        rw [hpb]
        omega
      · rw [if_neg hcorr]
        have hsame : crlfGo 0 (s.take chunkSize) =
            crlfGo (if i = 0 then (0 : Nat) else (m.get? (i * chunkSize - 1)).getD 0)
              (s.take chunkSize) := by
          apply crlfGo_congr
          intro hh
          have hheadLF : s.head? = some LF := by
            cases s with
            | nil => exact absurd rfl hsnil
            | cons b srest =>
              cases hck : chunkSize with
              | zero => exact absurd hck (by decide)
              | succ ck =>
                rw [hck] at hh
                simpa using hh
          constructor
          · intro hx
            exact absurd hx (by decide)
          · intro hx
            exfalso
            by_cases hi : i = 0
            · rw [if_pos hi] at hx
              exact absurd hx (by decide)
            · rw [if_neg hi] at hx
              have hsome : m.get? (i * chunkSize - 1) = some CR := by
                cases hget : m.get? (i * chunkSize - 1) with
                | none =>
                  rw [hget] at hx
                  simp only [Option.getD_none] at hx
                  exact absurd hx (by decide)
                | some v =>
                  rw [hget] at hx
                  simp only [Option.getD_some] at hx
                  rw [hx]
              apply hcorr
              refine ⟨by omega, hsome, ?_⟩
              rw [hhead, hheadLF]
        omega

/-- The constructor's accumulated `current_line` equals the sequential
closed-form terminator count of the whole file. -/
theorem new_current_eq (m : List Nat) :
    (buildChunksGo m 0 0 ((chunksOf m).map scanCount)).2 = crlfGo 0 m := by
  have h := buildChunksGo_crlf m m.length m 0 0 le_rfl (by simp)
    (by intro hx; rw [if_pos rfl] at hx; exact absurd hx (by decide))
  rw [if_pos rfl] at h
  simpa using h

/-- The constructor's total line count in closed form: the sequential
terminator count, plus one for a final unterminated line, clamped to at least
one for a non-empty file. -/
theorem new_otl_closed (m : List Nat) :
    (LogEngine.new m).original_total_lines =
      if m = [] then 0
      else if (if m.getLast? ≠ some LF ∧ m.getLast? ≠ some CR
          then crlfGo 0 m + 1 else crlfGo 0 m) = 0 then 1
      else (if m.getLast? ≠ some LF ∧ m.getLast? ≠ some CR
          then crlfGo 0 m + 1 else crlfGo 0 m) := by
  rw [new_otl, new_current_eq]
  by_cases h : m = []
  · rw [if_pos h, if_pos h, h]
    rfl
  · rw [if_neg h, if_neg h]

/-- The last element of a non-empty constant list. -/
theorem getLast?_replicate (n : Nat) (x : Nat) :
    (List.replicate (n + 1) x).getLast? = some x := by
  rw [List.replicate_succ', List.getLast?_concat]

/-- A constant buffer of letter bytes has no terminators. -/
theorem crlfGo_replicate97 (n : Nat) (p : Nat) :
    crlfGo p (List.replicate n 97) = 0 := by
  apply crlfGo_eq_zero
  intro b hb
  have := List.eq_of_mem_replicate hb
  subst this
  exact ⟨by decide, by decide⟩

/-- C7 (amended): if the byte immediately before the straddling CR is not
itself a CR, the boundary correction makes the chunked count agree: a file
with CR as the last byte of window `k` and LF as the first byte of window
`k+1` reports the same total line count as the file with that CR LF pair
replaced by a single LF.  (When the preceding byte IS a CR the two files
genuinely differ by one line — see the counterexample.) -/
theorem c7_amended (a b : List Nat) (k : Nat)
    (hlen : a.length + 1 = (k + 1) * chunkSize)
    (hlast : a.getLast? ≠ some CR) :
    (LogEngine.new (a ++ CR :: LF :: b)).original_total_lines =
      (LogEngine.new (a ++ LF :: b)).original_total_lines := by
  have hla : a.getLastD 0 ≠ CR := by
    rw [List.getLastD_eq_getLast?]
    cases hg : a.getLast? with
    | none => decide
    | some v =>
      simp only [Option.getD_some]
      intro hv
      rw [hv] at hg
      exact hlast hg
  have crlf1 : crlfGo 0 (a ++ CR :: LF :: b) = crlfGo 0 a + (1 + crlfGo LF b) := by
    rw [crlfGo_append]
    congr 1
    conv_lhs => rw [crlfGo]
    rw [if_pos (Or.inl rfl)]
    congr 1
    conv_lhs => rw [crlfGo]
    rw [if_neg (by decide)]
    exact Nat.zero_add _
  have crlf2 : crlfGo 0 (a ++ LF :: b) = crlfGo 0 a + (1 + crlfGo LF b) := by
    rw [crlfGo_append]
    congr 1
    conv_lhs => rw [crlfGo]
    rw [if_pos (Or.inr ⟨rfl, hla⟩)]
  have hgl : (a ++ CR :: LF :: b).getLast? = (a ++ LF :: b).getLast? := by
    rw [List.getLast?_append, List.getLast?_append, List.getLast?_cons_cons]
  have hne1 : a ++ CR :: LF :: b ≠ [] := by simp
  have hne2 : a ++ LF :: b ≠ [] := by simp
  rw [new_otl_closed, new_otl_closed, if_neg hne1, if_neg hne2, crlf1, crlf2, hgl]

/-- C7 (witness): the amended claim applied at the smallest conforming file —
`chunkSize - 1` letter bytes followed by the straddling CR LF pair. -/
theorem c7_witness :
    (LogEngine.new (List.replicate (chunkSize - 1) 97 ++ CR :: LF :: [])).original_total_lines =
      (LogEngine.new (List.replicate (chunkSize - 1) 97 ++ LF :: [])).original_total_lines :=
  c7_amended (List.replicate (chunkSize - 1) 97) [] 0
    (by rw [List.length_replicate]; decide)
    (by rw [show chunkSize - 1 = 1048574 + 1 from rfl, getLast?_replicate]; decide)

/-- C7 (counterexample): the claim as stated fails when the byte before the
straddling CR is itself a CR.  In the file of `chunkSize - 2` letter bytes
followed by CR CR LF, byte `chunkSize - 1` (the last of window 0) is CR and
byte `chunkSize` (the first of window 1) is LF, yet the file counts 2 lines
(lone CR, then CR LF) while the file with the straddling pair replaced by a
single LF counts 1 (the preceding CR now pairs with the LF). -/
theorem c7_counterexample :
    (List.replicate (chunkSize - 2) 97 ++ [CR, CR, LF]).get? (chunkSize - 1) = some CR ∧
    (List.replicate (chunkSize - 2) 97 ++ [CR, CR, LF]).get? chunkSize = some LF ∧
    (LogEngine.new (List.replicate (chunkSize - 2) 97 ++ [CR, CR, LF])).original_total_lines = 2 ∧
    (LogEngine.new (List.replicate (chunkSize - 2) 97 ++ [CR, LF])).original_total_lines = 1 := by
  have hlastrep : (List.replicate (chunkSize - 2) 97).getLastD 0 = 97 := by
    rw [List.getLastD_eq_getLast?, show chunkSize - 2 = 1048573 + 1 from rfl,
      getLast?_replicate]
    rfl
  have hlenrep : (List.replicate (chunkSize - 2) 97).length = chunkSize - 2 :=
    List.length_replicate _ _
  refine ⟨?_, ?_, ?_, ?_⟩
  · rw [List.get?_eq_getElem?, List.getElem?_append_right (by rw [hlenrep]; decide)]
    rw [hlenrep, show chunkSize - 1 - (chunkSize - 2) = 1 from by decide]
    decide
  · rw [List.get?_eq_getElem?, List.getElem?_append_right (by rw [hlenrep]; decide)]
    rw [hlenrep, show chunkSize - (chunkSize - 2) = 2 from by decide]
    decide
  · rw [new_otl_closed, if_neg (by simp), crlfGo_append, crlfGo_replicate97, hlastrep,
      List.getLast?_append]
    decide
  · rw [new_otl_closed, if_neg (by simp), crlfGo_append, crlfGo_replicate97, hlastrep,
      List.getLast?_append]
    decide

/-- Characterisation of a successful terminator search: the found byte is a
terminator and everything before it is not. -/
theorem findTerm_some (l : List Nat) (pos : Nat) (h : findTerm l = some pos) :
    pos < l.length ∧ (l.get? pos = some LF ∨ l.get? pos = some CR) ∧
    ∀ j b, j < pos → l.get? j = some b → b ≠ LF ∧ b ≠ CR := by
  unfold findTerm at h
  rw [List.findIdx?_eq_some_iff_getElem] at h
  obtain ⟨hlt, hp, hmin⟩ := h
  simp only [Bool.or_eq_true, decide_eq_true_eq] at hp
  refine ⟨hlt, ?_, ?_⟩
  · rw [List.get?_eq_getElem?, List.getElem?_eq_getElem hlt]
    rcases hp with hp | hp
    · exact Or.inl (by rw [hp])
    · exact Or.inr (by rw [hp])
  · intro j b hj hb
    have hmj := hmin j hj
    simp only [Bool.or_eq_true, decide_eq_true_eq, not_or] at hmj
    rw [List.get?_eq_getElem?, List.getElem?_eq_getElem (Nat.lt_trans hj hlt)] at hb
    have hbj : l[j] = b := Option.some.inj hb
    rw [← hbj]
    exact hmj

/-- Characterisation of a failed terminator search. -/
theorem findTerm_none (l : List Nat) (h : findTerm l = none) :
    ∀ b ∈ l, b ≠ LF ∧ b ≠ CR := by
  unfold findTerm at h
  rw [List.findIdx?_eq_none_iff] at h
  intro b hb
  have h2 := h b hb
  simp only [Bool.or_eq_false_iff, decide_eq_false_iff_not] at h2
  exact h2

/-- The walk is the identity once the offset is at or past the end. -/
theorem walkSkip_stuck (m : List Nat) (o : Nat) (ho : ¬ o < m.length) :
    ∀ k, walkSkip m o k = o := by
  intro k
  cases k with
  | zero => rfl
  | succ k2 =>
    show (if o < m.length then _ else o) = o
    rw [if_neg ho]

/-- Skipping `a + b` terminators is skipping `a` and then `b`. -/
theorem walkSkip_add (m : List Nat) :
    ∀ a o b2, walkSkip m o (a + b2) = walkSkip m (walkSkip m o a) b2 := by
  intro a
  induction a with
  | zero =>
    intro o b2
    rw [Nat.zero_add]
    rfl
  | succ a ih =>
    intro o b2
    rw [show a + 1 + b2 = (a + b2) + 1 from by omega]
    by_cases ho : o < m.length
    · show (if o < m.length then _ else o) = walkSkip m (walkSkip m o (a + 1)) b2
      rw [if_pos ho]
      show (match findTerm (m.drop o) with
        | some pos => _
        | none => m.length) = _
      cases hf : findTerm (m.drop o) with
      | some pos =>
        have hstep : walkSkip m o (a + 1) = walkSkip m
            (if m.get? (o + pos) = some CR ∧ o + pos + 1 < m.length ∧
                m.get? (o + pos + 1) = some LF
              then o + pos + 1 + 1 else o + pos + 1) a := by
          show (if o < m.length then _ else o) = _
          rw [if_pos ho]
          show (match findTerm (m.drop o) with
            | some pos => _
            | none => m.length) = _
          rw [hf]
        rw [hstep]
        exact ih _ b2
      | none =>
        have hstep : walkSkip m o (a + 1) = m.length := by
          show (if o < m.length then _ else o) = _
          rw [if_pos ho]
          show (match findTerm (m.drop o) with
            | some pos => _
            | none => m.length) = _
          rw [hf]
        rw [hstep, walkSkip_stuck m m.length (by omega) b2]
    · rw [walkSkip_stuck m o ho, walkSkip_stuck m o ho, walkSkip_stuck m o ho]

/-- The walk never moves backwards and never leaves the buffer. -/
theorem walkSkip_bounds (m : List Nat) :
    ∀ k o, o ≤ m.length → o ≤ walkSkip m o k ∧ walkSkip m o k ≤ m.length := by
  intro k
  induction k with
  | zero => intro o ho; exact ⟨le_rfl, ho⟩
  | succ k2 ih =>
    intro o ho
    by_cases hlt : o < m.length
    · show o ≤ (if o < m.length then _ else o) ∧ (if o < m.length then _ else o) ≤ m.length
      rw [if_pos hlt]
      cases hf : findTerm (m.drop o) with
      | some pos =>
        obtain ⟨hp1, _, _⟩ := findTerm_some _ _ hf
        rw [List.length_drop] at hp1
        show o ≤ walkSkip m (ite _ _ _) k2 ∧ walkSkip m (ite _ _ _) k2 ≤ m.length
        by_cases hpair : m.get? (o + pos) = some CR ∧ o + pos + 1 < m.length ∧
            m.get? (o + pos + 1) = some LF
        · rw [if_pos hpair]
          have hb := ih (o + pos + 1 + 1) (by omega)
          exact ⟨by omega, hb.2⟩
        · rw [if_neg hpair]
          have hb := ih (o + pos + 1) (by omega)
          exact ⟨by omega, hb.2⟩
      | none =>
        show o ≤ m.length ∧ m.length ≤ m.length
        exact ⟨by omega, le_rfl⟩
    · rw [walkSkip_stuck m o hlt]
      exact ⟨le_rfl, ho⟩

/-- Indexing a dropped suffix. -/
theorem get?_drop_my (m : List Nat) (o j : Nat) :
    (m.drop o).get? j = m.get? (o + j) := by
  simp [List.get?_eq_getElem?, List.getElem?_drop]

/-- The last element of a non-empty prefix, as an indexed lookup. -/
theorem getLastD_take (m : List Nat) (t d : Nat) (h1 : 0 < t) (h2 : t ≤ m.length) :
    (m.take t).getLastD d = (m.get? (t - 1)).getD d := by
  rw [List.getLastD_eq_getLast?, List.getLast?_eq_getElem?, List.length_take]
  rw [show min t m.length = t from by omega]
  rw [List.getElem?_take_of_lt (by omega), List.get?_eq_getElem?]

/-- A terminator-free span does not change the prefix count. -/
theorem cnt_no_term (m : List Nat) (o q : Nat) (hoq : o ≤ q)
    (h : ∀ j b, o ≤ j → j < q → m.get? j = some b → b ≠ LF ∧ b ≠ CR) :
    crlfGo 0 (m.take q) = crlfGo 0 (m.take o) := by
  rw [show q = o + (q - o) from by omega, List.take_add, crlfGo_append]
  have hz : crlfGo ((m.take o).getLastD 0) ((m.drop o).take (q - o)) = 0 := by
    apply crlfGo_eq_zero
    intro b hb
    obtain ⟨i, hi, hib⟩ := List.getElem_of_mem hb
    have hilen : i < q - o := by
      have := hi
      simp only [List.length_take, List.length_drop] at this
      omega
    have hbg : m.get? (o + i) = some b := by
      have h1 : (List.take (q - o) (List.drop o m))[i]? = some b := by
        rw [List.getElem?_eq_getElem hi, hib]
      rw [List.getElem?_take_of_lt hilen, List.getElem?_drop] at h1
      rw [List.get?_eq_getElem?]
      exact h1
    have := h (o + i) b (by omega) (by omega) hbg
    exact ⟨this.2, this.1⟩
  omega

/-- Prefix counts are monotone. -/
theorem cnt_mono (m : List Nat) (a b : Nat) (h : a ≤ b) :
    crlfGo 0 (m.take a) ≤ crlfGo 0 (m.take b) := by
  rw [show b = a + (b - a) from by omega, List.take_add, crlfGo_append]
  omega

/-- A walk step that finds no terminator jumps to the end of the buffer, and
all terminators of the buffer lie before the current offset. -/
theorem walk_step_none (m : List Nat) (o : Nat) (ho : o ≤ m.length)
    (hn : findTerm (m.drop o) = none) :
    walkSkip m o 1 = m.length ∧ crlfGo 0 m = crlfGo 0 (m.take o) := by
  constructor
  · by_cases hlt : o < m.length
    · show (if o < m.length then _ else o) = m.length
      rw [if_pos hlt]
      show (match findTerm (m.drop o) with
        | some pos => _
        | none => m.length) = m.length
      rw [hn]
    · rw [walkSkip_stuck m o hlt]; omega
  · have happ := crlfGo_append (m.take o) 0 (m.drop o)
    rw [List.take_append_drop] at happ
    have hterm : ∀ b ∈ m.drop o, b ≠ CR ∧ b ≠ LF := by
      intro b hb
      have := findTerm_none _ hn b hb
      exact ⟨this.2, this.1⟩
    rw [crlfGo_eq_zero _ _ hterm] at happ
    omega

/-- A walk step that finds a terminator lands just past it on a line start,
increments the prefix count by exactly one, and passes over no other
terminator. -/
theorem walk_step_some (m : List Nat) (o pos : Nat) (hls : IsLineStart m o)
    (hf : findTerm (m.drop o) = some pos) :
    o < walkSkip m o 1 ∧ walkSkip m o 1 ≤ m.length ∧ IsLineStart m (walkSkip m o 1) ∧
    crlfGo 0 (m.take (walkSkip m o 1)) = crlfGo 0 (m.take o) + 1 ∧
    (∀ p b, o ≤ p → p < walkSkip m o 1 → m.get? p = some b → b ≠ LF → b ≠ CR →
      crlfGo 0 (m.take p) = crlfGo 0 (m.take o)) := by
  obtain ⟨hposlen, hterm, hmin⟩ := findTerm_some _ _ hf
  rw [List.length_drop] at hposlen
  have hlt : o < m.length := by omega
  have htlen : o + pos < m.length := by omega
  rw [get?_drop_my] at hterm
  have hnt : ∀ p b, o ≤ p → p < o + pos → m.get? p = some b → b ≠ LF ∧ b ≠ CR := by
    intro p b h1 h2 hb
    apply hmin (p - o) b (by omega)
    rw [get?_drop_my, show o + (p - o) = p from by omega]
    exact hb
  have hw : walkSkip m o 1 =
      (if m.get? (o + pos) = some CR ∧ o + pos + 1 < m.length ∧
          m.get? (o + pos + 1) = some LF
        then o + pos + 1 + 1 else o + pos + 1) := by
    show (if o < m.length then _ else o) = _
    rw [if_pos hlt]
    show (match findTerm (m.drop o) with
      | some pos => _
      | none => m.length) = _
    rw [hf]
    rfl
  have hcnt_t : crlfGo 0 (m.take (o + pos)) = crlfGo 0 (m.take o) :=
    cnt_no_term m o (o + pos) (by omega) hnt
  have hprev_ne_CR_of_LF : m.get? (o + pos) = some LF →
      (m.take (o + pos)).getLastD 0 ≠ CR := by
    intro hbt
    by_cases hp0 : o + pos = 0
    · rw [hp0]
      show ([] : List Nat).getLastD 0 ≠ CR
      decide
    · rw [getLastD_take m (o + pos) 0 (by omega) (by omega)]
      by_cases hpos0 : pos = 0
      · subst hpos0
        rcases hls with h0 | hLF | ⟨hCR, hnLF⟩
        · omega
        · rw [show o + 0 - 1 = o - 1 from by omega, hLF]
          decide
        · exfalso
          rw [show o + 0 = o from by omega] at hbt
          exact hnLF hbt
      · have := hnt (o + pos - 1)
        cases hg1 : m.get? (o + pos - 1) with
        | none =>
          simp only [Option.getD_none]
          decide
        | some v =>
          have hv := hnt (o + pos - 1) v (by omega) (by omega) hg1
          simp only [Option.getD_some]
          exact hv.2
  have hstep1 : crlfGo 0 (m.take (o + pos + 1)) = crlfGo 0 (m.take o) + 1 := by
    rw [List.take_succ]
    cases hbt : m.get? (o + pos) with
    | none =>
      rw [List.get?_eq_getElem?] at hbt
      rw [List.getElem?_eq_getElem (by omega)] at hbt
      exact Option.noConfusion hbt
    | some bt =>
      rw [List.get?_eq_getElem?] at hbt
      rw [hbt]
      show crlfGo 0 (m.take (o + pos) ++ [bt]) = _
      rw [crlfGo_append, hcnt_t]
      rcases hterm with hLF | hCR
      · rw [List.get?_eq_getElem?] at hLF
        rw [hbt] at hLF
        have hbt10 : bt = LF := Option.some.inj hLF
        subst hbt10
        have hne := hprev_ne_CR_of_LF (by rw [List.get?_eq_getElem?, hbt])
        conv_lhs => rw [crlfGo]
        rw [if_pos (Or.inr ⟨rfl, hne⟩)]
        rw [show crlfGo LF [] = 0 from rfl]
      · rw [List.get?_eq_getElem?] at hCR
        rw [hbt] at hCR
        have hbt13 : bt = CR := Option.some.inj hCR
        subst hbt13
        conv_lhs => rw [crlfGo]
        rw [if_pos (Or.inl rfl)]
        rw [show crlfGo CR [] = 0 from rfl]
  rw [hw]
  by_cases hpair : m.get? (o + pos) = some CR ∧ o + pos + 1 < m.length ∧
      m.get? (o + pos + 1) = some LF
  · rw [if_pos hpair]
    have hstep2 : crlfGo 0 (m.take (o + pos + 1 + 1)) = crlfGo 0 (m.take (o + pos + 1)) := by
      conv_lhs => rw [List.take_succ]
      cases hb2 : m[o + pos + 1]? with
      | none =>
        rw [List.getElem?_eq_none_iff] at hb2
        exact absurd hpair.2.1 (by omega)
      | some b2 =>
        have hb2LF : b2 = LF := by
          have hq := hpair.2.2
          rw [List.get?_eq_getElem?, hb2] at hq
          exact Option.some.inj hq
        subst hb2LF
        show crlfGo 0 (m.take (o + pos + 1) ++ [LF]) = _
        rw [crlfGo_append]
        have hlast : (m.take (o + pos + 1)).getLastD 0 = CR := by
          rw [getLastD_take m (o + pos + 1) 0 (by omega) (by omega),
            show o + pos + 1 - 1 = o + pos from by omega, hpair.1]
          rfl
        rw [hlast]
        conv_lhs => rw [crlfGo]
        rw [if_neg (by decide)]
        rw [show crlfGo LF [] = 0 from rfl]
        omega
    refine ⟨by omega, by omega, ?_, ?_, ?_⟩
    · right; left
      rw [show o + pos + 1 + 1 - 1 = o + pos + 1 from by omega]
      exact hpair.2.2
    · rw [hstep2, hstep1]
    · intro p b h1 h2 hb hbLF hbCR
      by_cases hpt : p < o + pos
      · exact cnt_no_term m o p h1 (fun j c hj1 hj2 hc => hnt j c hj1 (by omega) hc)
      · exfalso
        by_cases hpe : p = o + pos
        · subst hpe
          rw [hb] at hpair
          exact hbCR (Option.some.inj hpair.1)
        · have hpe2 : p = o + pos + 1 := by omega
          subst hpe2
          rw [hb] at hpair
          exact hbLF (Option.some.inj hpair.2.2)
  · rw [if_neg hpair]
    refine ⟨by omega, by omega, ?_, hstep1, ?_⟩
    · rcases hterm with hLF | hCR
      · right; left
        rw [show o + pos + 1 - 1 = o + pos from by omega]
        exact hLF
      · right; right
        constructor
        · rw [show o + pos + 1 - 1 = o + pos from by omega]
          exact hCR
        · intro hLF2
          apply hpair
          refine ⟨hCR, ?_, hLF2⟩
          by_contra hcon
          push_neg at hcon
          rw [List.get?_eq_getElem?, List.getElem?_eq_none (by omega)] at hLF2
          exact Option.noConfusion hLF2
    · intro p b h1 h2 hb hbLF hbCR
      by_cases hpt : p < o + pos
      · exact cnt_no_term m o p h1 (fun j c hj1 hj2 hc => hnt j c hj1 (by omega) hc)
      · exfalso
        have hpe : p = o + pos := by omega
        subst hpe
        rcases hterm with hLF | hCR
        · rw [hb] at hLF
          exact hbLF (Option.some.inj hLF)
        · rw [hb] at hCR
          exact hbCR (Option.some.inj hCR)

/-- A prefix count never exceeds the whole-buffer count. -/
theorem cnt_le_total (m : List Nat) (p : Nat) :
    crlfGo 0 (m.take p) ≤ crlfGo 0 m := by
  have h := crlfGo_append (m.take p) 0 (m.drop p)
  rw [List.take_append_drop] at h
  omega

/-- Walking L terminators from the start of the buffer lands on the start of
line L: the position is in bounds, is a line start, and has prefix count L. -/
theorem walk_inv (m : List Nat) :
    ∀ L, L ≤ crlfGo 0 m → walkSkip m 0 L ≤ m.length ∧ IsLineStart m (walkSkip m 0 L) ∧
      crlfGo 0 (m.take (walkSkip m 0 L)) = L := by
  intro L
  induction L with
  | zero =>
    intro _
    refine ⟨Nat.zero_le _, Or.inl rfl, ?_⟩
    rw [show walkSkip m 0 0 = 0 from rfl]
    rfl
  | succ L ih =>
    intro hL
    obtain ⟨ho, hls, hcnt⟩ := ih (by omega)
    have hsplit : walkSkip m 0 (L + 1) = walkSkip m (walkSkip m 0 L) 1 :=
      walkSkip_add m L 0 1
    cases hft : findTerm (m.drop (walkSkip m 0 L)) with
    | none =>
      exfalso
      have := (walk_step_none m (walkSkip m 0 L) ho hft).2
      omega
    | some pos =>
      obtain ⟨h1, h2, h3, h4, _⟩ := walk_step_some m (walkSkip m 0 L) pos hls hft
      rw [hsplit]
      exact ⟨h2, h3, by rw [h4, hcnt]⟩

/-- Any non-terminator byte strictly before the start of line L+1 belongs to a
line of index at most L. -/
theorem walk_between (m : List Nat) :
    ∀ L p b, p < walkSkip m 0 (L + 1) → m.get? p = some b → b ≠ LF → b ≠ CR →
      crlfGo 0 (m.take p) ≤ L := by
  intro L
  induction L with
  | zero =>
    intro p b hp hb hbLF hbCR
    by_cases hLe : 1 ≤ crlfGo 0 m
    · cases hft : findTerm (m.drop 0) with
      | none =>
        have := (walk_step_none m 0 (Nat.zero_le _) hft).2
        rw [show m.take 0 = [] from rfl] at this
        have h0 : crlfGo 0 ([] : List Nat) = 0 := rfl
        have := cnt_le_total m p
        omega
      | some pos =>
        obtain ⟨_, _, _, _, h5⟩ := walk_step_some m 0 pos (Or.inl rfl) hft
        have := h5 p b (Nat.zero_le _) hp hb hbLF hbCR
        rw [this]
        rw [show m.take 0 = [] from rfl]
        exact Nat.le_refl _
    · have := cnt_le_total m p
      omega
  | succ L ih =>
    intro p b hp hb hbLF hbCR
    by_cases hLe : L + 1 ≤ crlfGo 0 m
    · obtain ⟨hw1, hls1, hcnt1⟩ := walk_inv m (L + 1) hLe
      have hsplit : walkSkip m 0 (L + 1 + 1) = walkSkip m (walkSkip m 0 (L + 1)) 1 :=
        walkSkip_add m (L + 1) 0 1
      by_cases hpw : p < walkSkip m 0 (L + 1)
      · exact le_trans (ih p b hpw hb hbLF hbCR) (by omega)
      · rw [hsplit] at hp
        cases hft : findTerm (m.drop (walkSkip m 0 (L + 1))) with
        | none =>
          have := (walk_step_none m (walkSkip m 0 (L + 1)) hw1 hft).2
          have := cnt_le_total m p
          omega
        | some pos =>
          obtain ⟨_, _, _, _, h5⟩ := walk_step_some m (walkSkip m 0 (L + 1)) pos hls1 hft
          have := h5 p b (by omega) hp hb hbLF hbCR
          omega
    · have := cnt_le_total m p
      omega

/-- Locating a line in a one-piece table: inside the piece when in range,
past the end (insertion at index 1) otherwise. -/
theorem findPiece_one (L c : Nat) :
    findPieceGo L [Piece.Original 0 c] 0 0 = if L < c then (0, L) else (1, 0) := by
  by_cases h : L < c
  · rw [if_pos h]
    simp [findPieceGo, Piece.lineCount, h]
  · rw [if_neg h]
    simp [findPieceGo, Piece.lineCount, h]

/-- Deleting zero lines leaves the piece-list suffix unchanged. -/
theorem deleteSuffix_zero (l : List Piece) : deleteSuffix l 0 = l := by
  cases l with
  | nil => rfl
  | cons p rest => simp [deleteSuffix]

/-- Splitting a piece preserves the total line count. -/
theorem sum_lineCount_splitPiecesAt (l : List Piece) :
    ∀ i off, ((splitPiecesAt l i off).map Piece.lineCount).sum =
      (l.map Piece.lineCount).sum := by
  induction l with
  | nil => intro i off; rfl
  | cons p rest ih =>
    intro i off
    cases i with
    | zero =>
      by_cases h0 : off = 0
      · simp [splitPiecesAt, h0]
      · by_cases hc : p.lineCount ≤ off
        · simp [splitPiecesAt, h0, hc]
        · cases p with
          | Original s c =>
            simp only [Piece.lineCount] at hc
            simp only [splitPiecesAt, Piece.lineCount, if_neg h0, if_neg hc,
              List.map_cons, List.sum_cons]
            omega
          | Memory s c =>
            simp only [Piece.lineCount] at hc
            simp only [splitPiecesAt, Piece.lineCount, if_neg h0, if_neg hc,
              List.map_cons, List.sum_cons]
            omega
    | succ i => simp [splitPiecesAt, ih]

/-- An edit that deletes nothing and inserts nothing preserves the total line
count, for every engine and every line argument. -/
theorem total_lines_apply_edit_nil (e : LogEngine) (L : Nat) :
    (e.apply_edit L 0 []).total_lines = e.total_lines := by
  show ((e.apply_edit L 0 []).pieces.map Piece.lineCount).sum = _
  rw [apply_edit_pieces, if_pos rfl]
  rw [deleteSuffix_zero, List.take_append_drop]
  by_cases h : (e.find_piece_idx L).1 < e.pieces.length
  · rw [if_pos h, sum_lineCount_splitPiecesAt]
    rfl
  · rw [if_neg h]
    rfl

/-- A buffer containing a terminator has a positive terminator count
(for any non-CR context byte). -/
theorem crlfGo_pos_of_term (l : List Nat) :
    ∀ p, p ≠ CR → (LF ∈ l ∨ CR ∈ l) → 1 ≤ crlfGo p l := by
  induction l with
  | nil =>
    intro p _ h
    rcases h with h | h <;> simp at h
  | cons b rest ih =>
    intro p hp h
    conv_rhs => rw [crlfGo]
    by_cases hbCR : b = CR
    · rw [if_pos (Or.inl hbCR)]
      omega
    · by_cases hbLF : b = LF
      · rw [if_pos (Or.inr ⟨hbLF, hp⟩)]
        omega
      · have hcond : ¬ (b = CR ∨ (b = LF ∧ p ≠ CR)) := by
          intro hc
          rcases hc with hc | hc
          · exact hbCR hc
          · exact hbLF hc.1
        rw [if_neg hcond]
        have hmem : LF ∈ rest ∨ CR ∈ rest := by
          rcases h with h | h
          · rcases List.mem_cons.mp h with he | hm
            · exact absurd he.symm hbLF
            · exact Or.inl hm
          · rcases List.mem_cons.mp h with he | hm
            · exact absurd he.symm hbCR
            · exact Or.inr hm
        have := ih b hbCR hmem
        omega

/-- The constructor's line count for a non-empty file: one more than the
sequential terminator count when the final line is unterminated, exactly the
terminator count (then positive) when the file ends in a terminator. -/
theorem new_otl_cases (m : List Nat) (h : m ≠ []) :
    ((LogEngine.new m).original_total_lines = crlfGo 0 m + 1 ∧
      m.getLast? ≠ some LF ∧ m.getLast? ≠ some CR) ∨
    ((LogEngine.new m).original_total_lines = crlfGo 0 m ∧
      (m.getLast? = some LF ∨ m.getLast? = some CR) ∧ 1 ≤ crlfGo 0 m) := by
  rw [new_otl_closed, if_neg h]
  by_cases hterm : m.getLast? ≠ some LF ∧ m.getLast? ≠ some CR
  · left
    have hX : (if m.getLast? ≠ some LF ∧ m.getLast? ≠ some CR
        then crlfGo 0 m + 1 else crlfGo 0 m) = crlfGo 0 m + 1 := if_pos hterm
    rw [hX, if_neg (by omega)]
    exact ⟨rfl, hterm⟩
  · right
    have hterm2 : m.getLast? = some LF ∨ m.getLast? = some CR := by
      by_cases h1 : m.getLast? = some LF
      · exact Or.inl h1
      · by_cases h2 : m.getLast? = some CR
        · exact Or.inr h2
        · exact absurd ⟨h1, h2⟩ hterm
    have hpos : 1 ≤ crlfGo 0 m := by
      rcases hterm2 with ht | ht
      · exact crlfGo_pos_of_term m 0 (by decide)
          (Or.inl (List.mem_of_getLast?_eq_some ht))
      · exact crlfGo_pos_of_term m 0 (by decide)
          (Or.inr (List.mem_of_getLast?_eq_some ht))
    have hX : (if m.getLast? ≠ some LF ∧ m.getLast? ≠ some CR
        then crlfGo 0 m + 1 else crlfGo 0 m) = crlfGo 0 m := if_neg hterm
    rw [hX, if_neg (by omega)]
    exact ⟨rfl, hterm2, hpos⟩

/-- For a file that fits in one chunk window, the chunk index is a single
checkpoint at byte 0, line 0. -/
theorem new_chunks_single (m : List Nat) (hne : m ≠ []) (hlen : m.length ≤ chunkSize) :
    (LogEngine.new m).chunks = [ChunkMeta.mk 0 0] := by
  show (buildChunksGo m 0 0 ((chunksOf m).map scanCount)).1 = [ChunkMeta.mk 0 0]
  rw [chunksOf_cons m hne, List.take_of_length_le hlen, List.drop_eq_nil_of_le hlen,
    chunksOf_nil]
  rfl

/-- For a fresh single-chunk engine, the line resolver is the terminator walk
from byte 0 (with lines at or past the end resolving to the buffer length). -/
theorem line_off_single (m : List Nat) (hne : m ≠ []) (hlen : m.length ≤ chunkSize)
    (L : Nat) :
    (LogEngine.new m).line_to_byte_offset L =
      if (LogEngine.new m).original_total_lines ≤ L then m.length
      else walkSkip m 0 L := by
  have hchunk : ∀ i, (((LogEngine.new m).chunks.get? i).getD (ChunkMeta.mk 0 0)) =
      ChunkMeta.mk 0 0 := by
    intro i
    rw [new_chunks_single m hne hlen]
    cases i <;> rfl
  simp only [LogEngine.line_to_byte_offset]
  by_cases h : (LogEngine.new m).original_total_lines ≤ L
  · rw [if_pos h, if_pos h]
    rfl
  · rw [if_neg h, if_neg h, hchunk]
    rfl

/-- The count contribution of a single byte. -/
theorem crlfGo_singleton (p b : Nat) :
    crlfGo p [b] = if b = CR ∨ (b = LF ∧ p ≠ CR) then 1 else 0 := by
  conv_lhs => rw [crlfGo]
  rw [show crlfGo b [] = 0 from rfl]
  omega

/-- Extending a prefix by one byte adds that byte's count contribution. -/
theorem cnt_succ (m : List Nat) (k b : Nat) (hk : m.get? k = some b) :
    crlfGo 0 (m.take (k + 1)) = crlfGo 0 (m.take k) +
      (if b = CR ∨ (b = LF ∧ (m.take k).getLastD 0 ≠ CR) then 1 else 0) := by
  rw [List.take_succ]
  rw [List.get?_eq_getElem?] at hk
  rw [hk]
  show crlfGo 0 (m.take k ++ [b]) = _
  rw [crlfGo_append, crlfGo_singleton]

/-- The start of an in-range line lies strictly inside the buffer. -/
theorem walk_lt_len (m : List Nat) (hne : m ≠ []) (L : Nat)
    (hL : L < (LogEngine.new m).original_total_lines) :
    walkSkip m 0 L < m.length := by
  have hcases := new_otl_cases m hne
  have hLcrl : L ≤ crlfGo 0 m := by
    rcases hcases with ⟨h1, _⟩ | ⟨h1, _⟩ <;> omega
  obtain ⟨hle, hls, hcnt⟩ := walk_inv m L hLcrl
  rcases Nat.lt_or_ge (walkSkip m 0 L) m.length with hlt | hge
  · exact hlt
  · exfalso
    have heq : walkSkip m 0 L = m.length := by omega
    have hcntlen : crlfGo 0 (m.take m.length) = crlfGo 0 m := by rw [List.take_length]
    have hLeq : L = crlfGo 0 m := by
      rw [heq] at hcnt
      omega
    rcases hcases with ⟨h1, h2, h3⟩ | ⟨h1, _, _⟩
    · rw [heq] at hls
      have hlen0 : m.length ≠ 0 := by
        intro h0
        exact hne (List.length_eq_zero.mp h0)
      rcases hls with h0 | hLF | ⟨hCR, _⟩
      · exact hlen0 h0
      · refine h2 ?_
        rw [List.getLast?_eq_getElem?, ← List.get?_eq_getElem?]
        exact hLF
      · refine h3 ?_
        rw [List.getLast?_eq_getElem?, ← List.get?_eq_getElem?]
        exact hCR
    · omega

/-- The walk is strictly monotone on line indices up to the terminator count. -/
theorem walk_strict (m : List Nat) (a b : Nat) (hab : a < b) (hb : b ≤ crlfGo 0 m) :
    walkSkip m 0 a < walkSkip m 0 b := by
  obtain ⟨hlea, hlsa, hcnta⟩ := walk_inv m a (by omega)
  cases hft : findTerm (m.drop (walkSkip m 0 a)) with
  | none =>
    exfalso
    have := (walk_step_none m (walkSkip m 0 a) hlea hft).2
    omega
  | some pos =>
    obtain ⟨h1, h2, _, _, _⟩ := walk_step_some m (walkSkip m 0 a) pos hlsa hft
    have hstep : walkSkip m 0 (a + 1) = walkSkip m (walkSkip m 0 a) 1 :=
      walkSkip_add m a 0 1
    have hb2 : walkSkip m 0 b = walkSkip m (walkSkip m 0 (a + 1)) (b - (a + 1)) := by
      conv_lhs => rw [show b = (a + 1) + (b - (a + 1)) from by omega]
      exact walkSkip_add m (a + 1) 0 (b - (a + 1))
    have hmono := (walkSkip_bounds m (b - (a + 1)) (walkSkip m 0 (a + 1))
      (by rw [hstep]; exact h2)).1
    rw [hb2]
    omega

/-- Walking all of the document's lines reaches the end of the buffer. -/
theorem walk_otl_len (m : List Nat) (hne : m ≠ []) :
    walkSkip m 0 ((LogEngine.new m).original_total_lines) = m.length := by
  rcases new_otl_cases m hne with ⟨h1, _, _⟩ | ⟨h1, hterm, hpos⟩
  · rw [h1]
    have hstep : walkSkip m 0 (crlfGo 0 m + 1) =
        walkSkip m (walkSkip m 0 (crlfGo 0 m)) 1 :=
      walkSkip_add m (crlfGo 0 m) 0 1
    obtain ⟨hle, hls, hcnt⟩ := walk_inv m (crlfGo 0 m) le_rfl
    cases hft : findTerm (m.drop (walkSkip m 0 (crlfGo 0 m))) with
    | none =>
      rw [hstep]
      exact (walk_step_none m _ hle hft).1
    | some pos =>
      exfalso
      obtain ⟨_, _, _, h4, _⟩ := walk_step_some m _ pos hls hft
      have := cnt_le_total m (walkSkip m (walkSkip m 0 (crlfGo 0 m)) 1)
      omega
  · rw [h1]
    obtain ⟨hle, hls, hcnt⟩ := walk_inv m (crlfGo 0 m) le_rfl
    rcases Nat.lt_or_ge (walkSkip m 0 (crlfGo 0 m)) m.length with hlt | hge
    · exfalso
      have hlen1 : 0 < m.length := List.length_pos.mpr hne
      have hcntlen : crlfGo 0 (m.take m.length) = crlfGo 0 m := by rw [List.take_length]
      have hT : m.get? (m.length - 1) = some LF ∨ m.get? (m.length - 1) = some CR := by
        rcases hterm with ht | ht
        · left
          rw [List.get?_eq_getElem?, ← List.getLast?_eq_getElem?]
          exact ht
        · right
          rw [List.get?_eq_getElem?, ← List.getLast?_eq_getElem?]
          exact ht
      have hmlen : m.length = (m.length - 1) + 1 := by omega
      rcases hT with hTLF | hTCR
      · by_cases hprev : (m.take (m.length - 1)).getLastD 0 = CR
        · -- the final LF is preceded by a CR: that CR carries the last count
          have hq2 : 2 ≤ m.length := by
            by_contra hc
            push_neg at hc
            have hl1 : m.length = 1 := by omega
            rw [hl1] at hprev
            revert hprev
            show ¬ (m.take 0).getLastD 0 = CR
            rw [List.take_zero]
            decide
          have hgprev : m.get? (m.length - 2) = some CR := by
            rw [getLastD_take m (m.length - 1) 0 (by omega) (by omega)] at hprev
            cases hg : m.get? (m.length - 1 - 1) with
            | none =>
              rw [hg] at hprev
              exact absurd hprev (by decide)
            | some v =>
              rw [hg] at hprev
              simp only [Option.getD_some] at hprev
              rw [show m.length - 2 = m.length - 1 - 1 from by omega, hg, hprev]
          have hc1 : crlfGo 0 (m.take (m.length - 1)) =
              crlfGo 0 (m.take (m.length - 2)) + 1 := by
            have := cnt_succ m (m.length - 2) CR hgprev
            rw [if_pos (Or.inl rfl)] at this
            rw [show m.length - 1 = m.length - 2 + 1 from by omega]
            exact this
          have hc2 : crlfGo 0 (m.take m.length) = crlfGo 0 (m.take (m.length - 1)) := by
            have := cnt_succ m (m.length - 1) LF hTLF
            have hno : ¬ (LF = CR ∨ (LF = LF ∧ (m.take (m.length - 1)).getLastD 0 ≠ CR)) := by
              intro hc
              rcases hc with hc | hc
              · exact absurd hc (by decide)
              · exact hc.2 hprev
            rw [if_neg hno] at this
            have hml : crlfGo 0 (m.take m.length) =
                crlfGo 0 (m.take ((m.length - 1) + 1)) := by
              rw [← hmlen]
            rw [hml]
            omega
          rcases Nat.lt_or_ge (walkSkip m 0 (crlfGo 0 m)) (m.length - 1) with hw | hw
          · have hmono := cnt_mono m (walkSkip m 0 (crlfGo 0 m)) (m.length - 2) (by omega)
            omega
          · have hweq : walkSkip m 0 (crlfGo 0 m) = m.length - 1 := by omega
            rw [hweq] at hls
            rcases hls with h0 | hLF2 | ⟨_, hnLF⟩
            · omega
            · rw [show m.length - 1 - 1 = m.length - 2 from by omega, hgprev] at hLF2
              exact absurd (Option.some.inj hLF2).symm (by decide)
            · exact hnLF hTLF
        · have hc2 : crlfGo 0 (m.take m.length) =
              crlfGo 0 (m.take (m.length - 1)) + 1 := by
            have := cnt_succ m (m.length - 1) LF hTLF
            rw [if_pos (Or.inr ⟨rfl, hprev⟩)] at this
            rw [hmlen]
            exact this
          have hmono := cnt_mono m (walkSkip m 0 (crlfGo 0 m)) (m.length - 1) (by omega)
          omega
      · have hc2 : crlfGo 0 (m.take m.length) =
            crlfGo 0 (m.take (m.length - 1)) + 1 := by
          have := cnt_succ m (m.length - 1) CR hTCR
          rw [if_pos (Or.inl rfl)] at this
          rw [hmlen]
          exact this
        have hmono := cnt_mono m (walkSkip m 0 (crlfGo 0 m)) (m.length - 1) (by omega)
        omega
    · omega

/-- The resolver never points past the end of the buffer. -/
theorem off_le_len (m : List Nat) (hne : m ≠ []) (hlen : m.length ≤ chunkSize)
    (X : Nat) : (LogEngine.new m).line_to_byte_offset X ≤ m.length := by
  rw [line_off_single m hne hlen]
  by_cases h : (LogEngine.new m).original_total_lines ≤ X
  · rw [if_pos h]
  · rw [if_neg h]
    exact (walkSkip_bounds m X 0 (Nat.zero_le _)).2

/-- The resolver is monotone in the line index. -/
theorem off_mono (m : List Nat) (hne : m ≠ []) (hlen : m.length ≤ chunkSize)
    (a b : Nat) (hab : a ≤ b) :
    (LogEngine.new m).line_to_byte_offset a ≤ (LogEngine.new m).line_to_byte_offset b := by
  rw [line_off_single m hne hlen, line_off_single m hne hlen]
  by_cases hb : (LogEngine.new m).original_total_lines ≤ b
  · rw [if_pos hb]
    by_cases ha : (LogEngine.new m).original_total_lines ≤ a
    · rw [if_pos ha]
    · rw [if_neg ha]
      exact (walkSkip_bounds m a 0 (Nat.zero_le _)).2
  · rw [if_neg hb, if_neg (by omega)]
    have h1 : walkSkip m 0 b = walkSkip m (walkSkip m 0 a) (b - a) := by
      conv_lhs => rw [show b = a + (b - a) from by omega]
      exact walkSkip_add m a 0 (b - a)
    have h2 := (walkSkip_bounds m (b - a) (walkSkip m 0 a)
      ((walkSkip_bounds m a 0 (Nat.zero_le _)).2)).1
    omega

/-- The resolver is strictly monotone below the end of the document. -/
theorem off_strict (m : List Nat) (hne : m ≠ []) (hlen : m.length ≤ chunkSize)
    (a b : Nat) (hab : a < b) (hb : b ≤ (LogEngine.new m).original_total_lines) :
    (LogEngine.new m).line_to_byte_offset a < (LogEngine.new m).line_to_byte_offset b := by
  have ha : a < (LogEngine.new m).original_total_lines := by omega
  rw [line_off_single m hne hlen, line_off_single m hne hlen, if_neg (by omega)]
  by_cases hbo : (LogEngine.new m).original_total_lines ≤ b
  · rw [if_pos hbo]
    exact walk_lt_len m hne a ha
  · rw [if_neg hbo]
    apply walk_strict m a b hab
    rcases new_otl_cases m hne with ⟨h1, _⟩ | ⟨h1, _⟩ <;> omega

/-- Adjacent byte spans concatenate. -/
theorem sliceBytes_concat (m : List Nat) (x y z : Nat) (hxy : x ≤ y) (hyz : y ≤ z)
    (hylen : y ≤ m.length) :
    sliceBytes m x y ++ sliceBytes m y z = sliceBytes m x z := by
  show (m.take y).drop x ++ (m.take z).drop y = (m.take z).drop x
  have h1 : m.take y = (m.take z).take y := by
    rw [List.take_take, Nat.min_eq_left hyz]
  have hxlen : x ≤ ((m.take z).take y).length := by
    simp only [List.length_take]
    omega
  rw [h1, ← List.drop_append_of_le_length hxlen, List.take_append_drop]

/-- The whole buffer as a byte span. -/
theorem sliceBytes_full (m : List Nat) : sliceBytes m 0 m.length = m := by
  show (m.take m.length).drop 0 = m
  rw [List.take_length, List.drop_zero]

/-- Appending a non-empty string decides the trailing-LF test. -/
theorem endsLF_append (a b : List Nat) (hb : b ≠ []) : endsLF (a ++ b) = endsLF b := by
  rcases List.exists_cons_of_ne_nil hb with ⟨x, tl, rfl⟩
  simp only [endsLF, List.getLast?_append_cons]

/-- A byte string already ending in LF is left unchanged by the
LF-termination step. -/
theorem withLF_of_endsLF (x : List Nat) (h : endsLF x = true) : withLF x = x := by
  simp [withLF, h]

/-- The LF-termination step does nothing to the empty string. -/
theorem withLF_nil : withLF [] = [] := by
  simp [withLF]

/-- The LF-termination step commutes with prepending, provided the appended
part is non-empty. -/
theorem withLF_append (a b : List Nat) (hb : b ≠ []) :
    a ++ withLF b = withLF (a ++ b) := by
  simp only [withLF]
  rw [endsLF_append a b hb]
  have hab : a ++ b ≠ [] := by simp [hb]
  by_cases hE : endsLF b = true
  · have hn1 : ¬ (¬ endsLF b = true ∧ b ≠ []) := by simp [hE]
    have hn2 : ¬ (¬ endsLF b = true ∧ a ++ b ≠ []) := by simp [hE]
    rw [if_neg hn1, if_neg hn2]
  · rw [if_pos (And.intro hE hb), if_pos (And.intro hE hab), List.append_assoc]

/-- In a CR-free buffer, a non-empty byte span ending at a line start ends
with LF. -/
theorem slice_ends_LF (m : List Nat) (hcr : CR ∉ m) (p q : Nat)
    (hq : q ≤ m.length) (hls : IsLineStart m q)
    (hslice : sliceBytes m p q ≠ []) : endsLF (sliceBytes m p q) = true := by
  have hlen : (sliceBytes m p q).length = q - p := by
    show ((m.take q).drop p).length = q - p
    simp only [List.length_drop, List.length_take]
    omega
  have hpq : p < q := by
    by_contra hc
    push_neg at hc
    exact hslice (List.eq_nil_of_length_eq_zero (by omega))
  have hlast : (sliceBytes m p q).getLast? = m.get? (q - 1) := by
    rw [List.getLast?_eq_getElem?, hlen]
    show ((m.take q).drop p)[q - p - 1]? = _
    rw [List.getElem?_drop, List.getElem?_take_of_lt (by omega), List.get?_eq_getElem?]
    congr 1
    omega
  rcases hls with h0 | hLF | ⟨hCR, _⟩
  · omega
  · show decide ((sliceBytes m p q).getLast? = some LF) = true
    rw [hlast, hLF]
    rfl
  · exact absurd (List.get?_mem hCR) hcr

/-- `split('\n')` always produces at least one part. -/
theorem splitOnLF_ne_nil : ∀ t : List Nat, splitOnLF t ≠ [] := by
  intro t
  cases t with
  | nil => simp [splitOnLF]
  | cons b rest =>
    by_cases hb : b = 10
    · subst hb
      simp [splitOnLF]
    · cases hs : splitOnLF rest with
      | nil => simp [splitOnLF, hb, hs]
      | cons s ss => simp [splitOnLF, hb, hs]

/-- The only byte string splitting into a single empty part is the empty
string. -/
theorem splitOnLF_singleton : ∀ t : List Nat, splitOnLF t = [[]] → t = [] := by
  intro t
  cases t with
  | nil => intro _; rfl
  | cons b rest =>
    intro h
    by_cases hb : b = 10
    · subst hb
      rw [show splitOnLF (10 :: rest) = [] :: splitOnLF rest from rfl] at h
      have : splitOnLF rest = [] := by
        injection h
      exact absurd this (splitOnLF_ne_nil rest)
    · exfalso
      cases hs : splitOnLF rest with
      | nil => exact splitOnLF_ne_nil rest hs
      | cons s ss =>
        rw [show splitOnLF (b :: rest) = (b :: s) :: ss from by
          simp [splitOnLF, hb, hs]] at h
        have : b :: s = [] := by injection h
        exact List.noConfusion this

/-- Joining distributes over the head part. -/
theorem joinLF_cons (a : List Nat) (l : List (List Nat)) :
    joinLF (a :: l) = a ++ [LF] ++ joinLF l := by
  simp [joinLF]

/-- A byte string ending in LF splits into parts the last of which is empty. -/
theorem splitOnLF_last : ∀ t : List Nat, t.getLast? = some LF →
    (splitOnLF t).getLast? = some [] := by
  intro t
  induction t with
  | nil =>
    intro h
    simp at h
  | cons b rest ih =>
    intro h
    by_cases hrne : rest = []
    · subst hrne
      have hbLF : b = LF := by simpa using h
      subst hbLF
      rfl
    · have hlast : rest.getLast? = some LF := by
        rcases List.exists_cons_of_ne_nil hrne with ⟨c, cs, hcc⟩
        rw [hcc] at h
        rw [List.getLast?_cons_cons] at h
        rw [hcc]
        exact h
      have hih := ih hlast
      by_cases hb : b = 10
      · subst hb
        rw [show splitOnLF (10 :: rest) = [] :: splitOnLF rest from rfl]
        rcases h2 : splitOnLF rest with _ | ⟨s, ss⟩
        · exact absurd h2 (splitOnLF_ne_nil rest)
        · rw [h2] at hih
          rw [List.getLast?_cons_cons]
          exact hih
      · rcases h2 : splitOnLF rest with _ | ⟨s, ss⟩
        · exact absurd h2 (splitOnLF_ne_nil rest)
        · rw [show splitOnLF (b :: rest) = (b :: s) :: ss from by
            simp [splitOnLF, hb, h2]]
          cases ss with
          | nil =>
            exfalso
            rw [h2] at hih
            have hsnil : s = [] := by simpa using hih
            rw [hsnil] at h2
            exact hrne (splitOnLF_singleton rest h2)
          | cons s2 ss2 =>
            rw [h2] at hih
            rw [List.getLast?_cons_cons] at hih
            rw [List.getLast?_cons_cons]
            exact hih

/-- Splitting an LF-terminated byte string on LF, dropping the final empty
part, and joining the parts back with LF terminators is the identity. -/
theorem joinLF_pop_split : ∀ t : List Nat, t.getLast? = some LF →
    joinLF (popTrailingEmpty (splitOnLF t)) = t := by
  intro t
  induction t with
  | nil =>
    intro h
    simp at h
  | cons b rest ih =>
    intro h
    by_cases hrne : rest = []
    · subst hrne
      have hbLF : b = LF := by simpa using h
      subst hbLF
      rfl
    · have hlast : rest.getLast? = some LF := by
        rcases List.exists_cons_of_ne_nil hrne with ⟨c, cs, hcc⟩
        rw [hcc] at h
        rw [List.getLast?_cons_cons] at h
        rw [hcc]
        exact h
      have hih := ih hlast
      have hsplast := splitOnLF_last rest hlast
      by_cases hb : b = 10
      · subst hb
        rw [show splitOnLF (10 :: rest) = [] :: splitOnLF rest from rfl]
        rcases h2 : splitOnLF rest with _ | ⟨s, ss⟩
        · exact absurd h2 (splitOnLF_ne_nil rest)
        · rw [h2] at hsplast hih
          have hpop : popTrailingEmpty ([] :: s :: ss) = [] :: popTrailingEmpty (s :: ss) := by
            simp only [popTrailingEmpty, List.getLast?_cons_cons, hsplast, if_pos rfl]
            rfl
          rw [hpop]
          rw [show popTrailingEmpty (s :: ss) = (s :: ss).dropLast from by
            simp only [popTrailingEmpty, hsplast, if_true]] at hih ⊢
          rw [joinLF_cons]
          rw [hih]
          rfl
      · rcases h2 : splitOnLF rest with _ | ⟨s, ss⟩
        · exact absurd h2 (splitOnLF_ne_nil rest)
        · rw [show splitOnLF (b :: rest) = (b :: s) :: ss from by
            simp [splitOnLF, hb, h2]]
          rw [h2] at hsplast hih
          cases ss with
          | nil =>
            exfalso
            have hsnil : s = [] := by simpa using hsplast
            rw [hsnil] at h2
            exact hrne (splitOnLF_singleton rest h2)
          | cons s2 ss2 =>
            rw [List.getLast?_cons_cons] at hsplast
            have hpop1 : popTrailingEmpty ((b :: s) :: s2 :: ss2) =
                (b :: s) :: (s2 :: ss2).dropLast := by
              simp only [popTrailingEmpty, List.getLast?_cons_cons, hsplast, if_pos rfl]
              rfl
            have hpop2 : popTrailingEmpty (s :: s2 :: ss2) =
                s :: (s2 :: ss2).dropLast := by
              simp only [popTrailingEmpty, List.getLast?_cons_cons, hsplast, if_pos rfl]
              rfl
            rw [hpop1]
            rw [hpop2] at hih
            rw [joinLF_cons] at hih ⊢
            rw [← hih]
            rfl

/-- The head of a list is a member. -/
theorem head?_mem_my (l : List Nat) (a : Nat) (h : l.head? = some a) : a ∈ l := by
  cases l with
  | nil => simp at h
  | cons x xs =>
    have hx : x = a := by simpa using h
    rw [← hx]
    exact List.mem_cons_self x xs

/-- In a strictly increasing list, every member is at most the last element. -/
theorem head_le_getLast (l : List Nat) (hp : l.Pairwise (fun x y => x < y)) (a b : Nat)
    (ha : a ∈ l) (hb : l.getLast? = some b) : a ≤ b := by
  induction l with
  | nil => simp at ha
  | cons x xs ih =>
    rcases List.mem_cons.mp ha with rfl | hmem
    · cases hxs : xs with
      | nil =>
        rw [hxs] at hb
        have : a = b := by simpa using hb
        omega
      | cons y ys =>
        rw [hxs] at hb
        rw [List.getLast?_cons_cons] at hb
        have hbmem : b ∈ y :: ys := List.mem_of_getLast?_eq_some hb
        have hlt := (List.pairwise_cons.mp hp).1 b (by rw [hxs]; exact hbmem)
        omega
    · have hne : xs ≠ [] := List.ne_nil_of_mem hmem
      rcases List.exists_cons_of_ne_nil hne with ⟨y, ys, hys⟩
      rw [hys] at hb
      rw [List.getLast?_cons_cons] at hb
      rw [← hys] at hb
      exact ih (List.pairwise_cons.mp hp).2 hmem hb

/-- The match positions are listed in strictly increasing order. -/
theorem subPositions_sorted (hay q : List Nat) :
    (subPositions hay q).Pairwise (fun x y => x < y) :=
  (List.pairwise_lt_range _).filter _

/-- Membership in the match-position list. -/
theorem subPositions_mem (hay q : List Nat) (pos : Nat) :
    pos ∈ subPositions hay q ↔
      pos < hay.length + 1 ∧ q.isPrefixOf (hay.drop pos) = true := by
  simp [subPositions, List.mem_filter, List.mem_range]

/-- Streaming the memory lines of one whole memory piece joins the stored
lines with LF terminators. -/
theorem memJoin (ls : List (List Nat)) :
    ((List.range ls.length).map (fun i => (ls.get? i).getD [] ++ [LF])).flatten =
      joinLF ls := by
  induction ls with
  | nil => rfl
  | cons a tl ih =>
    have hmap : (List.range (a :: tl).length).map
          (fun i => ((a :: tl).get? i).getD [] ++ [LF]) =
        (a ++ [LF]) :: (List.range tl.length).map
          (fun i => (tl.get? i).getD [] ++ [LF]) := by
      rw [show (a :: tl).length = tl.length + 1 from rfl, List.range_succ_eq_map,
        List.map_cons, List.map_map]
      congr 1
    rw [hmap, List.flatten_cons, ih, joinLF_cons]

/-- Evaluation of the block loop on an empty piece suffix. -/
theorem getBlockGo_nil (e : LogEngine) (o r : Nat) (acc : List Nat) :
    getBlockGo e [] o r acc = acc := rfl

/-- The total line count of a fresh engine is its constructed
`original_total_lines`. -/
theorem total_new (m : List Nat) :
    (LogEngine.new m).total_lines = (LogEngine.new m).original_total_lines := by
  show ((LogEngine.new m).pieces.map Piece.lineCount).sum = _
  rw [new_pieces]
  simp [Piece.lineCount]

/-- The original-byte extraction of a fresh engine as a byte span. -/
theorem gob_new (m : List Nat) (s c2 : Nat) (hc2 : ¬ c2 = 0) :
    (LogEngine.new m).get_original_bytes s c2 =
      sliceBytes m ((LogEngine.new m).line_to_byte_offset s)
        ((LogEngine.new m).line_to_byte_offset (s + c2)) := by
  show (if c2 = 0 then [] else _) = _
  rw [if_neg hc2]
  rfl

/-- Saving a fresh single-chunk engine writes the original bytes, with an LF
appended when the file does not already end in LF. -/
theorem save_new (m : List Nat) (hne : m ≠ []) (hlen : m.length ≤ chunkSize) :
    (LogEngine.new m).save = withLF m := by
  have hopos := new_otl_pos m hne
  show saveGo (LogEngine.new m) (LogEngine.new m).pieces = withLF m
  rw [new_pieces]
  show savePieceOut (LogEngine.new m)
      (Piece.Original 0 (LogEngine.new m).original_total_lines) ++
      saveGo (LogEngine.new m) [] = withLF m
  rw [show saveGo (LogEngine.new m) ([] : List Piece) = [] from rfl, List.append_nil]
  rw [show savePieceOut (LogEngine.new m)
      (Piece.Original 0 (LogEngine.new m).original_total_lines) =
      withLF ((LogEngine.new m).get_original_bytes 0
        (LogEngine.new m).original_total_lines) from rfl]
  rw [gob_new m 0 _ (by omega)]
  have h0 : (LogEngine.new m).line_to_byte_offset 0 = 0 := by
    rw [line_off_single m hne hlen, if_neg (by omega)]
    rfl
  have hotl : (LogEngine.new m).line_to_byte_offset
      (0 + (LogEngine.new m).original_total_lines) = m.length := by
    rw [line_off_single m hne hlen, if_pos (by omega)]
  rw [h0, hotl, sliceBytes_full]

/-- Locating an in-range line in a fresh engine. -/
theorem find_new (m : List Nat) (L : Nat)
    (hL : L < (LogEngine.new m).original_total_lines) :
    (LogEngine.new m).find_piece_idx L = (0, L) := by
  show findPieceGo L (LogEngine.new m).pieces 0 0 = (0, L)
  rw [new_pieces, findPiece_one, if_pos hL]

/-- Evaluation of an insert-bearing edit at line 0 of a fresh engine. -/
theorem apply_edit_new_zero (m : List Nat)
    (hot : 0 < (LogEngine.new m).original_total_lines)
    (n : Nat) (t : List Nat) (ht : ¬ t = [])
    (hlines : ¬ popTrailingEmpty (splitOnLF t) = []) :
    (LogEngine.new m).apply_edit 0 n t =
      { LogEngine.new m with
        memory_buffer := popTrailingEmpty (splitOnLF t),
        pieces := insAt (Piece.Memory 0 (popTrailingEmpty (splitOnLF t)).length)
          (deleteSuffix [Piece.Original 0 (LogEngine.new m).original_total_lines] n) 0 } := by
  have hfind : (LogEngine.new m).find_piece_idx 0 = (0, 0) := find_new m 0 hot
  simp only [LogEngine.apply_edit, hfind]
  rw [if_neg ht, if_neg hlines]
  have hc1 : (0 : Nat) < (LogEngine.new m).pieces.length := by
    rw [new_pieces]
    exact Nat.zero_lt_one
  have hc2 : ¬ ((0 : Nat) < (LogEngine.new m).pieces.length ∧ (0 : Nat) < 0) := by
    intro h
    exact absurd h.2 (Nat.lt_irrefl 0)
  rw [if_pos hc1, if_neg hc2, new_pieces]
  rfl

/-- Evaluation of an insert-bearing edit at an interior line of a fresh
engine. -/
theorem apply_edit_new_pos (m : List Nat) (L n : Nat) (t : List Nat)
    (hL0 : 0 < L) (hL : L < (LogEngine.new m).original_total_lines)
    (ht : ¬ t = []) (hlines : ¬ popTrailingEmpty (splitOnLF t) = []) :
    (LogEngine.new m).apply_edit L n t =
      { LogEngine.new m with
        memory_buffer := popTrailingEmpty (splitOnLF t),
        pieces := insAt (Piece.Memory 0 (popTrailingEmpty (splitOnLF t)).length)
          ((splitPiecesAt [Piece.Original 0 (LogEngine.new m).original_total_lines]
              0 L).take 1 ++
            deleteSuffix
              ((splitPiecesAt [Piece.Original 0 (LogEngine.new m).original_total_lines]
                0 L).drop 1) n) 1 } := by
  have hfind : (LogEngine.new m).find_piece_idx L = (0, L) := find_new m L hL
  simp only [LogEngine.apply_edit, hfind]
  have hpidx : 0 < (LogEngine.new m).pieces.length ∧ 0 < L := by
    constructor
    · rw [new_pieces]
      exact Nat.zero_lt_one
    · exact hL0
  rw [if_pos hpidx, if_neg ht, if_neg hlines]
  rw [new_pieces]
  rfl

/-- Inserting at the front of a piece list. -/
theorem insAt_zero (x : Piece) (l : List Piece) : insAt x l 0 = x :: l := by
  cases l <;> rfl

/-- Inserting into a piece list after its first element. -/
theorem insAt_one (x p : Piece) (l : List Piece) : insAt x (p :: l) 1 = p :: x :: l := by
  show p :: insAt x l 0 = p :: x :: l
  rw [insAt_zero]

/-- Splitting the single original piece at an interior line. -/
theorem splitPieces_one (c L : Nat) (hL0 : 0 < L) (hLc : L < c) :
    splitPiecesAt [Piece.Original 0 c] 0 L =
      [Piece.Original 0 L, Piece.Original L (c - L)] := by
  have h0 : ¬ L = 0 := by omega
  have hc : ¬ (Piece.Original 0 c).lineCount ≤ L := by
    simp only [Piece.lineCount]
    omega
  simp [splitPiecesAt, h0, hc]

/-- Deleting an in-range prefix of a single original piece. -/
theorem deleteSuffix_one_lt (a c n : Nat) (hn0 : ¬ n = 0) (hn : n < c) :
    deleteSuffix [Piece.Original a c] n = [Piece.Original (a + n) (c - n)] := by
  have hc : ¬ (Piece.Original a c).lineCount ≤ n := by
    simp only [Piece.lineCount]
    omega
  have hcn : ¬ c ≤ n := by omega
  simp [deleteSuffix, hn0, hc, splitPiecesAt, hcn, Piece.lineCount]

/-- Deleting at least all lines of a single original piece. -/
theorem deleteSuffix_one_all (a c n : Nat) (hn0 : ¬ n = 0) (hc : c ≤ n) :
    deleteSuffix [Piece.Original a c] n = [] := by
  have hcl : (Piece.Original a c).lineCount ≤ n := by
    simp only [Piece.lineCount]
    omega
  simp [deleteSuffix, hn0, hcl]

/-- Locating a line at or past the end of a fresh engine's document. -/
theorem find_new_out (m : List Nat) (L : Nat)
    (hL : (LogEngine.new m).original_total_lines ≤ L) :
    (LogEngine.new m).find_piece_idx L = (1, 0) := by
  show findPieceGo L (LogEngine.new m).pieces 0 0 = (1, 0)
  rw [new_pieces, findPiece_one, if_neg (by omega)]

/-- The save output of a piece ignores the piece table of the engine. -/
theorem savePieceOut_set (e : LogEngine) (mb : List (List Nat)) (P : List Piece)
    (p : Piece) :
    savePieceOut { e with memory_buffer := mb, pieces := P } p =
      savePieceOut { e with memory_buffer := mb } p := by
  cases p <;> rfl

/-- The piece-resolution of byte spans ignores the piece table and the edit
buffer of the engine. -/
theorem gob_set (e : LogEngine) (mb : List (List Nat)) (P : List Piece)
    (s c2 : Nat) :
    ({ e with memory_buffer := mb, pieces := P } : LogEngine).get_original_bytes s c2 =
      e.get_original_bytes s c2 := rfl

/-- A whole memory piece over the complete edit buffer saves as the joined
lines. -/
theorem savePieceOut_mem_full (e : LogEngine) (ls : List (List Nat))
    (hmb : e.memory_buffer = ls) :
    savePieceOut e (Piece.Memory 0 ls.length) = joinLF ls := by
  show ((List.range ls.length).map
    (fun i => (e.memory_buffer.get? (0 + i)).getD [] ++ [LF])).flatten = _
  rw [hmb]
  simp only [Nat.zero_add]
  exact memJoin ls

/-- The trailing-LF test as a proposition. -/
theorem endsLF_iff (x : List Nat) : endsLF x = true ↔ x.getLast? = some LF := by
  simp [endsLF]

/-- The LF-termination step of a non-empty string yields a non-empty,
LF-terminated string. -/
theorem withLF_ends (x : List Nat) (hx : x ≠ []) :
    endsLF (withLF x) = true ∧ withLF x ≠ [] := by
  by_cases hE : endsLF x = true
  · rw [withLF_of_endsLF x hE]
    exact ⟨hE, hx⟩
  · rw [show withLF x = x ++ [LF] from by simp [withLF, hE, hx]]
    constructor
    · rw [endsLF_append x [LF] (by simp)]
      rfl
    · simp

/-- Recombining an LF-terminated prefix with the LF-completed remainder of
the buffer yields the LF-completed buffer. -/
theorem prefix_withLF_suffix (m : List Nat) (w : Nat) (hw : w ≤ m.length)
    (hwlt : w < m.length) :
    sliceBytes m 0 w ++ withLF (sliceBytes m w m.length) = withLF m := by
  have hs2ne : sliceBytes m w m.length ≠ [] := by
    show (m.take m.length).drop w ≠ []
    rw [List.take_length]
    intro hc
    have hlen2 := congrArg List.length hc
    rw [List.length_drop] at hlen2
    simp at hlen2
    omega
  rw [withLF_append _ _ hs2ne, sliceBytes_concat m 0 w m.length (Nat.zero_le _) hw hw,
    sliceBytes_full]

/-- The byte span of lines `[a, b)` of a fresh single-chunk CR-free engine,
with `b` in range, is LF-terminated (or empty). -/
theorem slice_walk_LF (m : List Nat) (hne : m ≠ []) (hcr : CR ∉ m) (p b : Nat)
    (hb : b ≤ crlfGo 0 m)
    (hslice : sliceBytes m p (walkSkip m 0 b) ≠ []) :
    endsLF (sliceBytes m p (walkSkip m 0 b)) = true := by
  obtain ⟨hle, hls, _⟩ := walk_inv m b hb
  exact slice_ends_LF m hcr p (walkSkip m 0 b) hle hls hslice

/-- Saving a fresh single-chunk CR-free engine whose single piece has been
split at an interior line reproduces the unsplit save output. -/
theorem save_two_piece (m : List Nat) (hne : m ≠ []) (hlen : m.length ≤ chunkSize)
    (hcr : CR ∉ m) (L : Nat) (hL0 : 0 < L)
    (hL : L < (LogEngine.new m).original_total_lines) :
    saveGo (LogEngine.new m)
      [Piece.Original 0 L,
       Piece.Original L ((LogEngine.new m).original_total_lines - L)] =
      (LogEngine.new m).save := by
  rw [save_new m hne hlen]
  have hopos := new_otl_pos m hne
  have hcrl : L ≤ crlfGo 0 m := by
    rcases new_otl_cases m hne with ⟨h1, _⟩ | ⟨h1, _⟩ <;> omega
  have hoffL : (LogEngine.new m).line_to_byte_offset L = walkSkip m 0 L := by
    rw [line_off_single m hne hlen, if_neg (by omega)]
  have hoff0 : (LogEngine.new m).line_to_byte_offset 0 = 0 := by
    rw [line_off_single m hne hlen, if_neg (by omega)]
    rfl
  have hoffT : (LogEngine.new m).line_to_byte_offset
      (LogEngine.new m).original_total_lines = m.length := by
    rw [line_off_single m hne hlen, if_pos le_rfl]
  obtain ⟨hwle, hwls, _⟩ := walk_inv m L hcrl
  have hwlt := walk_lt_len m hne L hL
  show savePieceOut (LogEngine.new m) (Piece.Original 0 L) ++
    (savePieceOut (LogEngine.new m)
      (Piece.Original L ((LogEngine.new m).original_total_lines - L)) ++ []) = withLF m
  rw [List.append_nil]
  rw [show savePieceOut (LogEngine.new m) (Piece.Original 0 L) =
    withLF ((LogEngine.new m).get_original_bytes 0 L) from rfl]
  rw [show savePieceOut (LogEngine.new m)
      (Piece.Original L ((LogEngine.new m).original_total_lines - L)) =
    withLF ((LogEngine.new m).get_original_bytes L
      ((LogEngine.new m).original_total_lines - L)) from rfl]
  rw [gob_new m 0 L (by omega), gob_new m L _ (by omega)]
  rw [show (0 : Nat) + L = L from Nat.zero_add L]
  rw [show L + ((LogEngine.new m).original_total_lines - L) =
    (LogEngine.new m).original_total_lines from by omega]
  rw [hoff0, hoffL, hoffT]
  have hs1ne : sliceBytes m 0 (walkSkip m 0 L) ≠ [] := by
    show (m.take (walkSkip m 0 L)).drop 0 ≠ []
    rw [List.drop_zero]
    intro hc
    have hl2 := congrArg List.length hc
    rw [List.length_take, List.length_nil] at hl2
    have := walk_strict m 0 L hL0 hcrl
    rw [show walkSkip m 0 0 = 0 from rfl] at this
    have hml : 0 < m.length := List.length_pos.mpr hne
    omega
  rw [withLF_of_endsLF _ (slice_walk_LF m hne hcr 0 L hcrl hs1ne)]
  exact prefix_withLF_suffix m (walkSkip m 0 L) hwle hwlt

/-- An edit with empty text only rearranges the piece table (split, then
delete), leaving every other engine component unchanged. -/
theorem apply_edit_nil_eq2 (e : LogEngine) (L n2 i off : Nat)
    (hfind : e.find_piece_idx L = (i, off)) :
    e.apply_edit L n2 [] =
      { e with pieces :=
        (List.take (if i < e.pieces.length ∧ 0 < off then i + 1 else i)
            (if i < e.pieces.length then splitPiecesAt e.pieces i off else e.pieces) ++
          deleteSuffix
            (List.drop (if i < e.pieces.length ∧ 0 < off then i + 1 else i)
              (if i < e.pieces.length then splitPiecesAt e.pieces i off else e.pieces))
            n2) } := by
  simp only [LogEngine.apply_edit, hfind]
  rw [if_true]

/-- The save stream ignores the piece table recorded in the engine. -/
theorem saveGo_pieces_set (e : LogEngine) (P : List Piece) :
    ∀ l, saveGo { e with pieces := P } l = saveGo e l := by
  intro l
  induction l with
  | nil => rfl
  | cons p rest ih =>
    show savePieceOut { e with pieces := P } p ++ saveGo { e with pieces := P } rest =
      savePieceOut e p ++ saveGo e rest
    rw [ih]
    have hsp : savePieceOut { e with pieces := P } p = savePieceOut e p := by
      cases p <;> rfl
    rw [hsp]

/-- Saving an engine with a replaced piece table streams the new pieces over
the unchanged resolution state. -/
theorem save_set_pieces (e : LogEngine) (P : List Piece) :
    ({ e with pieces := P } : LogEngine).save = saveGo e P := by
  show saveGo { e with pieces := P } P = saveGo e P
  exact saveGo_pieces_set e P P

/-- The save output of an original piece ignores the edit buffer and the
piece table. -/
theorem savePieceOut_set_orig (e : LogEngine) (mb : List (List Nat)) (P : List Piece)
    (s c2 : Nat) :
    savePieceOut { e with memory_buffer := mb, pieces := P } (Piece.Original s c2) =
      withLF (e.get_original_bytes s c2) := rfl

/-- The save output of a memory piece covering the whole replaced edit buffer
is the joined buffer. -/
theorem savePieceOut_set_mem (e : LogEngine) (mb : List (List Nat)) (P : List Piece) :
    savePieceOut { e with memory_buffer := mb, pieces := P } (Piece.Memory 0 mb.length) =
      joinLF mb :=
  savePieceOut_mem_full _ mb rfl

/-- The byte span of lines `[a, b)` with `b` strictly in range is already
LF-terminated, so the LF-completion step leaves it unchanged. -/
theorem withLF_slice_off (m : List Nat) (hne : m ≠ []) (hlen : m.length ≤ chunkSize)
    (hcr : CR ∉ m) (a b : Nat) (hab : a < b)
    (hb : b < (LogEngine.new m).original_total_lines) :
    withLF (sliceBytes m ((LogEngine.new m).line_to_byte_offset a)
      ((LogEngine.new m).line_to_byte_offset b)) =
      sliceBytes m ((LogEngine.new m).line_to_byte_offset a)
        ((LogEngine.new m).line_to_byte_offset b) := by
  have hcrl : b ≤ crlfGo 0 m := by
    rcases new_otl_cases m hne with ⟨h1, _⟩ | ⟨h1, _⟩ <;> omega
  have hoffb : (LogEngine.new m).line_to_byte_offset b = walkSkip m 0 b := by
    rw [line_off_single m hne hlen, if_neg (by omega)]
  have hstrict := off_strict m hne hlen a b hab (by omega)
  have hoffble := off_le_len m hne hlen b
  have hslne : sliceBytes m ((LogEngine.new m).line_to_byte_offset a)
      ((LogEngine.new m).line_to_byte_offset b) ≠ [] := by
    show (m.take _).drop _ ≠ []
    intro hc
    have hl2 := congrArg List.length hc
    rw [List.length_drop, List.length_take, List.length_nil] at hl2
    omega
  rw [hoffb] at hslne ⊢
  exact withLF_of_endsLF _ (slice_walk_LF m hne hcr _ b hcrl hslne)

/-- Prepending the byte span of the first `s` lines to the LF-completed span
of the remaining lines yields the LF-completed buffer. -/
theorem gob_suffix (m : List Nat) (hne : m ≠ []) (hlen : m.length ≤ chunkSize)
    (s : Nat) (hs : s < (LogEngine.new m).original_total_lines) :
    sliceBytes m 0 ((LogEngine.new m).line_to_byte_offset s) ++
      withLF ((LogEngine.new m).get_original_bytes s
        ((LogEngine.new m).original_total_lines - s)) = withLF m := by
  rw [gob_new m s _ (by omega)]
  rw [show s + ((LogEngine.new m).original_total_lines - s) =
    (LogEngine.new m).original_total_lines from by omega]
  have hoffT : (LogEngine.new m).line_to_byte_offset
      (LogEngine.new m).original_total_lines = m.length := by
    rw [line_off_single m hne hlen, if_pos le_rfl]
  have hoffs : (LogEngine.new m).line_to_byte_offset s = walkSkip m 0 s := by
    rw [line_off_single m hne hlen, if_neg (by omega)]
  rw [hoffT, hoffs]
  exact prefix_withLF_suffix m (walkSkip m 0 s)
    ((walkSkip_bounds m s 0 (Nat.zero_le _)).2) (walk_lt_len m hne s hs)

/-- Saving an engine with a replaced edit buffer and piece table streams the
new pieces. -/
theorem save_set2 (e : LogEngine) (mb : List (List Nat)) (P : List Piece) :
    ({ e with memory_buffer := mb, pieces := P } : LogEngine).save =
      saveGo { e with memory_buffer := mb, pieces := P } P := rfl

/-- The block loop with nothing left to emit returns the accumulator. -/
theorem getBlockGo_zero (e : LogEngine) (l : List Piece) (o : Nat) (acc : List Nat) :
    getBlockGo e l o 0 acc = acc := by
  cases l <;> rfl

/-- The block loop ignores the piece table recorded in the engine. -/
theorem getBlockGo_set_pieces (e : LogEngine) (P : List Piece) :
    ∀ (l : List Piece) (o r : Nat) (acc : List Nat),
      getBlockGo { e with pieces := P } l o r acc = getBlockGo e l o r acc := by
  intro l
  induction l with
  | nil =>
    intro o r acc
    rfl
  | cons p rest ih =>
    intro o r acc
    show (if r = 0 then acc else _) = (if r = 0 then acc else _)
    by_cases hr : r = 0
    · rw [if_pos hr, if_pos hr]
    · rw [if_neg hr, if_neg hr]
      exact ih 0 _ _

/-- Locating a line in the split two-piece table. -/
theorem findPiece_two (s L c : Nat) (hL0 : 0 < L) (hLc : L ≤ c) :
    findPieceGo s [Piece.Original 0 L, Piece.Original L (c - L)] 0 0 =
      if s < L then (0, s) else if s < c then (1, s - L) else (2, 0) := by
  simp only [findPieceGo, Piece.lineCount, Nat.zero_add]
  rw [show L + (c - L) = c from by omega]
  rfl

/-- A list with a member has a last element. -/
theorem getLast?_some_of_mem (l : List Nat) (a : Nat) (h : a ∈ l) :
    ∃ b, l.getLast? = some b := by
  cases l with
  | nil => simp at h
  | cons x xs =>
    cases hgl : (x :: xs).getLast? with
    | none => simp at hgl
    | some b => exact ⟨b, rfl⟩

/-- Forward search over a fresh engine scans the whole original and reports
the terminator count before the first match. -/
theorem search_new (m q : List Nat) (hq : ¬ q = [])
    (hot : 0 < (LogEngine.new m).original_total_lines) :
    (LogEngine.new m).search q 0 =
      (match (subPositions ((LogEngine.new m).get_original_bytes 0
          (LogEngine.new m).original_total_lines) q).head? with
        | some pos => Int.ofNat (scanCount (((LogEngine.new m).get_original_bytes 0
            (LogEngine.new m).original_total_lines).take pos))
        | none => -1) := by
  show (if q = [] then (-1 : Int) else _) = _
  rw [if_neg hq]
  show searchGo (LogEngine.new m) q
    ((LogEngine.new m).pieces.drop ((LogEngine.new m).find_piece_idx 0).1)
    ((LogEngine.new m).find_piece_idx 0).2 0 = _
  rw [find_new m 0 hot, new_pieces]
  show (match (subPositions ((LogEngine.new m).get_original_bytes 0
      (LogEngine.new m).original_total_lines) q).head? with
    | some pos => Int.ofNat (0 + scanCount (((LogEngine.new m).get_original_bytes 0
        (LogEngine.new m).original_total_lines).take pos))
    | none => searchGo (LogEngine.new m) q [] 0
        (0 + ((Piece.Original 0 (LogEngine.new m).original_total_lines).lineCount - 0))) = _
  cases (subPositions ((LogEngine.new m).get_original_bytes 0
      (LogEngine.new m).original_total_lines) q).head? with
  | some pos =>
    show Int.ofNat (0 + scanCount _) = Int.ofNat (scanCount _)
    rw [Nat.zero_add]
  | none => rfl

/-- One backward step over the single original piece of a fresh engine. -/
theorem searchBack_new (m q : List Nat) (off cur : Nat) :
    searchBackGo (LogEngine.new m) q 0 off cur =
      (match (subPositions ((LogEngine.new m).get_original_bytes 0 (off + 1)) q).getLast? with
        | some pos => Int.ofNat (cur - off + scanCount
            (((LogEngine.new m).get_original_bytes 0 (off + 1)).take pos))
        | none => -1) := by
  conv_lhs => rw [searchBackGo]
  rw [show (LogEngine.new m).pieces.get? 0 =
    some (Piece.Original 0 (LogEngine.new m).original_total_lines) from by
    rw [new_pieces]
    rfl]
  show (match (match (subPositions ((LogEngine.new m).get_original_bytes 0 (off + 1))
        q).getLast? with
      | some pos => some (Int.ofNat (cur - off + scanCount
          (((LogEngine.new m).get_original_bytes 0 (off + 1)).take pos)))
      | none => (none : Option Int)) with
    | some r => r
    | none => (-1 : Int)) = _
  cases (subPositions ((LogEngine.new m).get_original_bytes 0 (off + 1)) q).getLast? with
  | some pos => rfl
  | none => rfl

/-- Backward search from an in-range start line of a fresh engine is the
single backward step (no clamping occurs). -/
theorem search_backward_new (m q : List Nat) (s : Nat) (hq : ¬ q = [])
    (hs : s < (LogEngine.new m).original_total_lines) :
    (LogEngine.new m).search_backward q s = searchBackGo (LogEngine.new m) q 0 s s := by
  simp only [LogEngine.search_backward]
  rw [if_neg hq, find_new m s hs]
  have hcl : ¬ ((LogEngine.new m).pieces.length ≤ (((0 : Nat), s)).1) := by
    rw [new_pieces]
    simp
  rw [if_neg hcl]

/-- Decoding the empty byte string. -/
theorem u8_nil : utf8Lossy [] = [] := rfl

/-- Decoding step: an ASCII byte is copied. -/
theorem u8_ascii (b : Nat) (r : List Nat) (h : b < 128) :
    utf8Lossy (b :: r) = b :: utf8Lossy r := by
  conv_lhs => rw [utf8Lossy.eq_def]
  show (if b < 128 then b :: utf8Lossy r else _) = _
  rw [if_pos h]

/-- Decoding step: a lone non-ASCII byte at the end is replaced. -/
theorem u8_end1 (b : Nat) (h : ¬ b < 128) : utf8Lossy [b] = replChar := by
  conv_lhs => rw [utf8Lossy.eq_def]
  show (if b < 128 then _ else _) = _
  rw [if_neg h]
  split_ifs <;> rfl

/-- Decoding step: a valid two-byte sequence is copied. -/
theorem u8_two_ok (b c : Nat) (r : List Nat) (h1 : ¬ b < 128)
    (h2 : 194 ≤ b ∧ b ≤ 223) (hc : isCont c = true) :
    utf8Lossy (b :: c :: r) = b :: c :: utf8Lossy r := by
  conv_lhs => rw [utf8Lossy.eq_def]
  show (if b < 128 then _ else if 194 ≤ b ∧ b ≤ 223 then
    (if isCont c = true then b :: c :: utf8Lossy r else _) else _) = _
  rw [if_neg h1, if_pos h2, if_pos hc]

/-- Decoding step: a two-byte lead without continuation is replaced alone. -/
theorem u8_two_bad (b c : Nat) (r : List Nat) (h1 : ¬ b < 128)
    (h2 : 194 ≤ b ∧ b ≤ 223) (hc : isCont c = false) :
    utf8Lossy (b :: c :: r) = replChar ++ utf8Lossy (c :: r) := by
  conv_lhs => rw [utf8Lossy.eq_def]
  show (if b < 128 then _ else if 194 ≤ b ∧ b ≤ 223 then
    (if isCont c = true then _ else replChar ++ utf8Lossy (c :: r)) else _) = _
  rw [if_neg h1, if_pos h2, if_neg (by rw [hc]; exact Bool.false_ne_true)]

/-- Decoding step: a valid two-byte prefix of a three-byte sequence at the end is replaced. -/
theorem u8_three_end2 (b c : Nat) (h1 : ¬ b < 128) (h2 : ¬ (194 ≤ b ∧ b ≤ 223))
    (h3 : 224 ≤ b ∧ b ≤ 239) (hc : sndOk3 b c = true) :
    utf8Lossy [b, c] = replChar := by
  conv_lhs => rw [utf8Lossy.eq_def]
  show (if b < 128 then _ else if 194 ≤ b ∧ b ≤ 223 then _
    else if 224 ≤ b ∧ b ≤ 239 then
      (if sndOk3 b c = true then replChar else _) else _) = _
  rw [if_neg h1, if_neg h2, if_pos h3, if_pos hc]

/-- Decoding step: a valid three-byte sequence is copied. -/
theorem u8_three_ok (b c d : Nat) (r : List Nat) (h1 : ¬ b < 128)
    (h2 : ¬ (194 ≤ b ∧ b ≤ 223)) (h3 : 224 ≤ b ∧ b ≤ 239)
    (hc : sndOk3 b c = true) (hd : isCont d = true) :
    utf8Lossy (b :: c :: d :: r) = b :: c :: d :: utf8Lossy r := by
  conv_lhs => rw [utf8Lossy.eq_def]
  show (if b < 128 then _ else if 194 ≤ b ∧ b ≤ 223 then _
    else if 224 ≤ b ∧ b ≤ 239 then
      (if sndOk3 b c = true then
        (if isCont d = true then b :: c :: d :: utf8Lossy r else _) else _)
      else _) = _
  rw [if_neg h1, if_neg h2, if_pos h3, if_pos hc, if_pos hd]

/-- Decoding step: a three-byte sequence failing at the third byte drops its two-byte prefix. -/
theorem u8_three_bad3 (b c d : Nat) (r : List Nat) (h1 : ¬ b < 128)
    (h2 : ¬ (194 ≤ b ∧ b ≤ 223)) (h3 : 224 ≤ b ∧ b ≤ 239)
    (hc : sndOk3 b c = true) (hd : isCont d = false) :
    utf8Lossy (b :: c :: d :: r) = replChar ++ utf8Lossy (d :: r) := by
  conv_lhs => rw [utf8Lossy.eq_def]
  show (if b < 128 then _ else if 194 ≤ b ∧ b ≤ 223 then _
    else if 224 ≤ b ∧ b ≤ 239 then
      (if sndOk3 b c = true then
        (if isCont d = true then _ else replChar ++ utf8Lossy (d :: r)) else _)
      else _) = _
  rw [if_neg h1, if_neg h2, if_pos h3, if_pos hc,
    if_neg (by rw [hd]; exact Bool.false_ne_true)]

/-- Decoding step: a three-byte lead with a bad second byte is replaced alone. -/
theorem u8_three_bad2 (b c : Nat) (r : List Nat) (h1 : ¬ b < 128)
    (h2 : ¬ (194 ≤ b ∧ b ≤ 223)) (h3 : 224 ≤ b ∧ b ≤ 239)
    (hc : sndOk3 b c = false) :
    utf8Lossy (b :: c :: r) = replChar ++ utf8Lossy (c :: r) := by
  conv_lhs => rw [utf8Lossy.eq_def]
  show (if b < 128 then _ else if 194 ≤ b ∧ b ≤ 223 then _
    else if 224 ≤ b ∧ b ≤ 239 then
      (if sndOk3 b c = true then _ else replChar ++ utf8Lossy (c :: r))
      else _) = _
  rw [if_neg h1, if_neg h2, if_pos h3,
    if_neg (by rw [hc]; exact Bool.false_ne_true)]

/-- Decoding step: a valid two-byte prefix of a four-byte sequence at the end is replaced. -/
theorem u8_four_end2 (b c : Nat) (h1 : ¬ b < 128) (h2 : ¬ (194 ≤ b ∧ b ≤ 223))
    (h3 : ¬ (224 ≤ b ∧ b ≤ 239)) (h4 : 240 ≤ b ∧ b ≤ 244)
    (hc : sndOk4 b c = true) :
    utf8Lossy [b, c] = replChar := by
  conv_lhs => rw [utf8Lossy.eq_def]
  show (if b < 128 then _ else if 194 ≤ b ∧ b ≤ 223 then _
    else if 224 ≤ b ∧ b ≤ 239 then _
    else if 240 ≤ b ∧ b ≤ 244 then
      (if sndOk4 b c = true then replChar else _) else _) = _
  rw [if_neg h1, if_neg h2, if_neg h3, if_pos h4, if_pos hc]

/-- Decoding step: a valid three-byte prefix of a four-byte sequence at the end is replaced. -/
theorem u8_four_end3 (b c d : Nat) (h1 : ¬ b < 128) (h2 : ¬ (194 ≤ b ∧ b ≤ 223))
    (h3 : ¬ (224 ≤ b ∧ b ≤ 239)) (h4 : 240 ≤ b ∧ b ≤ 244)
    (hc : sndOk4 b c = true) (hd : isCont d = true) :
    utf8Lossy [b, c, d] = replChar := by
  conv_lhs => rw [utf8Lossy.eq_def]
  show (if b < 128 then _ else if 194 ≤ b ∧ b ≤ 223 then _
    else if 224 ≤ b ∧ b ≤ 239 then _
    else if 240 ≤ b ∧ b ≤ 244 then
      (if sndOk4 b c = true then
        (if isCont d = true then replChar else _) else _) else _) = _
  rw [if_neg h1, if_neg h2, if_neg h3, if_pos h4, if_pos hc, if_pos hd]

/-- Decoding step: a valid four-byte sequence is copied. -/
theorem u8_four_ok (b c d f : Nat) (r : List Nat) (h1 : ¬ b < 128)
    (h2 : ¬ (194 ≤ b ∧ b ≤ 223)) (h3 : ¬ (224 ≤ b ∧ b ≤ 239))
    (h4 : 240 ≤ b ∧ b ≤ 244) (hc : sndOk4 b c = true) (hd : isCont d = true)
    (hf : isCont f = true) :
    utf8Lossy (b :: c :: d :: f :: r) = b :: c :: d :: f :: utf8Lossy r := by
  conv_lhs => rw [utf8Lossy.eq_def]
  show (if b < 128 then _ else if 194 ≤ b ∧ b ≤ 223 then _
    else if 224 ≤ b ∧ b ≤ 239 then _
    else if 240 ≤ b ∧ b ≤ 244 then
      (if sndOk4 b c = true then
        (if isCont d = true then
          (if isCont f = true then b :: c :: d :: f :: utf8Lossy r else _)
          else _) else _) else _) = _
  rw [if_neg h1, if_neg h2, if_neg h3, if_pos h4, if_pos hc, if_pos hd, if_pos hf]

/-- Decoding step: a four-byte sequence failing at the fourth byte drops its three-byte prefix. -/
theorem u8_four_bad4 (b c d f : Nat) (r : List Nat) (h1 : ¬ b < 128)
    (h2 : ¬ (194 ≤ b ∧ b ≤ 223)) (h3 : ¬ (224 ≤ b ∧ b ≤ 239))
    (h4 : 240 ≤ b ∧ b ≤ 244) (hc : sndOk4 b c = true) (hd : isCont d = true)
    (hf : isCont f = false) :
    utf8Lossy (b :: c :: d :: f :: r) = replChar ++ utf8Lossy (f :: r) := by
  conv_lhs => rw [utf8Lossy.eq_def]
  show (if b < 128 then _ else if 194 ≤ b ∧ b ≤ 223 then _
    else if 224 ≤ b ∧ b ≤ 239 then _
    else if 240 ≤ b ∧ b ≤ 244 then
      (if sndOk4 b c = true then
        (if isCont d = true then
          (if isCont f = true then _ else replChar ++ utf8Lossy (f :: r))
          else _) else _) else _) = _
  rw [if_neg h1, if_neg h2, if_neg h3, if_pos h4, if_pos hc, if_pos hd,
    if_neg (by rw [hf]; exact Bool.false_ne_true)]

/-- Decoding step: a four-byte sequence failing at the third byte drops its two-byte prefix. -/
theorem u8_four_bad3 (b c d : Nat) (r : List Nat) (h1 : ¬ b < 128)
    (h2 : ¬ (194 ≤ b ∧ b ≤ 223)) (h3 : ¬ (224 ≤ b ∧ b ≤ 239))
    (h4 : 240 ≤ b ∧ b ≤ 244) (hc : sndOk4 b c = true) (hd : isCont d = false) :
    utf8Lossy (b :: c :: d :: r) = replChar ++ utf8Lossy (d :: r) := by
  conv_lhs => rw [utf8Lossy.eq_def]
  show (if b < 128 then _ else if 194 ≤ b ∧ b ≤ 223 then _
    else if 224 ≤ b ∧ b ≤ 239 then _
    else if 240 ≤ b ∧ b ≤ 244 then
      (if sndOk4 b c = true then
        (if isCont d = true then _ else replChar ++ utf8Lossy (d :: r))
        else _) else _) = _
  rw [if_neg h1, if_neg h2, if_neg h3, if_pos h4, if_pos hc,
    if_neg (by rw [hd]; exact Bool.false_ne_true)]

/-- Decoding step: a four-byte lead with a bad second byte is replaced alone. -/
theorem u8_four_bad2 (b c : Nat) (r : List Nat) (h1 : ¬ b < 128)
    (h2 : ¬ (194 ≤ b ∧ b ≤ 223)) (h3 : ¬ (224 ≤ b ∧ b ≤ 239))
    (h4 : 240 ≤ b ∧ b ≤ 244) (hc : sndOk4 b c = false) :
    utf8Lossy (b :: c :: r) = replChar ++ utf8Lossy (c :: r) := by
  conv_lhs => rw [utf8Lossy.eq_def]
  show (if b < 128 then _ else if 194 ≤ b ∧ b ≤ 223 then _
    else if 224 ≤ b ∧ b ≤ 239 then _
    else if 240 ≤ b ∧ b ≤ 244 then
      (if sndOk4 b c = true then _ else replChar ++ utf8Lossy (c :: r))
      else _) = _
  rw [if_neg h1, if_neg h2, if_neg h3, if_pos h4,
    if_neg (by rw [hc]; exact Bool.false_ne_true)]

/-- Decoding step: a byte that can lead no sequence is replaced. -/
theorem u8_bad1 (b : Nat) (r : List Nat) (h1 : ¬ b < 128)
    (h2 : ¬ (194 ≤ b ∧ b ≤ 223)) (h3 : ¬ (224 ≤ b ∧ b ≤ 239))
    (h4 : ¬ (240 ≤ b ∧ b ≤ 244)) :
    utf8Lossy (b :: r) = replChar ++ utf8Lossy r := by
  conv_lhs => rw [utf8Lossy.eq_def]
  show (if b < 128 then _ else if 194 ≤ b ∧ b ≤ 223 then _
    else if 224 ≤ b ∧ b ≤ 239 then _
    else if 240 ≤ b ∧ b ≤ 244 then _
    else replChar ++ utf8Lossy r) = _
  rw [if_neg h1, if_neg h2, if_neg h3, if_neg h4]

/-- LF is not a continuation byte. -/
theorem isCont_lf : isCont LF = false := by decide

/-- LF is never an admissible second byte of a three-byte sequence. -/
theorem sndOk3_lf (b : Nat) : sndOk3 b LF = false := by
  unfold sndOk3
  split_ifs <;> decide

/-- LF is never an admissible second byte of a four-byte sequence. -/
theorem sndOk4_lf (b : Nat) : sndOk4 b LF = false := by
  unfold sndOk4
  split_ifs <;> decide

/-- The lossy decoder distributes over any LF byte: no valid sequence and no maximal invalid subpart ever extends across an LF. -/
theorem utf8Lossy_append_lf (a : List Nat) :
    ∀ b2, utf8Lossy (a ++ LF :: b2) = utf8Lossy a ++ LF :: utf8Lossy b2 := by
  have hlf : (LF : Nat) < 128 := by decide
  induction a using utf8Lossy.induct <;> intro b2 <;>
    simp_all [List.cons_append, List.nil_append,
      u8_nil, u8_ascii, u8_end1, u8_two_ok, u8_two_bad, u8_three_end2,
      u8_three_ok, u8_three_bad3, u8_three_bad2, u8_four_end2, u8_four_end3,
      u8_four_ok, u8_four_bad4, u8_four_bad3, u8_four_bad2, u8_bad1,
      isCont_lf, sndOk3_lf, sndOk4_lf]

/-- The replacement bytes are non-empty. -/
theorem replChar_ne_nil : replChar ≠ [] := by decide

/-- The lossy decoder maps non-empty input to non-empty output. -/
theorem utf8Lossy_ne_nil (l : List Nat) (h : l ≠ []) : utf8Lossy l ≠ [] := by
  induction l using utf8Lossy.induct <;>
    simp_all [u8_nil, u8_ascii, u8_end1, u8_two_ok, u8_two_bad, u8_three_end2,
      u8_three_ok, u8_three_bad3, u8_three_bad2, u8_four_end2, u8_four_end3,
      u8_four_ok, u8_four_bad4, u8_four_bad3, u8_four_bad2, u8_bad1, replChar]

/-- The lossy decoder introduces no LF byte. -/
theorem utf8Lossy_lf_free (l : List Nat) (h : LF ∉ l) : LF ∉ utf8Lossy l := by
  induction l using utf8Lossy.induct <;>
    simp_all [u8_nil, u8_ascii, u8_end1, u8_two_ok, u8_two_bad, u8_three_end2,
      u8_three_ok, u8_three_bad3, u8_three_bad2, u8_four_end2, u8_four_end3,
      u8_four_ok, u8_four_bad4, u8_four_bad3, u8_four_bad2, u8_bad1,
      replChar, LF]

/-- Splitting at LF peels the LF-free prefix before the first LF. -/
theorem splitOnLF_append_lf (a : List Nat) :
    ∀ b, LF ∉ a → splitOnLF (a ++ LF :: b) = a :: splitOnLF b := by
  induction a with
  | nil =>
    intro b _
    show splitOnLF (10 :: b) = [] :: splitOnLF b
    rfl
  | cons x a ih =>
    intro b hx
    have hxne : ¬ x = 10 := fun hcon => hx (by rw [hcon]; exact List.mem_cons_self _ _)
    have hih := ih b (fun hmem => hx (List.mem_cons_of_mem _ hmem))
    simp [splitOnLF, hxne, hih]

/-- An LF-free byte string splits into a single chunk. -/
theorem splitOnLF_of_lf_free (a : List Nat) (ha : LF ∉ a) : splitOnLF a = [a] := by
  induction a with
  | nil => rfl
  | cons x a ih =>
    have hxne : ¬ x = 10 := fun hcon => ha (by rw [hcon]; exact List.mem_cons_self _ _)
    have hih := ih (fun hmem => ha (List.mem_cons_of_mem _ hmem))
    simp [splitOnLF, hxne, hih]

/-- Two decompositions at a first LF coincide. -/
theorem append_lf_inj (u : List Nat) :
    ∀ v x y, LF ∉ u → LF ∉ v → u ++ LF :: x = v ++ LF :: y → u = v ∧ x = y := by
  induction u with
  | nil =>
    intro v x y _ hv h
    cases v with
    | nil =>
      refine ⟨rfl, ?_⟩
      injection h
    | cons w v' =>
      exfalso
      have hw : w = LF := by
        have := congrArg (fun l => l.head?) h
        simp at this
        exact this.symm
      exact hv (by rw [hw]; exact List.mem_cons_self _ _)
  | cons z u' ih =>
    intro v x y hu hv h
    cases v with
    | nil =>
      exfalso
      have hz : z = LF := by
        have := congrArg (fun l => l.head?) h
        simp at this
        exact this
      exact hu (by rw [hz]; exact List.mem_cons_self _ _)
    | cons w v' =>
      have hzw : z = w ∧ u' ++ LF :: x = v' ++ LF :: y := by
        constructor
        · have := congrArg (fun l => l.head?) h
          simp at this
          exact this
        · have := congrArg (fun l => l.tail) h
          simp at this
          exact this
      obtain ⟨hzw1, hzw2⟩ := hzw
      obtain ⟨h1, h2⟩ := ih v' x y (fun hm => hu (List.mem_cons_of_mem _ hm))
        (fun hm => hv (List.mem_cons_of_mem _ hm)) hzw2
      exact ⟨by rw [hzw1, h1], h2⟩

/-- A byte string containing LF decomposes at its first LF. -/
theorem first_lf_decomp (l : List Nat) (h : LF ∈ l) :
    ∃ a rest, l = a ++ LF :: rest ∧ LF ∉ a := by
  induction l with
  | nil => simp at h
  | cons x l' ih =>
    by_cases hx : x = LF
    · exact ⟨[], l', by rw [hx]; rfl, by simp⟩
    · have hmem : LF ∈ l' := by
        cases h with
        | head => exact absurd rfl hx
        | tail _ hm => exact hm
      obtain ⟨a, rest, heq, hfree⟩ := ih hmem
      refine ⟨x :: a, rest, by rw [List.cons_append, heq], ?_⟩
      intro hc
      cases hc with
      | head => exact hx rfl
      | tail _ hm => exact hfree hm

/-- A byte string fixed by the lossy decoder has every LF-chunk fixed by it. -/
theorem utf8Lossy_fix_chunks (n : Nat) :
    ∀ l : List Nat, l.length ≤ n → utf8Lossy l = l →
      ∀ ch ∈ splitOnLF l, utf8Lossy ch = ch := by
  induction n with
  | zero =>
    intro l hl hfix ch hch
    have : l = [] := List.eq_nil_of_length_eq_zero (by omega)
    subst this
    have : ch = [] := by
      rw [show splitOnLF [] = [[]] from rfl] at hch
      simp at hch
      exact hch
    rw [this]
    rfl
  | succ n ih =>
    intro l hl hfix ch hch
    by_cases hlf : LF ∈ l
    · obtain ⟨a, rest, heq, hfree⟩ := first_lf_decomp l hlf
      subst heq
      rw [utf8Lossy_append_lf] at hfix
      have hufree : LF ∉ utf8Lossy a := utf8Lossy_lf_free a hfree
      obtain ⟨ha, hrest⟩ := append_lf_inj (utf8Lossy a) a (utf8Lossy rest) rest
        hufree hfree hfix
      rw [splitOnLF_append_lf a rest hfree] at hch
      cases hch with
      | head => exact ha
      | tail _ hm =>
        apply ih rest ?_ hrest ch hm
        rw [List.length_append, List.length_cons] at hl
        omega
    · rw [splitOnLF_of_lf_free l hlf] at hch
      have : ch = l := by
        cases hch with
        | head => rfl
        | tail _ hm => exact absurd hm (List.not_mem_nil ch)
      rw [this]
      exact hfix

/-- Every chunk produced by splitting at LF is LF-free. -/
theorem splitOnLF_chunk_lf_free : ∀ t : List Nat, ∀ ch ∈ splitOnLF t, LF ∉ ch := by
  intro t
  induction t with
  | nil =>
    intro ch hch
    have : ch = [] := by simpa [splitOnLF] using hch
    simp [this]
  | cons b rest ih =>
    intro ch hch
    by_cases hb : b = 10
    · subst hb
      rw [show splitOnLF (10 :: rest) = [] :: splitOnLF rest from rfl] at hch
      cases hch with
      | head => simp
      | tail _ hm => exact ih ch hm
    · cases hs : splitOnLF rest with
      | nil => exact absurd hs (splitOnLF_ne_nil rest)
      | cons s ss =>
        rw [show splitOnLF (b :: rest) = (b :: s) :: ss from by
          simp [splitOnLF, hb, hs]] at hch
        cases hch with
        | head =>
          intro hmem
          cases hmem with
          | head => exact hb (by rfl)
          | tail _ hm =>
            exact ih s (by rw [hs]; exact List.mem_cons_self _ _) hm
        | tail _ hm => exact ih ch (by rw [hs]; exact List.mem_cons_of_mem _ hm)

/-- Splitting the LF-join of LF-free lines recovers the lines plus a trailing empty chunk. -/
theorem splitOnLF_joinLF (W : List (List Nat)) (hW : ∀ l ∈ W, LF ∉ l) :
    splitOnLF (joinLF W) = W ++ [[]] := by
  induction W with
  | nil => rfl
  | cons w W' ih =>
    have hjw : joinLF (w :: W') = w ++ LF :: joinLF W' := by
      show ((w ++ [LF]) :: W'.map (fun l => l ++ [LF])).flatten = _
      rw [List.flatten_cons]
      simp [joinLF]
    rw [hjw, splitOnLF_append_lf w (joinLF W') (hW w (List.mem_cons_self _ _)),
      ih (fun l hl => hW l (List.mem_cons_of_mem _ hl))]
    rfl

/-- The split-then-pop round trip recovers LF-free lines from their LF-join. -/
theorem pop_split_joinLF (W : List (List Nat)) (hW : ∀ l ∈ W, LF ∉ l) :
    popTrailingEmpty (splitOnLF (joinLF W)) = W := by
  rw [splitOnLF_joinLF W hW]
  unfold popTrailingEmpty
  rw [if_pos (by simp), List.dropLast_concat]

/-- The lossy decoder distributes over an LF-join with a trailing残 part:
each line is decoded separately and every joining LF is preserved. -/
theorem utf8Lossy_joinLF_append (ls : List (List Nat)) :
    ∀ t, utf8Lossy (joinLF ls ++ t) = joinLF (ls.map utf8Lossy) ++ utf8Lossy t := by
  induction ls with
  | nil =>
    intro t
    rfl
  | cons w ls' ih =>
    intro t
    rw [joinLF_cons, show ((w ++ [LF]) ++ joinLF ls' ++ t) =
      w ++ LF :: (joinLF ls' ++ t) from by simp]
    rw [utf8Lossy_append_lf, ih t, List.map_cons, joinLF_cons]
    simp

/-- A byte string without LF does not end in LF. -/
theorem endsLF_false_of_lf_free (x : List Nat) (h : LF ∉ x) : endsLF x = false := by
  cases hg : x.getLast? with
  | none => simp [endsLF, hg]
  | some b =>
    have hb : b ∈ x := List.mem_of_getLast?_eq_some hg
    have : ¬ b = LF := fun hc => h (hc ▸ hb)
    simp [endsLF, hg, this]

/-- The last element of a longer list ignores a prepended head. -/
theorem getLastD_cons_ne (a : List Nat) (l : List (List Nat)) (d : List Nat)
    (h : l ≠ []) : (a :: l).getLastD d = l.getLastD d := by
  cases l with
  | nil => exact absurd rfl h
  | cons x l' => rfl

/-- For a CR-free byte string the terminator count is the LF count,
independently of the previous byte as long as it is not CR. -/
theorem crlfGo_count (l : List Nat) : ∀ p, CR ∉ l → ¬ p = CR →
    crlfGo p l = l.count LF := by
  induction l with
  | nil =>
    intro p _ _
    rfl
  | cons b rest ih =>
    intro p hcr hp
    have hbcr : ¬ b = CR := fun hc => hcr (by rw [hc]; exact List.mem_cons_self _ _)
    have hrest : CR ∉ rest := fun hm => hcr (List.mem_cons_of_mem _ hm)
    show (if b = CR ∨ (b = LF ∧ p ≠ CR) then 1 else 0) + crlfGo b rest = _
    rw [ih b hrest hbcr, List.count_cons]
    by_cases hb : b = LF
    · rw [if_pos (Or.inr ⟨hb, hp⟩), if_pos (by rw [hb]; exact beq_self_eq_true LF)]
      omega
    · rw [if_neg (by push_neg; exact ⟨hbcr, fun h => absurd h hb⟩),
        if_neg (by intro h; exact hb (eq_of_beq h))]
      omega

/-- The number of LF-chunks is one more than the number of LFs. -/
theorem splitOnLF_length : ∀ t : List Nat, (splitOnLF t).length = t.count LF + 1 := by
  intro t
  induction t with
  | nil => rfl
  | cons b rest ih =>
    by_cases hb : b = 10
    · subst hb
      rw [show splitOnLF (10 :: rest) = [] :: splitOnLF rest from rfl]
      rw [List.length_cons, ih, List.count_cons, if_pos (by exact beq_self_eq_true LF)]
    · cases hs : splitOnLF rest with
      | nil => exact absurd hs (splitOnLF_ne_nil rest)
      | cons s ss =>
        rw [show splitOnLF (b :: rest) = (b :: s) :: ss from by
          simp [splitOnLF, hb, hs]]
        rw [List.length_cons, List.count_cons,
          if_neg (by intro h; exact hb (eq_of_beq h))]
        rw [hs] at ih
        rw [List.length_cons] at ih
        omega

/-- Joining lines distributes over list concatenation. -/
theorem joinLF_append (x y : List (List Nat)) :
    joinLF (x ++ y) = joinLF x ++ joinLF y := by
  show ((x ++ y).map _).flatten = _
  rw [List.map_append, List.flatten_append]
  rfl

/-- The length of an LF-join: all line bytes plus one LF per line. -/
theorem joinLF_length (ls : List (List Nat)) :
    (joinLF ls).length = (ls.map List.length).sum + ls.length := by
  induction ls with
  | nil => rfl
  | cons w ls' ih =>
    rw [joinLF_cons]
    simp only [List.length_append, List.map_cons, List.sum_cons, List.length_cons, ih]
    simp
    omega

/-- The split of any byte string joins back: all chunks but the last are
LF-terminated, the last is the unterminated tail. -/
theorem split_join_parts : ∀ t : List Nat,
    joinLF ((splitOnLF t).dropLast) ++ (splitOnLF t).getLastD [] = t := by
  intro t
  induction t with
  | nil => rfl
  | cons b rest ih =>
    by_cases hb : b = 10
    · subst hb
      rw [show splitOnLF (10 :: rest) = [] :: splitOnLF rest from rfl,
        List.dropLast_cons_of_ne_nil (splitOnLF_ne_nil rest),
        getLastD_cons_ne _ _ _ (splitOnLF_ne_nil rest),
        joinLF_cons]
      simp only [List.nil_append, List.append_assoc]
      rw [ih]
      rfl
    · cases hs : splitOnLF rest with
      | nil => exact absurd hs (splitOnLF_ne_nil rest)
      | cons s ss =>
        rw [show splitOnLF (b :: rest) = (b :: s) :: ss from by
          simp [splitOnLF, hb, hs]]
        rw [hs] at ih
        cases ss with
        | nil =>
          have hsr : s = rest := ih
          show joinLF [] ++ (b :: s) = b :: rest
          rw [hsr]
          rfl
        | cons x ss' =>
          show joinLF ((b :: s) :: (x :: ss').dropLast) ++ (x :: ss').getLastD [] =
            b :: rest
          rw [List.dropLast_cons_of_ne_nil (List.cons_ne_nil x ss'),
            getLastD_cons_ne _ _ _ (List.cons_ne_nil x ss')] at ih
          rw [joinLF_cons] at ih ⊢
          simp only [List.cons_append, List.append_assoc] at ih ⊢
          rw [ih]

/-- Dropping the last element of a concatenation with a non-empty right
part. -/
theorem dropLast_append_ne (x : List (List Nat)) :
    ∀ y : List (List Nat), y ≠ [] → (x ++ y).dropLast = x ++ y.dropLast := by
  induction x with
  | nil =>
    intro y _
    rfl
  | cons a x' ih =>
    intro y hy
    rw [List.cons_append, List.dropLast_cons_of_ne_nil
      (fun hc => hy (List.append_eq_nil.mp hc).2), List.cons_append, ih y hy]

/-- The last element of a concatenation with a non-empty right part. -/
theorem getLastD_append_ne (x : List (List Nat)) :
    ∀ (y : List (List Nat)) (d : List Nat), y ≠ [] →
      (x ++ y).getLastD d = y.getLastD d := by
  induction x with
  | nil =>
    intro y d _
    rfl
  | cons a x' ih =>
    intro y d hy
    rw [List.cons_append, getLastD_cons_ne _ _ _
      (fun hc => hy (List.append_eq_nil.mp hc).2), ih y d hy]

/-- A terminator search in a byte string whose first terminator is a known LF
finds exactly that LF. -/
theorem findTerm_lf_at (m0 u v : List Nat) (heq : m0 = u ++ LF :: v)
    (hu : ∀ b ∈ u, b ≠ LF ∧ b ≠ CR) : findTerm m0 = some u.length := by
  cases hf : findTerm m0 with
  | none =>
    have hall := findTerm_none _ hf
    have hmem : (LF : Nat) ∈ m0 := by
      rw [heq]
      exact List.mem_append_right _ (List.mem_cons_self _ _)
    exact absurd rfl (hall LF hmem).1
  | some pos =>
    obtain ⟨hlt, hterm, hbefore⟩ := findTerm_some _ _ hf
    congr 1
    rcases Nat.lt_trichotomy pos u.length with h | h | h
    · exfalso
      obtain ⟨b, hb⟩ : ∃ b, u.get? pos = some b := by
        rw [List.get?_eq_getElem?, List.getElem?_eq_getElem h]
        exact ⟨_, rfl⟩
      have hbyte : m0.get? pos = some b := by
        rw [heq, List.get?_append h, hb]
      have hnt := hu b (List.get?_mem hb)
      cases hterm with
      | inl hl =>
        rw [hbyte] at hl
        exact hnt.1 (Option.some.inj hl)
      | inr hr =>
        rw [hbyte] at hr
        exact hnt.2 (Option.some.inj hr)
    · exact h
    · exfalso
      have hbyte : m0.get? u.length = some LF := by
        rw [heq, List.get?_append_right (le_refl u.length), Nat.sub_self]
        rfl
      exact (hbefore u.length LF h hbyte).1 rfl

/-- One walk step over a line whose terminator is a lone LF: the walk lands
right after that LF. -/
theorem walk_step_lf (m : List Nat) (o : Nat) (u v : List Nat)
    (hdrop : m.drop o = u ++ LF :: v) (hu : ∀ b ∈ u, b ≠ LF ∧ b ≠ CR) :
    walkSkip m o 1 = o + u.length + 1 := by
  have ho : o < m.length := by
    have hlen := congrArg List.length hdrop
    rw [List.length_drop, List.length_append, List.length_cons] at hlen
    omega
  have hfind : findTerm (m.drop o) = some u.length := findTerm_lf_at _ u v hdrop hu
  have hbyte : m.get? (o + u.length) = some LF := by
    rw [← get?_drop_my, hdrop, List.get?_append_right (le_refl u.length), Nat.sub_self]
    rfl
  show (if o < m.length then _ else o) = _
  rw [if_pos ho]
  show (match findTerm (m.drop o) with
    | some pos => _
    | none => m.length) = _
  rw [hfind]
  show walkSkip m (if m.get? (o + u.length) = some CR ∧ o + u.length + 1 < m.length ∧
      m.get? (o + u.length + 1) = some LF
    then o + u.length + 1 + 1 else o + u.length + 1) 0 = o + u.length + 1
  rw [if_neg (by
    intro hcon
    rw [hbyte] at hcon
    exact absurd hcon.1 (by decide))]
  rfl

/-- The walk through a CR-free byte string follows the LF-chunks: after `a`
steps it sits right after chunk `a - 1`, and the remaining bytes are the
remaining chunks joined back. -/
theorem walk_split (m : List Nat) (hcr : CR ∉ m) :
    ∀ a, a ≤ m.count LF →
      walkSkip m 0 a = (joinLF ((splitOnLF m).take a)).length ∧
      m.drop (walkSkip m 0 a) =
        joinLF (((splitOnLF m).drop a).dropLast) ++
          ((splitOnLF m).drop a).getLastD [] := by
  intro a
  induction a with
  | zero =>
    intro _
    constructor
    · rfl
    · show m.drop 0 = joinLF (((splitOnLF m).drop 0).dropLast) ++
        ((splitOnLF m).drop 0).getLastD []
      rw [List.drop_zero, List.drop_zero]
      exact (split_join_parts m).symm
  | succ a ih =>
    intro ha1
    obtain ⟨ihw, ihd⟩ := ih (by omega)
    have hdl : ((splitOnLF m).drop a).length = m.count LF + 1 - a := by
      rw [List.length_drop, splitOnLF_length]
    cases hd : (splitOnLF m).drop a with
    | nil =>
      exfalso
      rw [hd] at hdl
      simp at hdl
      omega
    | cons ch rest' =>
      have hrne : rest' ≠ [] := by
        intro hcon
        rw [hd, hcon] at hdl
        simp at hdl
        omega
      have hchm : ch ∈ splitOnLF m :=
        List.drop_subset a _ (by rw [hd]; exact List.mem_cons_self _ _)
      have hchlf : LF ∉ ch := splitOnLF_chunk_lf_free m ch hchm
      rw [hd, List.dropLast_cons_of_ne_nil hrne, getLastD_cons_ne _ _ _ hrne,
        joinLF_cons, List.append_assoc, List.append_assoc] at ihd
      have hdrop2 : m.drop (walkSkip m 0 a) =
          ch ++ ([LF] ++ (joinLF rest'.dropLast ++ rest'.getLastD [])) := ihd
      have hdrop2c : m.drop (walkSkip m 0 a) =
          ch ++ LF :: (joinLF rest'.dropLast ++ rest'.getLastD []) := by
        rw [ihd]
        rfl
      have hu : ∀ b ∈ ch, b ≠ LF ∧ b ≠ CR := by
        intro b hb
        refine ⟨fun hc => hchlf (hc ▸ hb), fun hc => hcr ?_⟩
        have hbm : b ∈ m.drop (walkSkip m 0 a) := by
          rw [ihd]
          exact List.mem_append_left _ hb
        exact hc ▸ List.drop_subset _ _ hbm
      have hstep : walkSkip m 0 (a + 1) = walkSkip m 0 a + ch.length + 1 := by
        rw [show a + 1 = a + 1 from rfl, walkSkip_add m a 0 1]
        exact walk_step_lf m (walkSkip m 0 a) ch _ hdrop2c hu
      have hget : (splitOnLF m).get? a = some ch := by
        rw [List.get?_eq_getElem?, ← Nat.add_zero a, ← List.getElem?_drop,
          ← List.get?_eq_getElem?, hd]
        rfl
      have htake : (splitOnLF m).take (a + 1) = (splitOnLF m).take a ++ [ch] := by
        rw [List.take_succ]
        rw [show (splitOnLF m)[a]? = some ch from by
          rw [← List.get?_eq_getElem?]
          exact hget]
        rfl
      constructor
      · rw [hstep, htake, joinLF_append, List.length_append, ihw,
          show (joinLF [ch]).length = ch.length + 1 from by simp [joinLF]]
        omega
      · rw [hstep]
        have hdd : m.drop (walkSkip m 0 a + ch.length + 1) =
            (m.drop (walkSkip m 0 a)).drop (ch.length + 1) := by
          rw [List.drop_drop]
          try rfl
          try (congr 1; omega)
        rw [hdd, hdrop2]
        rw [show ch ++ ([LF] ++ (joinLF rest'.dropLast ++ rest'.getLastD [])) =
          (ch ++ [LF]) ++ (joinLF rest'.dropLast ++ rest'.getLastD []) from by simp]
        rw [show ch.length + 1 = (ch ++ [LF]).length from by simp]
        rw [List.drop_left]
        rw [show (splitOnLF m).drop (a + 1) = rest' from by
          have hdd2 : (splitOnLF m).drop (a + 1) = ((splitOnLF m).drop a).drop 1 := by
            rw [List.drop_drop]
            try rfl
            try (congr 1; omega)
          rw [hdd2, hd]
          rfl]

/-- The byte span of a CR-free original between the walk positions of two
line indices below the LF count is the LF-join of the chunks in between. -/
theorem slice_walk_take (m : List Nat) (hcr : CR ∉ m) (s b' : Nat)
    (hsb : s ≤ b') (hb : b' ≤ m.count LF) :
    sliceBytes m (walkSkip m 0 s) (walkSkip m 0 b') =
      joinLF (((splitOnLF m).drop s).take (b' - s)) := by
  obtain ⟨hws, hds⟩ := walk_split m hcr s (by omega)
  obtain ⟨hwb, _⟩ := walk_split m hcr b' hb
  have htakeadd : (splitOnLF m).take b' = (splitOnLF m).take s ++
      ((splitOnLF m).drop s).take (b' - s) := by
    rw [show b' = s + (b' - s) from by omega, List.take_add]
    rw [show s + (b' - s) - s = b' - s from by omega]
  have hwd : walkSkip m 0 b' = walkSkip m 0 s +
      (joinLF (((splitOnLF m).drop s).take (b' - s))).length := by
    rw [hws, hwb, htakeadd, joinLF_append, List.length_append]
  have hdllen : ((splitOnLF m).drop s).dropLast.length = m.count LF - s := by
    rw [List.length_dropLast, List.length_drop, splitOnLF_length]
    omega
  have hWdl : ((splitOnLF m).drop s).dropLast.take (b' - s) =
      ((splitOnLF m).drop s).take (b' - s) := by
    rw [List.dropLast_eq_take, List.take_take, List.length_drop, splitOnLF_length]
    rw [Nat.min_eq_left (by omega)]
  show (m.take (walkSkip m 0 b')).drop (walkSkip m 0 s) = _
  rw [List.drop_take]
  have harith : walkSkip m 0 b' - walkSkip m 0 s =
      (joinLF (((splitOnLF m).drop s).take (b' - s))).length := by
    omega
  rw [harith, hds]
  rw [show joinLF (((splitOnLF m).drop s).dropLast) =
      joinLF (((splitOnLF m).drop s).take (b' - s)) ++
        joinLF (((splitOnLF m).drop s).dropLast.drop (b' - s)) from by
    rw [← joinLF_append]
    congr 1
    rw [← hWdl, List.take_append_drop]]
  rw [List.append_assoc]
  exact List.take_left _ _

/-- The byte span of a CR-free original from the walk position of a line to
the end of the file: the remaining chunks, the last one unterminated. -/
theorem slice_walk_end (m : List Nat) (hcr : CR ∉ m) (s : Nat)
    (hs : s ≤ m.count LF) :
    sliceBytes m (walkSkip m 0 s) m.length =
      joinLF (((splitOnLF m).drop s).dropLast) ++
        ((splitOnLF m).drop s).getLastD [] := by
  obtain ⟨_, hds⟩ := walk_split m hcr s hs
  show (m.take m.length).drop (walkSkip m 0 s) = _
  rw [List.take_length]
  exact hds

/-- The LF-join of a non-empty line list ends in LF. -/
theorem joinLF_getLast (ls : List (List Nat)) (h : ls ≠ []) :
    (joinLF ls).getLast? = some LF := by
  induction ls with
  | nil => exact absurd rfl h
  | cons w ls' ih =>
    rw [joinLF_cons, List.append_assoc, List.getLast?_append, List.getLast?_append]
    cases hl : ls' with
    | nil => rfl
    | cons x xs =>
      rw [← hl, ih (by rw [hl]; exact List.cons_ne_nil _ _)]
      rfl

/-- For a non-empty CR-free file the constructed line count is the LF count,
plus one when the file does not end in LF. -/
theorem otl_count (m : List Nat) (hne : m ≠ []) (hcr : CR ∉ m) :
    ((LogEngine.new m).original_total_lines = m.count LF + 1 ∧
      m.getLast? ≠ some LF) ∨
    ((LogEngine.new m).original_total_lines = m.count LF ∧
      m.getLast? = some LF ∧ 1 ≤ m.count LF) := by
  have hcnt : crlfGo 0 m = m.count LF := crlfGo_count m 0 hcr (by decide)
  rcases new_otl_cases m hne with ⟨h1, h2, _⟩ | ⟨h1, h2, h3⟩
  · exact Or.inl ⟨by rw [h1, hcnt], h2⟩
  · refine Or.inr ⟨by rw [h1, hcnt], ?_, by rw [← hcnt]; exact h3⟩
    cases h2 with
    | inl h => exact h
    | inr h =>
      exfalso
      exact hcr (List.mem_of_getLast?_eq_some h)

/-- For a non-empty CR-free file the popped chunk list has exactly
`original_total_lines` entries. -/
theorem olinesOf_length (m : List Nat) (hne : m ≠ []) (hcr : CR ∉ m) :
    (olinesOf m).length = (LogEngine.new m).original_total_lines := by
  rcases otl_count m hne hcr with ⟨h1, h2⟩ | ⟨h1, h2, h3⟩
  · rw [h1]
    show (popTrailingEmpty (splitOnLF m)).length = _
    unfold popTrailingEmpty
    rw [if_neg ?hlast, splitOnLF_length]
    case hlast =>
      intro hcon
      have hlastD : (splitOnLF m).getLastD [] = [] := by
        rw [List.getLastD_eq_getLast?, hcon]
        rfl
      have hjp := split_join_parts m
      rw [hlastD, List.append_nil] at hjp
      have hdlne : (splitOnLF m).dropLast ≠ [] := by
        intro hdl
        rw [hdl] at hjp
        exact hne (hjp.symm)
      have := joinLF_getLast _ hdlne
      rw [hjp] at this
      exact h2 this
  · rw [h1]
    show (popTrailingEmpty (splitOnLF m)).length = _
    unfold popTrailingEmpty
    rw [if_pos (splitOnLF_last m h2), List.length_dropLast, splitOnLF_length]
    omega

/-- Below the LF count, windows of the popped chunk list coincide with
windows of the raw chunk list. -/
theorem olines_window (m : List Nat) (s c : Nat) (hc : s + c ≤ m.count LF) :
    ((olinesOf m).drop s).take c = (((splitOnLF m)).drop s).take c := by
  show ((popTrailingEmpty (splitOnLF m)).drop s).take c = _
  unfold popTrailingEmpty
  split
  · rw [List.dropLast_eq_take, List.drop_take, List.take_take, splitOnLF_length]
    rw [Nat.min_eq_left (by omega)]
  · rfl

/-- For a non-empty file not ending in LF, the last LF-chunk is non-empty. -/
theorem split_getLast_ne_empty (m : List Nat) (hne : m ≠ [])
    (hlast : m.getLast? ≠ some LF) : (splitOnLF m).getLast? ≠ some [] := by
  intro hcon
  have hlastD : (splitOnLF m).getLastD [] = [] := by
    rw [List.getLastD_eq_getLast?, hcon]
    rfl
  have hjp := split_join_parts m
  rw [hlastD, List.append_nil] at hjp
  have hdlne : (splitOnLF m).dropLast ≠ [] := by
    intro hdl
    rw [hdl] at hjp
    exact hne hjp.symm
  have := joinLF_getLast _ hdlne
  rw [hjp] at this
  exact hlast this

/-- For a file not ending in LF the popped chunk list is the raw chunk
list. -/
theorem olinesOf_unterm (m : List Nat) (hne : m ≠ [])
    (hlast : m.getLast? ≠ some LF) : olinesOf m = splitOnLF m := by
  show popTrailingEmpty _ = _
  unfold popTrailingEmpty
  rw [if_neg (split_getLast_ne_empty m hne hlast)]

/-- Reading a window of a list through indexed lookups is the drop-take
window (lines version). -/
theorem range_map_getD (ls : List (List Nat)) (s c : Nat) (hsc : s + c ≤ ls.length) :
    (List.range c).map (fun j => (ls.get? (s + j)).getD []) = (ls.drop s).take c := by
  apply List.ext_getElem?
  intro i
  by_cases hi : i < c
  · rw [List.getElem?_map,
      show (List.range c)[i]? = some i from by rw [List.getElem?_range hi],
      List.getElem?_take_of_lt hi, List.getElem?_drop]
    show some ((ls.get? (s + i)).getD []) = ls[s + i]?
    obtain ⟨el, hel⟩ : ∃ el, ls.get? (s + i) = some el := by
      rw [List.get?_eq_getElem?, List.getElem?_eq_getElem (by omega)]
      exact ⟨_, rfl⟩
    rw [hel]
    rw [List.get?_eq_getElem?] at hel
    rw [hel]
    rfl
  · have h1 : ((List.range c).map (fun j => (ls.get? (s + j)).getD [])).length ≤ i := by
      rw [List.length_map, List.length_range]
      omega
    have h2 : ((ls.drop s).take c).length ≤ i := by
      rw [List.length_take]
      have := Nat.min_le_left c (ls.drop s).length
      omega
    rw [List.getElem?_eq_none h1, List.getElem?_eq_none h2]

/-- Under the invariant, line resolution only reads the pinned fields, so it
agrees with the fresh engine on the same mapping. -/
theorem line_off_inv (e : LogEngine) (hinv : EngInv e) (L : Nat) :
    e.line_to_byte_offset L = (LogEngine.new e.mmap).line_to_byte_offset L := by
  unfold LogEngine.line_to_byte_offset
  rw [hinv.hch, hinv.hotl, new_chunks_single e.mmap hinv.hne hinv.hlen,
    show (LogEngine.new e.mmap).mmap = e.mmap from rfl]

/-- Under the invariant, lines at or below the original count resolve to
their walk positions. -/
theorem line_off_walk (e : LogEngine) (hinv : EngInv e) (x : Nat)
    (hx : x ≤ e.original_total_lines) :
    e.line_to_byte_offset x = walkSkip e.mmap 0 x := by
  rw [line_off_inv e hinv, line_off_single e.mmap hinv.hne hinv.hlen]
  by_cases hlt : (LogEngine.new e.mmap).original_total_lines ≤ x
  · rw [if_pos hlt]
    have hxeq : x = (LogEngine.new e.mmap).original_total_lines := by
      rw [hinv.hotl] at hx
      omega
    rw [hxeq, walk_otl_len e.mmap hinv.hne]
  · rw [if_neg hlt]

/-- The LF-terminated byte span of an in-range line window of a CR-free
original, as a join of its raw lines. -/
theorem withLF_slice_lines (m : List Nat) (hne : m ≠ []) (hcr : CR ∉ m) (s c : Nat)
    (hc1 : 1 ≤ c) (hsc : s + c ≤ (LogEngine.new m).original_total_lines) :
    withLF (sliceBytes m (walkSkip m 0 s) (walkSkip m 0 (s + c))) =
      joinLF (((olinesOf m).drop s).take c) := by
  rcases Nat.lt_or_ge (m.count LF) (s + c) with hcase | hcase
  · -- the window reaches the unterminated tail line
    have hunterm : (LogEngine.new m).original_total_lines = m.count LF + 1 ∧
        m.getLast? ≠ some LF := by
      rcases otl_count m hne hcr with h | ⟨h1, _, _⟩
      · exact h
      · rw [h1] at hsc
        omega
    have hsceq : s + c = m.count LF + 1 := by omega
    have hs : s ≤ m.count LF := by omega
    have hwend : walkSkip m 0 (s + c) = m.length := by
      rw [hsceq, ← hunterm.1]
      exact walk_otl_len m hne
    rw [hwend, slice_walk_end m hcr s hs, olinesOf_unterm m hne hunterm.2]
    set D := (splitOnLF m).drop s with hD
    have hDlen : D.length = c := by
      rw [hD, List.length_drop, splitOnLF_length]
      omega
    have hDne : D ≠ [] := by
      intro hcon
      rw [hcon] at hDlen
      simp at hDlen
      omega
    have htakeD : D.take c = D := List.take_of_length_le (by omega)
    rw [htakeD]
    have hlastm : D.getLastD [] ∈ splitOnLF m := by
      have h1 : D.getLastD [] ∈ D := by
        rw [List.getLastD_eq_getLast?, List.getLast?_eq_getLast D hDne]
        exact List.getLast_mem hDne
      exact List.drop_subset s _ h1
    have hlastlf : LF ∉ D.getLastD [] := splitOnLF_chunk_lf_free m _ hlastm
    have hlastne : D.getLastD [] ≠ [] := by
      intro hcon
      apply split_getLast_ne_empty m hne hunterm.2
      rw [hD] at hcon
      rw [List.getLastD_eq_getLast?] at hcon
      cases hgl : ((splitOnLF m).drop s).getLast? with
      | none =>
        rw [List.getLast?_eq_getLast _ (hD ▸ hDne)] at hgl
        exact Option.noConfusion hgl
      | some z =>
        rw [hgl] at hcon
        have hz : z = [] := hcon
        have hglm : (splitOnLF m).getLast? = some z := by
          have hsplit : splitOnLF m = (splitOnLF m).take s ++ (splitOnLF m).drop s :=
            (List.take_append_drop s _).symm
          rw [hsplit, List.getLast?_append, hgl]
          rfl
        rw [hz] at hglm
        exact hglm
    have hD2 : D = D.dropLast ++ [D.getLastD []] := by
      rw [List.getLastD_eq_getLast?, List.getLast?_eq_getLast D hDne]
      exact (List.dropLast_append_getLast hDne).symm
    have hjoin : joinLF D = joinLF D.dropLast ++ (D.getLastD [] ++ [LF]) := by
      conv_lhs => rw [hD2]
      rw [joinLF_append]
      rw [show joinLF [D.getLastD []] = D.getLastD [] ++ [LF] ++ joinLF [] from
        joinLF_cons _ _]
      rw [show joinLF ([] : List (List Nat)) = [] from rfl]
      simp
    unfold withLF
    rw [if_pos ?hcond]
    case hcond =>
      constructor
      · rw [endsLF_append _ _ hlastne]
        rw [endsLF_false_of_lf_free _ hlastlf]
        simp
      · intro hcon
        exact hlastne (List.append_eq_nil.mp hcon).2
    rw [hjoin, List.append_assoc]
  · -- the window is fully LF-terminated
    have hs : s ≤ m.count LF := by omega
    rw [slice_walk_take m hcr s (s + c) (by omega) hcase,
      show s + c - s = c from by omega, ← olines_window m s c hcase]
    have hlen : (((olinesOf m).drop s).take c).length = c := by
      rw [List.length_take, List.length_drop]
      rw [show (olinesOf m).length = (popTrailingEmpty (splitOnLF m)).length from rfl]
      have hpople : (splitOnLF m).length - 1 ≤ (popTrailingEmpty (splitOnLF m)).length := by
        unfold popTrailingEmpty
        split
        · rw [List.length_dropLast]
        · omega
      rw [splitOnLF_length] at hpople
      omega
    have hne2 : ((olinesOf m).drop s).take c ≠ [] := by
      intro hcon
      rw [hcon] at hlen
      simp at hlen
      omega
    exact withLF_of_endsLF _ (by rw [endsLF_iff]; exact joinLF_getLast _ hne2)

/-- The decoder applied to an LF-join of lines alone. -/
theorem utf8Lossy_joinLF (ls : List (List Nat)) :
    utf8Lossy (joinLF ls) = joinLF (ls.map utf8Lossy) := by
  rw [← List.append_nil (joinLF ls), utf8Lossy_joinLF_append,
    show utf8Lossy [] = [] from rfl, List.append_nil]

/-- The LF-terminated decoded byte span of an in-range line window of a
CR-free original, as a join of its decoded lines. -/
theorem withLF_dec_slice_lines (m : List Nat) (hne : m ≠ []) (hcr : CR ∉ m)
    (s c : Nat) (hc1 : 1 ≤ c) (hsc : s + c ≤ (LogEngine.new m).original_total_lines) :
    withLF (utf8Lossy (sliceBytes m (walkSkip m 0 s) (walkSkip m 0 (s + c)))) =
      joinLF ((((olinesOf m).drop s).take c).map utf8Lossy) := by
  rcases Nat.lt_or_ge (m.count LF) (s + c) with hcase | hcase
  · have hunterm : (LogEngine.new m).original_total_lines = m.count LF + 1 ∧
        m.getLast? ≠ some LF := by
      rcases otl_count m hne hcr with h | ⟨h1, _, _⟩
      · exact h
      · rw [h1] at hsc
        omega
    have hsceq : s + c = m.count LF + 1 := by omega
    have hs : s ≤ m.count LF := by omega
    have hwend : walkSkip m 0 (s + c) = m.length := by
      rw [hsceq, ← hunterm.1]
      exact walk_otl_len m hne
    rw [hwend, slice_walk_end m hcr s hs, olinesOf_unterm m hne hunterm.2]
    set D := (splitOnLF m).drop s with hD
    have hDlen : D.length = c := by
      rw [hD, List.length_drop, splitOnLF_length]
      omega
    have hDne : D ≠ [] := by
      intro hcon
      rw [hcon] at hDlen
      simp at hDlen
      omega
    have htakeD : D.take c = D := List.take_of_length_le (by omega)
    rw [htakeD]
    have hlastm : D.getLastD [] ∈ splitOnLF m := by
      have h1 : D.getLastD [] ∈ D := by
        rw [List.getLastD_eq_getLast?, List.getLast?_eq_getLast D hDne]
        exact List.getLast_mem hDne
      exact List.drop_subset s _ h1
    have hlastlf : LF ∉ D.getLastD [] := splitOnLF_chunk_lf_free m _ hlastm
    have hlastne : D.getLastD [] ≠ [] := by
      intro hcon
      apply split_getLast_ne_empty m hne hunterm.2
      rw [hD] at hcon
      rw [List.getLastD_eq_getLast?] at hcon
      cases hgl : ((splitOnLF m).drop s).getLast? with
      | none =>
        rw [List.getLast?_eq_getLast _ (hD ▸ hDne)] at hgl
        exact Option.noConfusion hgl
      | some z =>
        rw [hgl] at hcon
        have hz : z = [] := hcon
        have hglm : (splitOnLF m).getLast? = some z := by
          have hsplit : splitOnLF m = (splitOnLF m).take s ++ (splitOnLF m).drop s :=
            (List.take_append_drop s _).symm
          rw [hsplit, List.getLast?_append, hgl]
          rfl
        rw [hz] at hglm
        exact hglm
    have hD2 : D = D.dropLast ++ [D.getLastD []] := by
      rw [List.getLastD_eq_getLast?, List.getLast?_eq_getLast D hDne]
      exact (List.dropLast_append_getLast hDne).symm
    rw [utf8Lossy_joinLF_append]
    have hune : utf8Lossy (D.getLastD []) ≠ [] := utf8Lossy_ne_nil _ hlastne
    have hulf : LF ∉ utf8Lossy (D.getLastD []) := utf8Lossy_lf_free _ hlastlf
    unfold withLF
    rw [if_pos ?hcond]
    case hcond =>
      constructor
      · rw [endsLF_append _ _ hune, endsLF_false_of_lf_free _ hulf]
        simp
      · intro hcon
        exact hune (List.append_eq_nil.mp hcon).2
    conv_rhs => rw [hD2]
    rw [List.map_append, joinLF_append,
      show (List.map utf8Lossy [D.getLastD []]) = [utf8Lossy (D.getLastD [])] from rfl,
      show joinLF [utf8Lossy (D.getLastD [])] =
        utf8Lossy (D.getLastD []) ++ [LF] ++ joinLF [] from joinLF_cons _ _,
      show joinLF ([] : List (List Nat)) = [] from rfl]
    simp
  · have hs : s ≤ m.count LF := by omega
    rw [slice_walk_take m hcr s (s + c) (by omega) hcase,
      show s + c - s = c from by omega, ← olines_window m s c hcase]
    rw [utf8Lossy_joinLF]
    have hlen : (((olinesOf m).drop s).take c).length = c := by
      rw [List.length_take, List.length_drop]
      rw [show (olinesOf m).length = (popTrailingEmpty (splitOnLF m)).length from rfl]
      have hpople : (splitOnLF m).length - 1 ≤ (popTrailingEmpty (splitOnLF m)).length := by
        unfold popTrailingEmpty
        split
        · rw [List.length_dropLast]
        · omega
      rw [splitOnLF_length] at hpople
      omega
    have hne2 : ((((olinesOf m).drop s).take c).map utf8Lossy) ≠ [] := by
      intro hcon
      have := congrArg List.length hcon
      rw [List.length_map, hlen] at this
      simp at this
      omega
    exact withLF_of_endsLF _ (by rw [endsLF_iff]; exact joinLF_getLast _ hne2)

/-- The rendered document of a cons piece list. -/
theorem docBy_cons (g mem : Nat → List Nat) (p : Piece) (ps : List Piece) :
    docBy g mem (p :: ps) = pieceLinesBy g mem p ++ docBy g mem ps := by
  show ((p :: ps).map _).flatten = _
  rw [List.map_cons, List.flatten_cons]
  rfl

/-- The rendered document of a concatenation. -/
theorem docBy_append (g mem : Nat → List Nat) (x y : List Piece) :
    docBy g mem (x ++ y) = docBy g mem x ++ docBy g mem y := by
  show ((x ++ y).map _).flatten = _
  rw [List.map_append, List.flatten_append]
  rfl

/-- The rendered document has one entry per counted line. -/
theorem docBy_length (g mem : Nat → List Nat) (ps : List Piece) :
    (docBy g mem ps).length = sumCounts ps := by
  induction ps with
  | nil => rfl
  | cons p rest ih =>
    rw [docBy_cons, List.length_append, ih]
    show (pieceLinesBy g mem p).length + _ = sumCounts (p :: rest)
    have hp : (pieceLinesBy g mem p).length = p.lineCount := by
      cases p with
      | Original s c => show ((List.range c).map _).length = c; simp
      | Memory s c => show ((List.range c).map _).length = c; simp
    rw [hp]
    show _ = ((p :: rest).map Piece.lineCount).sum
    rw [List.map_cons, List.sum_cons]
    rfl

/-- Under the invariant every piece streams to `save` exactly its rendered
raw lines, each LF-terminated. -/
theorem savePieceOut_lines (e : LogEngine) (hinv : EngInv e) (hcr : CR ∉ e.mmap)
    (p : Piece) (hp : p ∈ e.pieces) :
    savePieceOut e p = joinLF (pieceLinesBy (origLine e.mmap) (memLine e) p) := by
  cases p with
  | Memory s c =>
    show ((List.range c).map
      (fun i => (e.memory_buffer.get? (s + i)).getD [] ++ [LF])).flatten =
      joinLF ((List.range c).map (fun j => memLine e (s + j)))
    rw [joinLF, List.map_map]
    rfl
  | Original s c =>
    have hbound := hinv.horig s c hp
    have hc1 : 1 ≤ c := hinv.hcount _ hp
    show withLF (e.get_original_bytes s c) =
      joinLF ((List.range c).map (fun j => origLine e.mmap (s + j)))
    rw [show e.get_original_bytes s c = sliceBytes e.mmap
        (e.line_to_byte_offset s) (e.line_to_byte_offset (s + c)) from by
      unfold LogEngine.get_original_bytes
      rw [if_neg (by omega)]]
    rw [line_off_walk e hinv s (by omega), line_off_walk e hinv (s + c) (by omega)]
    rw [withLF_slice_lines e.mmap hinv.hne hcr s c hc1 (by rw [← hinv.hotl]; omega)]
    congr 1
    rw [show (List.range c).map (fun j => origLine e.mmap (s + j)) =
        (List.range c).map (fun j => ((olinesOf e.mmap).get? (s + j)).getD []) from rfl]
    rw [range_map_getD (olinesOf e.mmap) s c
      (by rw [olinesOf_length e.mmap hinv.hne hcr, ← hinv.hotl]; omega)]

/-- Under the invariant `save` writes exactly the raw document, each line
LF-terminated. -/
theorem save_lines (e : LogEngine) (hinv : EngInv e) (hcr : CR ∉ e.mmap) :
    e.save = joinLF (docRaw e) := by
  show saveGo e e.pieces = _
  have H : ∀ ps : List Piece, (∀ p ∈ ps, p ∈ e.pieces) →
      saveGo e ps = joinLF (docBy (origLine e.mmap) (memLine e) ps) := by
    intro ps
    induction ps with
    | nil =>
      intro _
      rfl
    | cons p rest ih =>
      intro hsub
      show savePieceOut e p ++ saveGo e rest = _
      rw [savePieceOut_lines e hinv hcr p (hsub p (List.mem_cons_self _ _)),
        ih (fun q hq => hsub q (List.mem_cons_of_mem _ hq)),
        docBy_cons, joinLF_append]
  exact H e.pieces (fun p hp => hp)

/-- Each piece renders to exactly its line count of lines. -/
theorem pieceLinesBy_length (g mem : Nat → List Nat) (p : Piece) :
    (pieceLinesBy g mem p).length = p.lineCount := by
  cases p with
  | Original s c =>
    show ((List.range c).map _).length = c
    simp
  | Memory s c =>
    show ((List.range c).map _).length = c
    simp

/-- A window of the decoded lines of an original piece is the decoded window
of the popped chunk list. -/
theorem pieceWindow_orig (m : List Nat) (hne : m ≠ []) (hcr : CR ∉ m)
    (s c off t : Nat) (hoffc : off ≤ c) (ht : t ≤ c - off)
    (hsc : s + c ≤ (LogEngine.new m).original_total_lines) :
    (((List.range c).map (fun j => utf8Lossy (origLine m (s + j)))).drop off).take t =
      (((olinesOf m).drop (s + off)).take t).map utf8Lossy := by
  have hlen : s + c ≤ (olinesOf m).length := by
    rw [olinesOf_length m hne hcr]
    omega
  rw [show (List.range c).map (fun j => utf8Lossy (origLine m (s + j))) =
      ((List.range c).map (fun j => origLine m (s + j))).map utf8Lossy from by
    rw [List.map_map]
    rfl]
  rw [show (List.range c).map (fun j => origLine m (s + j)) =
      ((olinesOf m).drop s).take c from range_map_getD (olinesOf m) s c hlen]
  rw [← List.map_drop, ← List.map_take]
  congr 1
  rw [List.drop_take]
  have hdd : ((olinesOf m).drop s).drop off = (olinesOf m).drop (s + off) := by
    rw [List.drop_drop]
    try rfl
    try (congr 1; omega)
  rw [hdd, List.take_take, Nat.min_eq_left ht]

/-- A window of the lines of a memory piece is the corresponding window of
indexed buffer lookups. -/
theorem pieceWindow_mem (buf : List (List Nat)) (s c off t : Nat)
    (hoffc : off ≤ c) (ht : t ≤ c - off) (hsc : s + c ≤ buf.length) :
    (((List.range c).map (fun j => (buf.get? (s + j)).getD [])).drop off).take t =
      (List.range t).map (fun i => (buf.get? (s + off + i)).getD []) := by
  rw [range_map_getD buf s c hsc, range_map_getD buf (s + off) t (by omega)]
  rw [List.drop_take]
  have hdd : (buf.drop s).drop off = buf.drop (s + off) := by
    rw [List.drop_drop]
    try rfl
    try (congr 1; omega)
  rw [hdd, List.take_take, Nat.min_eq_left ht]

/-- A join of a non-empty line list is non-empty. -/
theorem joinLF_ne_nil (ls : List (List Nat)) (h : ls ≠ []) : joinLF ls ≠ [] := by
  intro hcon
  have := joinLF_getLast ls h
  rw [hcon] at this
  exact Option.noConfusion this

/-- Under the invariant, the block loop appends to its accumulator exactly
the requested window of the decoded document of the remaining pieces. -/
theorem getBlockGo_lines (e : LogEngine) (hinv : EngInv e) (hcr : CR ∉ e.mmap) :
    ∀ (ps : List Piece) (r off : Nat) (acc : List Nat),
      (∀ p ∈ ps, p ∈ e.pieces) →
      (ps = [] ∨ off < (ps.headD (Piece.Original 0 0)).lineCount) →
      (acc = [] ∨ endsLF acc = true) →
      getBlockGo e ps off r acc =
        acc ++ joinLF (((docBy (fun j => utf8Lossy (origLine e.mmap j))
          (memLine e) ps).drop off).take r) := by
  intro ps
  induction ps with
  | nil =>
    intro r off acc _ _ _
    show acc = acc ++ joinLF (((docBy (fun j => utf8Lossy (origLine e.mmap j))
      (memLine e) []).drop off).take r)
    rw [show docBy (fun j => utf8Lossy (origLine e.mmap j)) (memLine e) [] =
      ([] : List (List Nat)) from rfl]
    rw [List.drop_nil, List.take_nil,
      show joinLF ([] : List (List Nat)) = [] from rfl, List.append_nil]
  | cons p rest ih =>
    intro r off acc hsub hoff hacc
    by_cases hr : r = 0
    · show (if r = 0 then acc else _) = _
      rw [if_pos hr, hr, List.take_zero,
        show joinLF ([] : List (List Nat)) = [] from rfl, List.append_nil]
    · have hpmem := hsub _ (List.mem_cons_self _ _)
      have hline : 1 ≤ p.lineCount := hinv.hcount _ hpmem
      have hoff2 : off < p.lineCount := by
        cases hoff with
        | inl h => exact absurd h (List.cons_ne_nil _ _)
        | inr h => exact h
      have hrestcond : rest = [] ∨
          0 < (rest.headD (Piece.Original 0 0)).lineCount := by
        cases rest with
        | nil => exact Or.inl rfl
        | cons q rest2 =>
          exact Or.inr (hinv.hcount q (hsub q (List.mem_cons_of_mem _
            (List.mem_cons_self _ _))))
      have hrestsub : ∀ q ∈ rest, q ∈ e.pieces :=
        fun q hq => hsub q (List.mem_cons_of_mem _ hq)
      cases p with
      | Original s c =>
        have hbound := hinv.horig s c hpmem
        have hoff3 : off < c := hoff2
        have hline2 : 1 ≤ c := hline
        show (if r = 0 then acc else _) = _
        rw [if_neg hr]
        show getBlockGo e rest 0 (r - min (c - off) r)
          (withLF (acc ++ utf8Lossy (sliceBytes e.mmap
            (e.line_to_byte_offset (s + off))
            (e.line_to_byte_offset (s + off + min (c - off) r))))) = _
        set t := min (c - off) r with hts
        have ht1 : 1 ≤ t := by omega
        have htc : t ≤ c - off := by omega
        rw [line_off_walk e hinv (s + off) (by omega),
          line_off_walk e hinv (s + off + t) (by omega)]
        have hbr := withLF_dec_slice_lines e.mmap hinv.hne hcr (s + off) t ht1
          (by rw [← hinv.hotl]; omega)
        have hwlen : (((olinesOf e.mmap).drop (s + off)).take t).length = t := by
          have holen : s + c ≤ (olinesOf e.mmap).length := by
            rw [olinesOf_length e.mmap hinv.hne hcr, ← hinv.hotl]
            omega
          rw [List.length_take, List.length_drop]
          omega
        have hwne : ((((olinesOf e.mmap).drop (s + off)).take t).map utf8Lossy) ≠ [] := by
          intro hcon
          have := congrArg List.length hcon
          rw [List.length_map, hwlen] at this
          simp at this
          omega
        have hbne : utf8Lossy (sliceBytes e.mmap (walkSkip e.mmap 0 (s + off))
            (walkSkip e.mmap 0 (s + off + t))) ≠ [] := by
          intro hcon
          rw [hcon, withLF_nil] at hbr
          exact joinLF_ne_nil _ hwne hbr.symm
        rw [show withLF (acc ++ utf8Lossy (sliceBytes e.mmap
            (walkSkip e.mmap 0 (s + off)) (walkSkip e.mmap 0 (s + off + t)))) =
            acc ++ withLF (utf8Lossy (sliceBytes e.mmap
            (walkSkip e.mmap 0 (s + off)) (walkSkip e.mmap 0 (s + off + t)))) from
          (withLF_append acc _ hbne).symm]
        rw [hbr]
        rw [ih (r - t) 0 (acc ++ joinLF ((((olinesOf e.mmap).drop (s + off)).take t).map
            utf8Lossy)) hrestsub hrestcond (Or.inr (by
          rw [endsLF_append _ _ (joinLF_ne_nil _ hwne), endsLF_iff]
          exact joinLF_getLast _ hwne))]
        rw [List.drop_zero, docBy_cons,
          List.drop_append_of_le_length (by rw [pieceLinesBy_length]; omega),
          List.take_append_eq_append_take, joinLF_append]
        have hch : ((pieceLinesBy (fun j => utf8Lossy (origLine e.mmap j)) (memLine e)
            (Piece.Original s c)).drop off).take r =
            (((olinesOf e.mmap).drop (s + off)).take t).map utf8Lossy := by
          rw [show pieceLinesBy (fun j => utf8Lossy (origLine e.mmap j)) (memLine e)
              (Piece.Original s c) = (List.range c).map
                (fun j => utf8Lossy (origLine e.mmap (s + j))) from rfl]
          have htake_rt : (((List.range c).map
              (fun j => utf8Lossy (origLine e.mmap (s + j)))).drop off).take r =
              (((List.range c).map
                (fun j => utf8Lossy (origLine e.mmap (s + j)))).drop off).take t := by
            have hdlen : (((List.range c).map
                (fun j => utf8Lossy (origLine e.mmap (s + j)))).drop off).length =
                c - off := by
              rw [List.length_drop, List.length_map, List.length_range]
            rcases Nat.le_total r (c - off) with h | h
            · rw [show t = r from by omega]
            · rw [List.take_of_length_le (by omega), List.take_of_length_le (by omega)]
          rw [htake_rt]
          exact pieceWindow_orig e.mmap hinv.hne hcr s c off t (by omega) htc
            (by rw [← hinv.hotl]; omega)
        rw [hch, List.length_drop, pieceLinesBy_length,
          show Piece.lineCount (Piece.Original s c) = c from rfl,
          show r - (c - off) = r - t from by omega, ← List.append_assoc]
      | Memory si c =>
        have hbound := hinv.hmemb si c hpmem
        have hoff3 : off < c := hoff2
        show (if r = 0 then acc else _) = _
        rw [if_neg hr]
        show getBlockGo e rest 0 (r - min (c - off) r)
          (acc ++ ((List.range (min (c - off) r)).map
            (fun i => (e.memory_buffer.get? (si + off + i)).getD [] ++ [LF])).flatten) = _
        set t := min (c - off) r with hts
        have ht1 : 1 ≤ t := by omega
        have htc : t ≤ c - off := by omega
        have hjoin : ((List.range t).map
            (fun i => (e.memory_buffer.get? (si + off + i)).getD [] ++ [LF])).flatten =
            joinLF ((List.range t).map
              (fun i => (e.memory_buffer.get? (si + off + i)).getD [])) := by
          rw [joinLF, List.map_map]
          rfl
        rw [hjoin]
        have hwne : ((List.range t).map
            (fun i => (e.memory_buffer.get? (si + off + i)).getD [])) ≠ [] := by
          intro hcon
          have := congrArg List.length hcon
          rw [List.length_map, List.length_range] at this
          simp at this
          omega
        rw [ih (r - t) 0 (acc ++ joinLF ((List.range t).map
            (fun i => (e.memory_buffer.get? (si + off + i)).getD [])))
          hrestsub hrestcond (Or.inr (by
          rw [endsLF_append _ _ (joinLF_ne_nil _ hwne), endsLF_iff]
          exact joinLF_getLast _ hwne))]
        rw [List.drop_zero, docBy_cons,
          List.drop_append_of_le_length (by rw [pieceLinesBy_length]; omega),
          List.take_append_eq_append_take, joinLF_append]
        have hch : ((pieceLinesBy (fun j => utf8Lossy (origLine e.mmap j)) (memLine e)
            (Piece.Memory si c)).drop off).take r =
            (List.range t).map
              (fun i => (e.memory_buffer.get? (si + off + i)).getD []) := by
          rw [show pieceLinesBy (fun j => utf8Lossy (origLine e.mmap j)) (memLine e)
              (Piece.Memory si c) = (List.range c).map
                (fun j => memLine e (si + j)) from rfl]
          have htake_rt : (((List.range c).map
              (fun j => memLine e (si + j))).drop off).take r =
              (((List.range c).map (fun j => memLine e (si + j))).drop off).take t := by
            have hdlen : (((List.range c).map
                (fun j => memLine e (si + j))).drop off).length = c - off := by
              rw [List.length_drop, List.length_map, List.length_range]
            rcases Nat.le_total r (c - off) with h | h
            · rw [show t = r from by omega]
            · rw [List.take_of_length_le (by omega), List.take_of_length_le (by omega)]
          rw [htake_rt]
          exact pieceWindow_mem e.memory_buffer si c off t (by omega) htc hbound
        rw [hch, List.length_drop, pieceLinesBy_length,
          show Piece.lineCount (Piece.Memory si c) = c from rfl,
          show r - (c - off) = r - t from by omega, ← List.append_assoc]

/-- The line-count sum of a cons. -/
theorem sumCounts_cons (p : Piece) (ps : List Piece) :
    sumCounts (p :: ps) = p.lineCount + sumCounts ps := by
  show ((p :: ps).map Piece.lineCount).sum = _
  rw [List.map_cons, List.sum_cons]
  rfl

/-- The total line count is the summed counts of the piece list. -/
theorem total_sumCounts (e : LogEngine) : e.total_lines = sumCounts e.pieces := rfl

/-- The piece finder, on a hit: it returns the piece index whose line window
contains the logical line, together with the in-piece offset. -/
theorem findPieceGo_spec (L : Nat) : ∀ (ps : List Piece) (i cur : Nat),
    cur ≤ L → L - cur < sumCounts ps →
    ∃ k, (findPieceGo L ps i cur).1 = i + k ∧ k < ps.length ∧
      sumCounts (ps.take k) + (findPieceGo L ps i cur).2 = L - cur ∧
      (findPieceGo L ps i cur).2 <
        ((ps.get? k).getD (Piece.Original 0 0)).lineCount := by
  intro ps
  induction ps with
  | nil =>
    intro i cur h1 h2
    exfalso
    show False
    have : sumCounts ([] : List Piece) = 0 := rfl
    omega
  | cons p rest ih =>
    intro i cur h1 h2
    rw [sumCounts_cons] at h2
    by_cases hc : L < cur + p.lineCount
    · have hf : findPieceGo L (p :: rest) i cur = (i, L - cur) := by
        show (if L < cur + p.lineCount then (i, L - cur) else _) = _
        rw [if_pos hc]
      refine ⟨0, by rw [hf]; omega, by simp, ?_, ?_⟩
      · rw [hf]
        show sumCounts [] + (L - cur) = L - cur
        show 0 + (L - cur) = L - cur
        omega
      · rw [hf]
        show L - cur < ((some p).getD (Piece.Original 0 0)).lineCount
        show L - cur < p.lineCount
        omega
    · have hf : findPieceGo L (p :: rest) i cur =
          findPieceGo L rest (i + 1) (cur + p.lineCount) := by
        show (if L < cur + p.lineCount then (i, L - cur) else _) = _
        rw [if_neg hc]
      obtain ⟨k, hk1, hk2, hk3, hk4⟩ := ih (i + 1) (cur + p.lineCount)
        (by omega) (by omega)
      refine ⟨k + 1, ?_, by simpa using hk2, ?_, ?_⟩
      · rw [hf, hk1]
        omega
      · rw [hf]
        rw [show (p :: rest).take (k + 1) = p :: rest.take k from rfl, sumCounts_cons]
        omega
      · rw [hf]
        exact hk4

/-- The piece finder, on a miss: a logical line at or past the total lands
just past the last piece. -/
theorem findPieceGo_miss (L : Nat) : ∀ (ps : List Piece) (i cur : Nat),
    cur ≤ L → sumCounts ps ≤ L - cur →
    findPieceGo L ps i cur = (i + ps.length, 0) := by
  intro ps
  induction ps with
  | nil =>
    intro i cur _ _
    show (i, 0) = (i + 0, 0)
    rw [Nat.add_zero]
  | cons p rest ih =>
    intro i cur h1 h2
    rw [sumCounts_cons] at h2
    have hc : ¬ L < cur + p.lineCount := by omega
    show (if L < cur + p.lineCount then (i, L - cur) else _) = _
    rw [if_neg hc, ih (i + 1) (cur + p.lineCount) (by omega) (by omega)]
    rw [List.length_cons]
    rw [show i + 1 + rest.length = i + (rest.length + 1) from by omega]

/-- The head of a dropped list through its indexed lookup. -/
theorem headD_drop (ps : List Piece) (k : Nat) (hk : k < ps.length) (d : Piece) :
    (ps.drop k).headD d = ((ps.get? k).getD d) := by
  rw [List.drop_eq_getElem_cons hk]
  rw [List.get?_eq_getElem?, List.getElem?_eq_getElem hk]
  rfl

/-- Under the invariant `get_block` returns exactly the requested window of
the decoded document, LF-joined; out-of-range requests return the null
view. -/
theorem get_block_lines (e : LogEngine) (hinv : EngInv e) (hcr : CR ∉ e.mmap)
    (s n : Nat) :
    (e.get_block s n).2 = if n = 0 ∨ e.total_lines ≤ s then none
      else some (joinLF (((docDec e).drop s).take n)) := by
  unfold LogEngine.get_block
  by_cases hcond : n = 0 ∨ e.total_lines ≤ s
  · rw [if_pos hcond, if_pos hcond]
  · rw [if_neg hcond, if_neg hcond]
    push_neg at hcond
    obtain ⟨hn0, hs⟩ := hcond
    rw [total_sumCounts] at hs
    obtain ⟨k, hk1, hk2, hk3, hk4⟩ := findPieceGo_spec s e.pieces 0 0
      (by omega) (by omega)
    show some (getBlockGo e (e.pieces.drop (e.find_piece_idx s).1)
      (e.find_piece_idx s).2 n []) = _
    have hfst : (e.find_piece_idx s).1 = k := by
      show (findPieceGo s e.pieces 0 0).1 = k
      rw [hk1]
      omega
    rw [hfst]
    rw [getBlockGo_lines e hinv hcr (e.pieces.drop k) n (e.find_piece_idx s).2 []
      (fun q hq => List.drop_subset _ _ hq)
      (Or.inr (by
        rw [headD_drop e.pieces k hk2]
        exact hk4))
      (Or.inl rfl)]
    rw [List.nil_append]
    congr 2
    obtain ⟨off, hoff⟩ : ∃ off, (e.find_piece_idx s).2 = off := ⟨_, rfl⟩
    rw [hoff]
    have hk3o : sumCounts (e.pieces.take k) + off = s := by
      rw [← hoff]
      have hsame : (e.find_piece_idx s).2 = (findPieceGo s e.pieces 0 0).2 := rfl
      rw [hsame]
      omega
    have hsplit : docDec e =
        docBy (fun j => utf8Lossy (origLine e.mmap j)) (memLine e) (e.pieces.take k) ++
        docBy (fun j => utf8Lossy (origLine e.mmap j)) (memLine e) (e.pieces.drop k) := by
      rw [← docBy_append]
      show docBy _ _ e.pieces = _
      rw [List.take_append_drop]
    rw [hsplit]
    rw [show s = (docBy (fun j => utf8Lossy (origLine e.mmap j)) (memLine e)
        (e.pieces.take k)).length + off from by
      rw [docBy_length]
      omega]
    rw [List.drop_append]

/-- The empty piece list renders to no lines. -/
theorem docBy_nil (g mem : Nat → List Nat) : docBy g mem [] = [] := rfl

/-- A singleton piece list renders to the piece's lines. -/
theorem docBy_singleton (g mem : Nat → List Nat) (p : Piece) :
    docBy g mem [p] = pieceLinesBy g mem p := by
  rw [docBy_cons]
  exact List.append_nil _

/-- An edit never changes the mapped original. -/
theorem apply_edit_mmap (e : LogEngine) (L n : Nat) (t : List Nat) :
    (e.apply_edit L n t).mmap = e.mmap := by
  unfold LogEngine.apply_edit
  by_cases ht : t = []
  · simp [ht]
  · by_cases hl : popTrailingEmpty (splitOnLF t) = []
    · simp [ht, hl]
    · simp [ht, hl]

/-- An edit never changes the chunk index. -/
theorem apply_edit_chunks (e : LogEngine) (L n : Nat) (t : List Nat) :
    (e.apply_edit L n t).chunks = e.chunks := by
  unfold LogEngine.apply_edit
  by_cases ht : t = []
  · simp [ht]
  · by_cases hl : popTrailingEmpty (splitOnLF t) = []
    · simp [ht, hl]
    · simp [ht, hl]

/-- An edit never changes the original line count. -/
theorem apply_edit_otl (e : LogEngine) (L n : Nat) (t : List Nat) :
    (e.apply_edit L n t).original_total_lines = e.original_total_lines := by
  unfold LogEngine.apply_edit
  by_cases ht : t = []
  · simp [ht]
  · by_cases hl : popTrailingEmpty (splitOnLF t) = []
    · simp [ht, hl]
    · simp [ht, hl]

/-- An edit extends the edit buffer by exactly the decoded lines of the new
text (and leaves it alone when that decoding is empty). -/
theorem apply_edit_memory (e : LogEngine) (L n : Nat) (t : List Nat) :
    (e.apply_edit L n t).memory_buffer =
      if popTrailingEmpty (splitOnLF t) = [] then e.memory_buffer
      else e.memory_buffer ++ popTrailingEmpty (splitOnLF t) := by
  unfold LogEngine.apply_edit
  by_cases ht : t = []
  · subst ht
    have hl : popTrailingEmpty (splitOnLF ([] : List Nat)) = [] := rfl
    simp [hl]
  · by_cases hl : popTrailingEmpty (splitOnLF t) = []
    · simp [ht, hl]
    · simp [ht, hl]

/-- A range-map splits at any interior point into the prefix map and the
shifted suffix map. -/
theorem range_map_split (f : Nat → List Nat) (a b : Nat) :
    (List.range (a + b)).map f =
      (List.range a).map f ++ (List.range b).map (fun j => f (a + j)) := by
  rw [List.range_add, List.map_append, List.map_map]
  rfl

/-- The lines of an Original piece split at any admissible offset into the
lines of its two halves. -/
theorem pieceLines_split_orig (g mem : Nat → List Nat) (s c off : Nat)
    (hoff : off ≤ c) :
    pieceLinesBy g mem (Piece.Original s c) =
      pieceLinesBy g mem (Piece.Original s off) ++
        pieceLinesBy g mem (Piece.Original (s + off) (c - off)) := by
  obtain ⟨d, hd⟩ : ∃ d, c - off = d := ⟨_, rfl⟩
  rw [hd]
  show (List.range c).map (fun j => g (s + j)) = _
  rw [show c = off + d from by omega, range_map_split]
  congr 1
  show (List.range d).map (fun j => g (s + (off + j))) =
    (List.range d).map (fun j => g (s + off + j))
  simp only [Nat.add_assoc]

/-- The lines of a Memory piece split at any admissible offset into the lines
of its two halves. -/
theorem pieceLines_split_mem (g mem : Nat → List Nat) (s c off : Nat)
    (hoff : off ≤ c) :
    pieceLinesBy g mem (Piece.Memory s c) =
      pieceLinesBy g mem (Piece.Memory s off) ++
        pieceLinesBy g mem (Piece.Memory (s + off) (c - off)) := by
  obtain ⟨d, hd⟩ : ∃ d, c - off = d := ⟨_, rfl⟩
  rw [hd]
  show (List.range c).map (fun j => mem (s + j)) = _
  rw [show c = off + d from by omega, range_map_split]
  congr 1
  show (List.range d).map (fun j => mem (s + (off + j))) =
    (List.range d).map (fun j => mem (s + off + j))
  simp only [Nat.add_assoc]

/-- Splitting at offset zero is a no-op on the piece list. -/
theorem splitPiecesAt_zero : ∀ (ps : List Piece) (i : Nat),
    splitPiecesAt ps i 0 = ps := by
  intro ps
  induction ps with
  | nil => intro i; rfl
  | cons p rest ih =>
    intro i
    cases i with
    | zero =>
      show (if (0 : Nat) = 0 then p :: rest else _) = p :: rest
      rw [if_pos rfl]
    | succ j =>
      show p :: splitPiecesAt rest j 0 = p :: rest
      rw [ih]

/-- Rendering a piece-list prefix renders a prefix of the document. -/
theorem docBy_take (g mem : Nat → List Nat) (ps : List Piece) (k : Nat) :
    docBy g mem (ps.take k) = (docBy g mem ps).take (sumCounts (ps.take k)) := by
  have h : docBy g mem ps = docBy g mem (ps.take k) ++ docBy g mem (ps.drop k) := by
    rw [← docBy_append, List.take_append_drop]
  rw [h, ← docBy_length g mem (ps.take k), List.take_left]

/-- Rendering a piece-list suffix renders a suffix of the document. -/
theorem docBy_drop (g mem : Nat → List Nat) (ps : List Piece) (k : Nat) :
    docBy g mem (ps.drop k) = (docBy g mem ps).drop (sumCounts (ps.take k)) := by
  have h : docBy g mem ps = docBy g mem (ps.take k) ++ docBy g mem (ps.drop k) := by
    rw [← docBy_append, List.take_append_drop]
  rw [h, ← docBy_length g mem (ps.take k), List.drop_left]

/-- Rendering after an insertion splices the inserted piece's lines into the
document at the piece boundary. -/
theorem docBy_insAt (g mem : Nat → List Nat) (x : Piece) :
    ∀ (ps : List Piece) (k : Nat), k ≤ ps.length →
    docBy g mem (insAt x ps k) =
      docBy g mem (ps.take k) ++ pieceLinesBy g mem x ++ docBy g mem (ps.drop k) := by
  intro ps
  induction ps with
  | nil =>
    intro k hk
    have hk0 : k = 0 := by
      simp at hk
      exact hk
    rw [hk0]
    show docBy g mem [x] = docBy g mem [] ++ pieceLinesBy g mem x ++ docBy g mem []
    rw [docBy_singleton, docBy_nil, List.nil_append, List.append_nil]
  | cons p rest ih =>
    intro k hk
    cases k with
    | zero =>
      show docBy g mem (x :: p :: rest) = docBy g mem [] ++ _ ++ docBy g mem (p :: rest)
      rw [docBy_cons, docBy_nil, List.nil_append]
    | succ k0 =>
      show docBy g mem (p :: insAt x rest k0) = docBy g mem (p :: rest.take k0) ++ _ ++ _
      rw [docBy_cons, docBy_cons,
        ih k0 (by rw [List.length_cons] at hk; omega)]
      rw [show docBy g mem (List.drop (k0 + 1) (p :: rest)) =
        docBy g mem (rest.drop k0) from rfl]
      simp only [List.append_assoc]

/-- Rendering after the deletion loop drops exactly the deleted lines from
the front of the rendered suffix. -/
theorem docBy_deleteSuffix (g mem : Nat → List Nat) :
    ∀ (ps : List Piece) (n : Nat),
    docBy g mem (deleteSuffix ps n) = (docBy g mem ps).drop n := by
  intro ps
  induction ps with
  | nil =>
    intro n
    show docBy g mem [] = (docBy g mem []).drop n
    rw [docBy_nil, List.drop_nil]
  | cons p rest ih =>
    intro n
    show docBy g mem (if n = 0 then p :: rest else _) = _
    by_cases hn : n = 0
    · rw [if_pos hn, hn]
      rfl
    · rw [if_neg hn]
      by_cases hc : p.lineCount ≤ n
      · rw [if_pos hc, ih]
        obtain ⟨d, hd⟩ : ∃ d, n - p.lineCount = d := ⟨_, rfl⟩
        rw [hd, docBy_cons]
        rw [show n = (pieceLinesBy g mem p).length + d from by
          rw [pieceLinesBy_length]; omega]
        rw [List.drop_append]
      · rw [if_neg hc]
        cases p with
        | Original s c =>
          have hsp : splitPiecesAt (Piece.Original s c :: rest) 0 n =
              Piece.Original s n :: Piece.Original (s + n) (c - n) :: rest := by
            show (if n = 0 then _ else if (Piece.Original s c).lineCount ≤ n then _
              else _) = _
            rw [if_neg hn, if_neg hc]
          rw [hsp]
          show docBy g mem (Piece.Original (s + n) (c - n) :: rest) = _
          rw [docBy_cons, docBy_cons,
            pieceLines_split_orig g mem s c n
              (Nat.le_of_lt (Nat.lt_of_not_le hc)),
            List.append_assoc,
            List.drop_append_of_le_length
              (by rw [pieceLinesBy_length]; exact Nat.le.refl),
            List.drop_eq_nil_of_le (by rw [pieceLinesBy_length]; exact Nat.le.refl),
            List.nil_append]
        | Memory s c =>
          have hsp : splitPiecesAt (Piece.Memory s c :: rest) 0 n =
              Piece.Memory s n :: Piece.Memory (s + n) (c - n) :: rest := by
            show (if n = 0 then _ else if (Piece.Memory s c).lineCount ≤ n then _
              else _) = _
            rw [if_neg hn, if_neg hc]
          rw [hsp]
          show docBy g mem (Piece.Memory (s + n) (c - n) :: rest) = _
          rw [docBy_cons, docBy_cons,
            pieceLines_split_mem g mem s c n
              (Nat.le_of_lt (Nat.lt_of_not_le hc)),
            List.append_assoc,
            List.drop_append_of_le_length
              (by rw [pieceLinesBy_length]; exact Nat.le.refl),
            List.drop_eq_nil_of_le (by rw [pieceLinesBy_length]; exact Nat.le.refl),
            List.nil_append]

/-- Splitting the piece containing a logical position realigns the piece-list
boundary with that position: the first `k + 1` pieces of the split list
render exactly the document up to the position, the rest render the
remainder, and the split list is long enough to take them. -/
theorem split_take_drop (g mem : Nat → List Nat) :
    ∀ (ps : List Piece) (k off : Nat), k < ps.length → 0 < off →
    off ≤ ((ps.get? k).getD (Piece.Original 0 0)).lineCount →
    k + 1 ≤ (splitPiecesAt ps k off).length ∧
    docBy g mem ((splitPiecesAt ps k off).take (k + 1)) =
      (docBy g mem ps).take (sumCounts (ps.take k) + off) ∧
    docBy g mem ((splitPiecesAt ps k off).drop (k + 1)) =
      (docBy g mem ps).drop (sumCounts (ps.take k) + off) := by
  intro ps
  induction ps with
  | nil =>
    intro k off hk _ _
    exact absurd hk (by simp)
  | cons p rest ih =>
    intro k off hk hoff hofflec
    cases k with
    | zero =>
      have hple : off ≤ p.lineCount := hofflec
      have hsum0 : sumCounts ((p :: rest).take 0) + off = off := by
        show sumCounts [] + off = off
        show 0 + off = off
        omega
      by_cases hc : p.lineCount ≤ off
      · have hoc : off = p.lineCount := Nat.le_antisymm hple hc
        have hsp : splitPiecesAt (p :: rest) 0 off = p :: rest := by
          show (if off = 0 then p :: rest else if p.lineCount ≤ off then p :: rest
            else _) = p :: rest
          rw [if_neg (by omega), if_pos hc]
        rw [hsp, hsum0]
        refine ⟨by simp, ?_, ?_⟩
        · show docBy g mem [p] = _
          rw [docBy_singleton,
            show off = (pieceLinesBy g mem p).length from by rw [pieceLinesBy_length]; omega,
            docBy_cons, List.take_left]
        · show docBy g mem rest = _
          rw [show off = (pieceLinesBy g mem p).length from by rw [pieceLinesBy_length]; omega,
            docBy_cons, List.drop_left]
      · have hlt : off < p.lineCount := Nat.lt_of_not_le hc
        cases p with
        | Original s c =>
          have hsp : splitPiecesAt (Piece.Original s c :: rest) 0 off =
              Piece.Original s off :: Piece.Original (s + off) (c - off) :: rest := by
            show (if off = 0 then _ else if (Piece.Original s c).lineCount ≤ off then _
              else _) = _
            rw [if_neg (by omega), if_neg hc]
          rw [hsp, hsum0]
          refine ⟨by simp, ?_, ?_⟩
          · show docBy g mem [Piece.Original s off] = _
            rw [docBy_singleton, docBy_cons,
              pieceLines_split_orig g mem s c off (Nat.le_of_lt hlt),
              List.append_assoc,
              List.take_left' (show (pieceLinesBy g mem (Piece.Original s off)).length = off
                from by simp [pieceLinesBy_length, Piece.lineCount])]
          · show docBy g mem (Piece.Original (s + off) (c - off) :: rest) = _
            rw [docBy_cons, docBy_cons,
              pieceLines_split_orig g mem s c off (Nat.le_of_lt hlt),
              List.append_assoc,
              List.drop_left' (show (pieceLinesBy g mem (Piece.Original s off)).length = off
                from by simp [pieceLinesBy_length, Piece.lineCount])]
        | Memory s c =>
          have hsp : splitPiecesAt (Piece.Memory s c :: rest) 0 off =
              Piece.Memory s off :: Piece.Memory (s + off) (c - off) :: rest := by
            show (if off = 0 then _ else if (Piece.Memory s c).lineCount ≤ off then _
              else _) = _
            rw [if_neg (by omega), if_neg hc]
          rw [hsp, hsum0]
          refine ⟨by simp, ?_, ?_⟩
          · show docBy g mem [Piece.Memory s off] = _
            rw [docBy_singleton, docBy_cons,
              pieceLines_split_mem g mem s c off (Nat.le_of_lt hlt),
              List.append_assoc,
              List.take_left' (show (pieceLinesBy g mem (Piece.Memory s off)).length = off
                from by simp [pieceLinesBy_length, Piece.lineCount])]
          · show docBy g mem (Piece.Memory (s + off) (c - off) :: rest) = _
            rw [docBy_cons, docBy_cons,
              pieceLines_split_mem g mem s c off (Nat.le_of_lt hlt),
              List.append_assoc,
              List.drop_left' (show (pieceLinesBy g mem (Piece.Memory s off)).length = off
                from by simp [pieceLinesBy_length, Piece.lineCount])]
    | succ k0 =>
      have hk0 : k0 < rest.length := by
        rw [List.length_cons] at hk
        omega
      obtain ⟨hlen1, htake, hdrop⟩ := ih k0 off hk0 hoff hofflec
      have hsp : splitPiecesAt (p :: rest) (k0 + 1) off =
          p :: splitPiecesAt rest k0 off := rfl
      have hsum : sumCounts ((p :: rest).take (k0 + 1)) + off =
          (pieceLinesBy g mem p).length + (sumCounts (rest.take k0) + off) := by
        rw [pieceLinesBy_length,
          show (p :: rest).take (k0 + 1) = p :: rest.take k0 from rfl, sumCounts_cons]
        omega
      refine ⟨?_, ?_, ?_⟩
      · rw [hsp, List.length_cons]
        omega
      · rw [hsp,
          show (p :: splitPiecesAt rest k0 off).take (k0 + 1 + 1) =
            p :: (splitPiecesAt rest k0 off).take (k0 + 1) from rfl,
          docBy_cons, htake, hsum, docBy_cons, List.take_append]
      · rw [hsp,
          show (p :: splitPiecesAt rest k0 off).drop (k0 + 1 + 1) =
            (splitPiecesAt rest k0 off).drop (k0 + 1) from rfl,
          hdrop, hsum, docBy_cons, List.drop_append]

/-- Rendering is unchanged when the edit-buffer renderer agrees on every
index referenced by the piece list. -/
theorem docBy_mem_ext (g mem1 mem2 : Nat → List Nat) :
    ∀ ps : List Piece,
    (∀ s c, Piece.Memory s c ∈ ps → ∀ j, j < c → mem1 (s + j) = mem2 (s + j)) →
    docBy g mem1 ps = docBy g mem2 ps := by
  intro ps
  induction ps with
  | nil => intro _; rfl
  | cons p rest ih =>
    intro h
    rw [docBy_cons, docBy_cons,
      ih (fun s c hm j hj => h s c (List.mem_cons_of_mem p hm) j hj)]
    congr 1
    cases p with
    | Original s c => rfl
    | Memory s c =>
      show (List.range c).map (fun j => mem1 (s + j)) =
        (List.range c).map (fun j => mem2 (s + j))
      exact List.map_congr_left
        (fun j hj => h s c (List.mem_cons_self _ _) j (List.mem_range.mp hj))

/-- Edit-buffer lookups below the old buffer length are unchanged by an
edit. -/
theorem memLine_apply_edit_lt (e : LogEngine) (L n : Nat) (t : List Nat) (i : Nat)
    (hi : i < e.memory_buffer.length) :
    memLine (e.apply_edit L n t) i = memLine e i := by
  show ((e.apply_edit L n t).memory_buffer.get? i).getD [] = _
  rw [apply_edit_memory]
  by_cases hl : popTrailingEmpty (splitOnLF t) = []
  · rw [if_pos hl]
    rfl
  · rw [if_neg hl, List.get?_append hi]
    rfl

/-- Edit-buffer lookups in the freshly appended range return the decoded
lines of the new text. -/
theorem memLine_apply_edit_new (e : LogEngine) (L n : Nat) (t : List Nat)
    (hl : ¬ popTrailingEmpty (splitOnLF t) = []) (j : Nat) :
    memLine (e.apply_edit L n t) (e.memory_buffer.length + j) =
      ((popTrailingEmpty (splitOnLF t)).get? j).getD [] := by
  show ((e.apply_edit L n t).memory_buffer.get? _).getD [] = _
  rw [apply_edit_memory, if_neg hl,
    List.get?_append_right (Nat.le_add_right _ _), Nat.add_sub_cancel_left]

/-- The freshly inserted memory piece renders to exactly the decoded lines of
the new text. -/
theorem pieceLines_new_piece (e : LogEngine) (g : Nat → List Nat) (L n : Nat)
    (t : List Nat) (hl : ¬ popTrailingEmpty (splitOnLF t) = []) :
    pieceLinesBy g (memLine (e.apply_edit L n t))
        (Piece.Memory e.memory_buffer.length (popTrailingEmpty (splitOnLF t)).length) =
      popTrailingEmpty (splitOnLF t) := by
  show (List.range (popTrailingEmpty (splitOnLF t)).length).map
    (fun j => memLine (e.apply_edit L n t) (e.memory_buffer.length + j)) = _
  have h1 : (List.range (popTrailingEmpty (splitOnLF t)).length).map
      (fun j => memLine (e.apply_edit L n t) (e.memory_buffer.length + j)) =
      (List.range (popTrailingEmpty (splitOnLF t)).length).map
      (fun j => ((popTrailingEmpty (splitOnLF t)).get? (0 + j)).getD []) :=
    List.map_congr_left (fun j _ => by
      rw [Nat.zero_add]
      exact memLine_apply_edit_new e L n t hl j)
  rw [h1, range_map_getD (popTrailingEmpty (splitOnLF t)) 0
    (popTrailingEmpty (splitOnLF t)).length (by omega)]
  rw [List.drop_zero, List.take_of_length_le (Nat.le_refl _)]

/-- The split-take-delete core of an edit, rendered: the retained prefix is
the first `L` document lines, the deletion result is the document from line
`L + n` on, and the retained prefix has exactly the insertion index's
pieces. -/
theorem edit_core (e : LogEngine) (g mem : Nat → List Nat) (L n : Nat) :
    docBy g mem
      ((if (e.find_piece_idx L).1 < e.pieces.length then
          splitPiecesAt e.pieces (e.find_piece_idx L).1 (e.find_piece_idx L).2
        else e.pieces).take
        (if (e.find_piece_idx L).1 < e.pieces.length ∧ 0 < (e.find_piece_idx L).2
          then (e.find_piece_idx L).1 + 1 else (e.find_piece_idx L).1)) =
      (docBy g mem e.pieces).take L ∧
    docBy g mem (deleteSuffix
      ((if (e.find_piece_idx L).1 < e.pieces.length then
          splitPiecesAt e.pieces (e.find_piece_idx L).1 (e.find_piece_idx L).2
        else e.pieces).drop
        (if (e.find_piece_idx L).1 < e.pieces.length ∧ 0 < (e.find_piece_idx L).2
          then (e.find_piece_idx L).1 + 1 else (e.find_piece_idx L).1)) n) =
      (docBy g mem e.pieces).drop (L + n) ∧
    ((if (e.find_piece_idx L).1 < e.pieces.length then
        splitPiecesAt e.pieces (e.find_piece_idx L).1 (e.find_piece_idx L).2
      else e.pieces).take
      (if (e.find_piece_idx L).1 < e.pieces.length ∧ 0 < (e.find_piece_idx L).2
        then (e.find_piece_idx L).1 + 1 else (e.find_piece_idx L).1)).length =
      (if (e.find_piece_idx L).1 < e.pieces.length ∧ 0 < (e.find_piece_idx L).2
        then (e.find_piece_idx L).1 + 1 else (e.find_piece_idx L).1) := by
  rcases Nat.lt_or_ge L (sumCounts e.pieces) with hL | hL
  · obtain ⟨k, hk1, hk2, hk3, hk4⟩ := findPieceGo_spec L e.pieces 0 0
      (Nat.zero_le L) (by omega)
    have hfst : (e.find_piece_idx L).1 = k := by
      show (findPieceGo L e.pieces 0 0).1 = k
      omega
    obtain ⟨off, hoff⟩ : ∃ off, (e.find_piece_idx L).2 = off := ⟨_, rfl⟩
    have hoff2 : (findPieceGo L e.pieces 0 0).2 = off := hoff
    rw [hoff2] at hk3 hk4
    have hk3o : sumCounts (e.pieces.take k) + off = L := by omega
    have hcond : (e.find_piece_idx L).1 < e.pieces.length := by
      rw [hfst]
      exact hk2
    by_cases h0 : 0 < off
    · have hcond2 : (e.find_piece_idx L).1 < e.pieces.length ∧
          0 < (e.find_piece_idx L).2 := ⟨hcond, by rw [hoff]; exact h0⟩
      rw [if_pos hcond, if_pos hcond2, hfst, hoff]
      obtain ⟨hlen1, htake, hdrop⟩ := split_take_drop g mem e.pieces k off hk2 h0
        (Nat.le_of_lt hk4)
      refine ⟨?_, ?_, ?_⟩
      · rw [htake, hk3o]
      · rw [docBy_deleteSuffix, hdrop, List.drop_drop]
        congr 1
        omega
      · rw [List.length_take]
        exact Nat.min_eq_left hlen1
    · have hoffz : (e.find_piece_idx L).2 = 0 := by omega
      have hcond2 : ¬ ((e.find_piece_idx L).1 < e.pieces.length ∧
          0 < (e.find_piece_idx L).2) := by
        intro hcc
        rw [hoffz] at hcc
        exact absurd hcc.2 (by omega)
      rw [if_pos hcond, if_neg hcond2, hfst, hoffz, splitPiecesAt_zero]
      refine ⟨?_, ?_, ?_⟩
      · rw [docBy_take, show sumCounts (e.pieces.take k) = L from by omega]
      · rw [docBy_deleteSuffix, docBy_drop, List.drop_drop]
        congr 1
        omega
      · rw [List.length_take]
        exact Nat.min_eq_left (Nat.le_of_lt hk2)
  · have hmiss := findPieceGo_miss L e.pieces 0 0 (Nat.zero_le L) (by omega)
    have hfst : (e.find_piece_idx L).1 = e.pieces.length := by
      show (findPieceGo L e.pieces 0 0).1 = _
      rw [hmiss]
      simp
    have hcond : ¬ ((e.find_piece_idx L).1 < e.pieces.length) := by
      rw [hfst]
      omega
    have hcond2 : ¬ ((e.find_piece_idx L).1 < e.pieces.length ∧
        0 < (e.find_piece_idx L).2) := fun hcc => hcond hcc.1
    rw [if_neg hcond, if_neg hcond2, hfst, List.take_length, List.drop_length]
    refine ⟨?_, ?_, rfl⟩
    · rw [List.take_of_length_le (by rw [docBy_length]; omega)]
    · show docBy g mem [] = _
      rw [docBy_nil, List.drop_eq_nil_of_le (by rw [docBy_length]; omega)]

/-- A piece predicate closed under interior splits is preserved by the split
operation. -/
theorem pred_splitPiecesAt (P : Piece → Prop)
    (hO : ∀ s c off, 0 < off → off < c → P (Piece.Original s c) →
      P (Piece.Original s off) ∧ P (Piece.Original (s + off) (c - off)))
    (hM : ∀ s c off, 0 < off → off < c → P (Piece.Memory s c) →
      P (Piece.Memory s off) ∧ P (Piece.Memory (s + off) (c - off))) :
    ∀ (l : List Piece) (i off : Nat), (∀ x ∈ l, P x) →
    ∀ p ∈ splitPiecesAt l i off, P p := by
  intro l
  induction l with
  | nil => intro i off _ p hp; simp [splitPiecesAt] at hp
  | cons q rest ih =>
    intro i off h p hp
    cases i with
    | zero =>
      unfold splitPiecesAt at hp
      by_cases h0 : off = 0
      · rw [if_pos h0] at hp
        exact h p hp
      · rw [if_neg h0] at hp
        by_cases h1 : q.lineCount ≤ off
        · rw [if_pos h1] at hp
          exact h p hp
        · rw [if_neg h1] at hp
          cases q with
          | Original s c =>
            simp only [Piece.lineCount] at h1
            simp only [List.mem_cons] at hp
            rcases hp with hp | hp | hp
            · rw [hp]
              exact (hO s c off (by omega) (by omega)
                (h _ (List.mem_cons_self _ _))).1
            · rw [hp]
              exact (hO s c off (by omega) (by omega)
                (h _ (List.mem_cons_self _ _))).2
            · exact h p (by simp [hp])
          | Memory s c =>
            simp only [Piece.lineCount] at h1
            simp only [List.mem_cons] at hp
            rcases hp with hp | hp | hp
            · rw [hp]
              exact (hM s c off (by omega) (by omega)
                (h _ (List.mem_cons_self _ _))).1
            · rw [hp]
              exact (hM s c off (by omega) (by omega)
                (h _ (List.mem_cons_self _ _))).2
            · exact h p (by simp [hp])
    | succ i0 =>
      unfold splitPiecesAt at hp
      simp only [List.mem_cons] at hp
      rcases hp with hp | hp
      · exact h p (by simp [hp])
      · exact ih i0 off (fun x hx => h x (by simp [hx])) p hp

/-- A piece predicate closed under interior splits is preserved by the
deletion loop. -/
theorem pred_deleteSuffix (P : Piece → Prop)
    (hO : ∀ s c off, 0 < off → off < c → P (Piece.Original s c) →
      P (Piece.Original s off) ∧ P (Piece.Original (s + off) (c - off)))
    (hM : ∀ s c off, 0 < off → off < c → P (Piece.Memory s c) →
      P (Piece.Memory s off) ∧ P (Piece.Memory (s + off) (c - off))) :
    ∀ (l : List Piece) (rem : Nat), (∀ x ∈ l, P x) →
    ∀ p ∈ deleteSuffix l rem, P p := by
  intro l
  induction l with
  | nil => intro rem _ p hp; simp [deleteSuffix] at hp
  | cons q rest ih =>
    intro rem h p hp
    unfold deleteSuffix at hp
    by_cases h0 : rem = 0
    · rw [if_pos h0] at hp
      exact h p hp
    · rw [if_neg h0] at hp
      by_cases h1 : q.lineCount ≤ rem
      · rw [if_pos h1] at hp
        exact ih (rem - q.lineCount) (fun x hx => h x (by simp [hx])) p hp
      · rw [if_neg h1] at hp
        have hall := pred_splitPiecesAt P hO hM (q :: rest) 0 rem h
        rcases hsp : splitPiecesAt (q :: rest) 0 rem with _ | ⟨hd, tl⟩
        · rw [hsp] at hp
          simp at hp
        · rw [hsp] at hp
          exact hall p (by rw [hsp]; simp [hp])

/-- The rendered document after an edit: the first `L` lines, then the
decoded lines of the new text, then the old document from line `L + n` on.
The original-line renderer `g` is arbitrary because edits never touch the
mapped original. -/
theorem docBy_apply_edit (e : LogEngine) (g : Nat → List Nat) (L n : Nat)
    (t : List Nat)
    (hmem : ∀ s c, Piece.Memory s c ∈ e.pieces → s + c ≤ e.memory_buffer.length) :
    docBy g (memLine (e.apply_edit L n t)) (e.apply_edit L n t).pieces =
      (docBy g (memLine e) e.pieces).take L ++ popTrailingEmpty (splitOnLF t) ++
        (docBy g (memLine e) e.pieces).drop (L + n) := by
  obtain ⟨hc1, hc2, hc3⟩ := edit_core e g (memLine e) L n
  rw [apply_edit_pieces]
  obtain ⟨P1, hP1⟩ : ∃ x, (if (e.find_piece_idx L).1 < e.pieces.length then
      splitPiecesAt e.pieces (e.find_piece_idx L).1 (e.find_piece_idx L).2
    else e.pieces) = x := ⟨_, rfl⟩
  obtain ⟨pidx, hpidx⟩ : ∃ x,
    (if (e.find_piece_idx L).1 < e.pieces.length ∧ 0 < (e.find_piece_idx L).2
      then (e.find_piece_idx L).1 + 1 else (e.find_piece_idx L).1) = x := ⟨_, rfl⟩
  rw [hP1, hpidx] at hc1 hc2 hc3 ⊢
  by_cases ht : t = []
  · subst ht
    rw [if_pos rfl]
    have hbeq : memLine (e.apply_edit L n []) = memLine e := by
      funext i
      show ((e.apply_edit L n []).memory_buffer.get? i).getD [] = _
      rw [apply_edit_memory,
        if_pos (show popTrailingEmpty (splitOnLF ([] : List Nat)) = [] from rfl)]
      rfl
    rw [hbeq, docBy_append, hc1, hc2,
      show popTrailingEmpty (splitOnLF ([] : List Nat)) = [] from rfl,
      List.append_nil]
  · rw [if_neg ht]
    by_cases hl : popTrailingEmpty (splitOnLF t) = []
    · rw [if_pos hl]
      have hbeq : memLine (e.apply_edit L n t) = memLine e := by
        funext i
        show ((e.apply_edit L n t).memory_buffer.get? i).getD [] = _
        rw [apply_edit_memory, if_pos hl]
        rfl
      rw [hbeq, docBy_append, hc1, hc2, hl, List.append_nil]
    · rw [if_neg hl]
      have hOlem : ∀ s c off, 0 < off → off < c →
          (∀ s2 c2, Piece.Original s c = Piece.Memory s2 c2 →
            s2 + c2 ≤ e.memory_buffer.length) →
          (∀ s2 c2, Piece.Original s off = Piece.Memory s2 c2 →
            s2 + c2 ≤ e.memory_buffer.length) ∧
          (∀ s2 c2, Piece.Original (s + off) (c - off) = Piece.Memory s2 c2 →
            s2 + c2 ≤ e.memory_buffer.length) :=
        fun _ _ _ _ _ _ =>
          ⟨fun _ _ h => Piece.noConfusion h, fun _ _ h => Piece.noConfusion h⟩
      have hMlem : ∀ s c off, 0 < off → off < c →
          (∀ s2 c2, Piece.Memory s c = Piece.Memory s2 c2 →
            s2 + c2 ≤ e.memory_buffer.length) →
          (∀ s2 c2, Piece.Memory s off = Piece.Memory s2 c2 →
            s2 + c2 ≤ e.memory_buffer.length) ∧
          (∀ s2 c2, Piece.Memory (s + off) (c - off) = Piece.Memory s2 c2 →
            s2 + c2 ≤ e.memory_buffer.length) := by
        intro s c off h0 h1 hP
        have hb := hP s c rfl
        constructor
        · intro s2 c2 heq
          cases heq
          omega
        · intro s2 c2 heq
          cases heq
          omega
      have hPall : ∀ p ∈ e.pieces, ∀ s c, p = Piece.Memory s c →
          s + c ≤ e.memory_buffer.length :=
        fun p hp s c heq => hmem s c (heq ▸ hp)
      have hsplitB : ∀ p ∈ P1, ∀ s c, p = Piece.Memory s c →
          s + c ≤ e.memory_buffer.length := by
        rw [← hP1]
        split
        · exact pred_splitPiecesAt
            (fun p => ∀ s c, p = Piece.Memory s c → s + c ≤ e.memory_buffer.length)
            hOlem hMlem e.pieces _ _ hPall
        · exact hPall
      have htakeB : ∀ p ∈ P1.take pidx, ∀ s c, p = Piece.Memory s c →
          s + c ≤ e.memory_buffer.length :=
        fun p hp => hsplitB p (List.take_subset _ _ hp)
      have hdelB : ∀ p ∈ deleteSuffix (P1.drop pidx) n, ∀ s c,
          p = Piece.Memory s c → s + c ≤ e.memory_buffer.length :=
        pred_deleteSuffix
          (fun p => ∀ s c, p = Piece.Memory s c → s + c ≤ e.memory_buffer.length)
          hOlem hMlem (P1.drop pidx) n
          (fun x hx => hsplitB x (List.drop_subset _ _ hx))
      have hup : ∀ qs : List Piece,
          (∀ p ∈ qs, ∀ s c, p = Piece.Memory s c →
            s + c ≤ e.memory_buffer.length) →
          docBy g (memLine (e.apply_edit L n t)) qs = docBy g (memLine e) qs :=
        fun qs hq => docBy_mem_ext g _ _ qs (fun s c hm j hj =>
          memLine_apply_edit_lt e L n t (s + j) (by
            have hb := hq _ hm s c rfl
            omega))
      have hlen4 : pidx ≤ (P1.take pidx ++ deleteSuffix (P1.drop pidx) n).length := by
        rw [List.length_append]
        omega
      rw [docBy_insAt g (memLine (e.apply_edit L n t))
        (Piece.Memory e.memory_buffer.length (popTrailingEmpty (splitOnLF t)).length)
        (P1.take pidx ++ deleteSuffix (P1.drop pidx) n) pidx hlen4]
      rw [List.take_left' hc3, List.drop_left' hc3]
      rw [hup _ htakeB, hup _ hdelB, hc1, hc2, pieceLines_new_piece e g L n t hl]

/-- A freshly constructed engine on a non-empty single-chunk file satisfies
the structural invariant. -/
theorem inv_new (m : List Nat) (hne : m ≠ []) (hlen : m.length ≤ chunkSize) :
    EngInv (LogEngine.new m) := by
  have hotl1 : 1 ≤ (LogEngine.new m).original_total_lines := new_otl_pos m hne
  refine ⟨hne, hlen, new_chunks_single m hne hlen, rfl, ?_, ?_, ?_, ?_⟩
  · intro p hp
    rw [new_pieces] at hp
    have hpe : p = Piece.Original 0 (LogEngine.new m).original_total_lines := by
      cases hp with
      | head => rfl
      | tail _ hm => exact absurd hm (List.not_mem_nil p)
    rw [hpe]
    exact hotl1
  · intro s c hm
    rw [new_pieces] at hm
    cases hm with
    | head => omega
    | tail _ hm2 => exact absurd hm2 (List.not_mem_nil _)
  · intro s c hm
    rw [new_pieces] at hm
    cases hm with
    | tail _ hm2 => exact absurd hm2 (List.not_mem_nil _)
  · intro l hl
    exact absurd hl (List.not_mem_nil l)

/-- Every edit preserves the structural invariant. -/
theorem inv_apply_edit (e : LogEngine) (hinv : EngInv e) (L n : Nat)
    (t : List Nat) : EngInv (e.apply_edit L n t) := by
  obtain ⟨hne, hlen, hch, hotl, hcount, horig, hmemb, hbuf⟩ := hinv
  have hsub : e.memory_buffer.length ≤ (e.apply_edit L n t).memory_buffer.length := by
    rw [apply_edit_memory]
    by_cases hl : popTrailingEmpty (splitOnLF t) = []
    · rw [if_pos hl]
    · rw [if_neg hl, List.length_append]
      omega
  have hOlem : ∀ (B : Nat), ∀ s c off, 0 < off → off < c →
      ((∀ s2 c2, Piece.Original s c = Piece.Original s2 c2 → s2 + c2 ≤ B) ∧
        (∀ s2 c2, Piece.Original s c = Piece.Memory s2 c2 →
          s2 + c2 ≤ (e.apply_edit L n t).memory_buffer.length)) →
      (((∀ s2 c2, Piece.Original s off = Piece.Original s2 c2 → s2 + c2 ≤ B) ∧
        (∀ s2 c2, Piece.Original s off = Piece.Memory s2 c2 →
          s2 + c2 ≤ (e.apply_edit L n t).memory_buffer.length)) ∧
       ((∀ s2 c2, Piece.Original (s + off) (c - off) = Piece.Original s2 c2 →
          s2 + c2 ≤ B) ∧
        (∀ s2 c2, Piece.Original (s + off) (c - off) = Piece.Memory s2 c2 →
          s2 + c2 ≤ (e.apply_edit L n t).memory_buffer.length))) := by
    intro B s c off h0 h1 hP
    have hb := hP.1 s c rfl
    refine ⟨⟨?_, fun _ _ h => Piece.noConfusion h⟩,
      ⟨?_, fun _ _ h => Piece.noConfusion h⟩⟩
    · intro s2 c2 heq
      cases heq
      omega
    · intro s2 c2 heq
      cases heq
      omega
  have hMlem : ∀ (B : Nat), ∀ s c off, 0 < off → off < c →
      ((∀ s2 c2, Piece.Memory s c = Piece.Original s2 c2 → s2 + c2 ≤ B) ∧
        (∀ s2 c2, Piece.Memory s c = Piece.Memory s2 c2 →
          s2 + c2 ≤ (e.apply_edit L n t).memory_buffer.length)) →
      (((∀ s2 c2, Piece.Memory s off = Piece.Original s2 c2 → s2 + c2 ≤ B) ∧
        (∀ s2 c2, Piece.Memory s off = Piece.Memory s2 c2 →
          s2 + c2 ≤ (e.apply_edit L n t).memory_buffer.length)) ∧
       ((∀ s2 c2, Piece.Memory (s + off) (c - off) = Piece.Original s2 c2 →
          s2 + c2 ≤ B) ∧
        (∀ s2 c2, Piece.Memory (s + off) (c - off) = Piece.Memory s2 c2 →
          s2 + c2 ≤ (e.apply_edit L n t).memory_buffer.length))) := by
    intro B s c off h0 h1 hP
    have hb := hP.2 s c rfl
    refine ⟨⟨fun _ _ h => Piece.noConfusion h, ?_⟩,
      ⟨fun _ _ h => Piece.noConfusion h, ?_⟩⟩
    · intro s2 c2 heq
      cases heq
      omega
    · intro s2 c2 heq
      cases heq
      omega
  have hboth : ∀ p ∈ (e.apply_edit L n t).pieces,
      (∀ s2 c2, p = Piece.Original s2 c2 → s2 + c2 ≤ e.original_total_lines) ∧
      (∀ s2 c2, p = Piece.Memory s2 c2 →
        s2 + c2 ≤ (e.apply_edit L n t).memory_buffer.length) := by
    have hall : ∀ p ∈ e.pieces,
        (∀ s2 c2, p = Piece.Original s2 c2 → s2 + c2 ≤ e.original_total_lines) ∧
        (∀ s2 c2, p = Piece.Memory s2 c2 →
          s2 + c2 ≤ (e.apply_edit L n t).memory_buffer.length) := by
      intro p hp
      constructor
      · intro s2 c2 heq
        exact horig s2 c2 (heq ▸ hp)
      · intro s2 c2 heq
        have := hmemb s2 c2 (heq ▸ hp)
        omega
    intro p hp
    rw [apply_edit_pieces] at hp
    have h1 : ∀ x ∈ (if (e.find_piece_idx L).1 < e.pieces.length then
        splitPiecesAt e.pieces (e.find_piece_idx L).1 (e.find_piece_idx L).2
        else e.pieces),
        (∀ s2 c2, x = Piece.Original s2 c2 → s2 + c2 ≤ e.original_total_lines) ∧
        (∀ s2 c2, x = Piece.Memory s2 c2 →
          s2 + c2 ≤ (e.apply_edit L n t).memory_buffer.length) := by
      split
      · exact pred_splitPiecesAt _ (hOlem e.original_total_lines)
          (hMlem e.original_total_lines) e.pieces _ _ hall
      · exact hall
    have h2 : ∀ x ∈ (if (e.find_piece_idx L).1 < e.pieces.length then
          splitPiecesAt e.pieces (e.find_piece_idx L).1 (e.find_piece_idx L).2
          else e.pieces).take
            (if (e.find_piece_idx L).1 < e.pieces.length ∧ 0 < (e.find_piece_idx L).2
              then (e.find_piece_idx L).1 + 1 else (e.find_piece_idx L).1) ++
          deleteSuffix
            ((if (e.find_piece_idx L).1 < e.pieces.length then
                splitPiecesAt e.pieces (e.find_piece_idx L).1 (e.find_piece_idx L).2
              else e.pieces).drop
              (if (e.find_piece_idx L).1 < e.pieces.length ∧ 0 < (e.find_piece_idx L).2
                then (e.find_piece_idx L).1 + 1 else (e.find_piece_idx L).1)) n,
        (∀ s2 c2, x = Piece.Original s2 c2 → s2 + c2 ≤ e.original_total_lines) ∧
        (∀ s2 c2, x = Piece.Memory s2 c2 →
          s2 + c2 ≤ (e.apply_edit L n t).memory_buffer.length) := by
      intro x hx
      rcases List.mem_append.mp hx with hm | hm
      · exact h1 x (List.take_subset _ _ hm)
      · exact pred_deleteSuffix _ (hOlem e.original_total_lines)
          (hMlem e.original_total_lines) _ n
          (fun y hy => h1 y (List.drop_subset _ _ hy)) x hm
    split at hp
    · exact h2 p hp
    · split at hp
      · exact h2 p hp
      · rcases mem_insAt _ _ _ _ hp with hx | hx
        · rw [hx]
          refine ⟨fun _ _ h => Piece.noConfusion h, ?_⟩
          intro s2 c2 heq
          cases heq
          rw [apply_edit_memory, if_neg (by assumption), List.length_append]
        · exact h2 p hx
  refine ⟨?_, ?_, ?_, ?_, ?_, ?_, ?_, ?_⟩
  · rw [apply_edit_mmap]
    exact hne
  · rw [apply_edit_mmap]
    exact hlen
  · rw [apply_edit_chunks]
    exact hch
  · rw [apply_edit_otl, apply_edit_mmap]
    exact hotl
  · exact lineCount_apply_edit e L n t hcount
  · intro s c hm
    rw [apply_edit_otl]
    exact (hboth _ hm).1 s c rfl
  · intro s c hm
    exact (hboth _ hm).2 s c rfl
  · intro l hl
    rw [apply_edit_memory] at hl
    by_cases hpop : popTrailingEmpty (splitOnLF t) = []
    · rw [if_pos hpop] at hl
      exact hbuf l hl
    · rw [if_neg hpop] at hl
      rcases List.mem_append.mp hl with hm | hm
      · exact hbuf l hm
      · have hmem2 : l ∈ splitOnLF t := by
          unfold popTrailingEmpty at hm
          split at hm
          · exact List.dropLast_subset _ hm
          · exact hm
        exact splitOnLF_chunk_lf_free t l hmem2

/-- The structural invariant holds in every reachable single-chunk state. -/
theorem inv_of_reachable (e : LogEngine) (hre : Reachable e)
    (hlen : e.mmap.length ≤ chunkSize) : EngInv e := by
  induction hre with
  | base m hne => exact inv_new m hne hlen
  | step e0 L n t hre0 ih =>
    rw [apply_edit_mmap] at hlen
    exact inv_apply_edit e0 (ih hlen) L n t

/-- Every popped chunk of an original is one of its LF-chunks. -/
theorem olinesOf_mem_split (m : List Nat) (x : List Nat) (hx : x ∈ olinesOf m) :
    x ∈ splitOnLF m := by
  unfold olinesOf popTrailingEmpty at hx
  split at hx
  · exact List.dropLast_subset _ hx
  · exact hx

/-- Raw original lines never contain an LF. -/
theorem origLine_lf_free (m : List Nat) (j : Nat) : LF ∉ origLine m j := by
  show LF ∉ ((olinesOf m).get? j).getD []
  cases hg : (olinesOf m).get? j with
  | none => simp
  | some x =>
    show LF ∉ x
    exact splitOnLF_chunk_lf_free m x (olinesOf_mem_split m x (List.get?_mem hg))

/-- Edit-buffer lines of an engine with an LF-free buffer are LF-free. -/
theorem memLine_lf_free (e : LogEngine)
    (hbuf : ∀ l ∈ e.memory_buffer, LF ∉ l) (i : Nat) : LF ∉ memLine e i := by
  show LF ∉ (e.memory_buffer.get? i).getD []
  cases hg : e.memory_buffer.get? i with
  | none => simp
  | some x =>
    show LF ∉ x
    exact hbuf x (List.get?_mem hg)

/-- Under the invariant every raw document line is LF-free. -/
theorem docRaw_lf_free (e : LogEngine) (hinv : EngInv e) :
    ∀ l ∈ docRaw e, LF ∉ l := by
  intro l hl
  rw [show docRaw e =
    (e.pieces.map (pieceLinesBy (origLine e.mmap) (memLine e))).flatten from rfl] at hl
  rw [List.mem_flatten] at hl
  obtain ⟨a, ha, hla⟩ := hl
  rw [List.mem_map] at ha
  obtain ⟨p, hp, hpa⟩ := ha
  subst hpa
  cases p with
  | Original s c =>
    rw [show pieceLinesBy (origLine e.mmap) (memLine e) (Piece.Original s c) =
      (List.range c).map (fun j => origLine e.mmap (s + j)) from rfl] at hla
    rw [List.mem_map] at hla
    obtain ⟨j, _, hlj⟩ := hla
    rw [← hlj]
    exact origLine_lf_free e.mmap (s + j)
  | Memory s c =>
    rw [show pieceLinesBy (origLine e.mmap) (memLine e) (Piece.Memory s c) =
      (List.range c).map (fun j => memLine e (s + j)) from rfl] at hla
    rw [List.mem_map] at hla
    obtain ⟨j, _, hlj⟩ := hla
    rw [← hlj]
    exact memLine_lf_free e hinv.hbuf (s + j)

/-- When the mapped original is fixed by the lossy decoder (i.e. it is valid
UTF-8), the decoded document coincides with the raw document. -/
theorem docDec_eq_docRaw (e : LogEngine) (hval : utf8Lossy e.mmap = e.mmap) :
    docDec e = docRaw e := by
  show docBy (fun j => utf8Lossy (origLine e.mmap j)) (memLine e) e.pieces =
    docBy (origLine e.mmap) (memLine e) e.pieces
  have hg : (fun j => utf8Lossy (origLine e.mmap j)) = origLine e.mmap := by
    funext j
    show utf8Lossy (((olinesOf e.mmap).get? j).getD []) =
      ((olinesOf e.mmap).get? j).getD []
    cases hgj : (olinesOf e.mmap).get? j with
    | none => rfl
    | some x =>
      show utf8Lossy x = x
      exact utf8Lossy_fix_chunks e.mmap.length e.mmap (Nat.le_refl _) hval x
        (olinesOf_mem_split e.mmap x (List.get?_mem hgj))
  rw [hg]

/-- The raw document after an edit. -/
theorem docRaw_apply_edit (e : LogEngine) (L n : Nat) (t : List Nat)
    (hmem : ∀ s c, Piece.Memory s c ∈ e.pieces → s + c ≤ e.memory_buffer.length) :
    docRaw (e.apply_edit L n t) =
      (docRaw e).take L ++ popTrailingEmpty (splitOnLF t) ++
        (docRaw e).drop (L + n) := by
  show docBy (origLine (e.apply_edit L n t).mmap) (memLine (e.apply_edit L n t))
    (e.apply_edit L n t).pieces = _
  rw [apply_edit_mmap]
  exact docBy_apply_edit e (origLine e.mmap) L n t hmem

/-- The decoded document after an edit. -/
theorem docDec_apply_edit (e : LogEngine) (L n : Nat) (t : List Nat)
    (hmem : ∀ s c, Piece.Memory s c ∈ e.pieces → s + c ≤ e.memory_buffer.length) :
    docDec (e.apply_edit L n t) =
      (docDec e).take L ++ popTrailingEmpty (splitOnLF t) ++
        (docDec e).drop (L + n) := by
  show docBy (fun j => utf8Lossy (origLine (e.apply_edit L n t).mmap j))
    (memLine (e.apply_edit L n t)) (e.apply_edit L n t).pieces = _
  rw [apply_edit_mmap]
  exact docBy_apply_edit e (fun j => utf8Lossy (origLine e.mmap j)) L n t hmem

/-- Reassembling a list from its window decomposition. -/
theorem take_window_drop (d : List (List Nat)) (a b : Nat) :
    d.take a ++ (d.drop a).take b ++ d.drop (a + b) = d := by
  rw [show d.drop (a + b) = (d.drop a).drop b from by rw [List.drop_drop]]
  rw [List.append_assoc, List.take_append_drop, List.take_append_drop]

/-- C5 (amended): on every reachable engine over a non-empty CR-free
single-chunk original that is valid UTF-8 (byte-fixed by the lossy decoder),
re-inserting via `apply_edit(L, n, t)` the exact block `t` returned by
`get_block(L, n)` (LF-terminated) leaves the `save` output byte-identical.
The original claim fails for lone-CR terminators and for invalid UTF-8
(`get_block` decodes lossily while `save` streams raw bytes), and multi-chunk
files additionally hit the chunk-resolver defect. -/
theorem c5_amended (e : LogEngine) (L n : Nat) (hre : Reachable e)
    (hlen : e.mmap.length ≤ chunkSize) (hcr : CR ∉ e.mmap)
    (hval : utf8Lossy e.mmap = e.mmap) (hLn : L + n ≤ e.total_lines) :
    (e.apply_edit L n (((e.get_block L n).2).getD [])).save = e.save := by
  have hinv := inv_of_reachable e hre hlen
  have hblock := get_block_lines e hinv hcr L n
  by_cases hn : n = 0
  · have htext : ((e.get_block L n).2).getD [] = [] := by
      rw [hblock, if_pos (Or.inl hn)]
      rfl
    rw [htext]
    have hinv2 := inv_apply_edit e hinv L n []
    rw [save_lines _ hinv2 (by rw [apply_edit_mmap]; exact hcr),
      save_lines e hinv hcr]
    congr 1
    rw [docRaw_apply_edit e L n [] hinv.hmemb,
      show popTrailingEmpty (splitOnLF ([] : List Nat)) = [] from rfl,
      List.append_nil, hn, Nat.add_zero, List.take_append_drop]
  · have hnone : ¬ (n = 0 ∨ e.total_lines ≤ L) := by
      intro hcc
      rcases hcc with h | h
      · exact hn h
      · omega
    have htext : ((e.get_block L n).2).getD [] =
        joinLF (((docRaw e).drop L).take n) := by
      rw [hblock, if_neg hnone, docDec_eq_docRaw e hval]
      rfl
    rw [htext]
    have hWfree : ∀ l ∈ ((docRaw e).drop L).take n, LF ∉ l :=
      fun l hl =>
        docRaw_lf_free e hinv l (List.drop_subset _ _ (List.take_subset _ _ hl))
    have hinv2 := inv_apply_edit e hinv L n (joinLF (((docRaw e).drop L).take n))
    rw [save_lines _ hinv2 (by rw [apply_edit_mmap]; exact hcr),
      save_lines e hinv hcr]
    congr 1
    rw [docRaw_apply_edit e L n _ hinv.hmemb, pop_split_joinLF _ hWfree,
      take_window_drop]

/-- Concrete instance of the amended C5: the reachable scenario engine
(original `"foo\nbar\nfoo\n"` edited once), with the block of lines `[1, 3)`
re-inserted over itself. -/
theorem c5_witness :
    (scenarioEngine.apply_edit 1 2 (((scenarioEngine.get_block 1 2).2).getD [])).save =
      scenarioEngine.save :=
  c5_amended scenarioEngine 1 2
    (Reachable.step (LogEngine.new fooBarFoo) 1 0 [102, 111, 111, 10]
      (Reachable.base fooBarFoo (by decide)))
    (by decide) (by decide) (by decide) (by decide)

/-- C8 (amended): `apply_edit(L, 0, "")` preserves `total_lines()` for every
engine and every `L` (unconditionally); and on every reachable CR-free
single-chunk engine it also leaves every `get_block(s, n)` result unchanged.
It is not a no-op in full generality: a lone-CR line boundary gains a
spurious LF in subsequent block extractions (see the counterexample), and
multi-chunk engines hit the chunk-resolver defect. -/
theorem c8_amended (e : LogEngine) (L s n : Nat) :
    (e.apply_edit L 0 []).total_lines = e.total_lines ∧
    (Reachable e → e.mmap.length ≤ chunkSize → CR ∉ e.mmap →
      ((e.apply_edit L 0 []).get_block s n).2 = (e.get_block s n).2) := by
  refine ⟨total_lines_apply_edit_nil e L, ?_⟩
  intro hre hlen hcr
  have hinv := inv_of_reachable e hre hlen
  have hinv2 := inv_apply_edit e hinv L 0 []
  rw [get_block_lines _ hinv2 (by rw [apply_edit_mmap]; exact hcr),
    get_block_lines e hinv hcr]
  rw [total_lines_apply_edit_nil]
  rw [docDec_apply_edit e L 0 [] hinv.hmemb,
    show popTrailingEmpty (splitOnLF ([] : List Nat)) = [] from rfl,
    List.append_nil, Nat.add_zero, List.take_append_drop]

/-- Concrete instance of the amended C8 on the reachable scenario engine. -/
theorem c8_witness :
    (scenarioEngine.apply_edit 1 0 []).total_lines = scenarioEngine.total_lines ∧
    ((scenarioEngine.apply_edit 1 0 []).get_block 0 4).2 =
      (scenarioEngine.get_block 0 4).2 :=
  ⟨(c8_amended scenarioEngine 1 0 4).1,
   (c8_amended scenarioEngine 1 0 4).2
     (Reachable.step (LogEngine.new fooBarFoo) 1 0 [102, 111, 111, 10]
       (Reachable.base fooBarFoo (by decide)))
     (by decide) (by decide)⟩

/-- Boolean prefix test as an existential decomposition. -/
theorem isPrefixOf_exists : ∀ (q l : List Nat),
    q.isPrefixOf l = true ↔ ∃ t, l = q ++ t := by
  intro q
  induction q with
  | nil =>
    intro l
    simp [List.isPrefixOf]
  | cons a as ih =>
    intro l
    cases l with
    | nil =>
      simp [List.isPrefixOf]
    | cons b bs =>
      show (a == b && as.isPrefixOf bs) = true ↔ _
      rw [Bool.and_eq_true, beq_iff_eq, ih bs]
      constructor
      · rintro ⟨hab, t, ht⟩
        exact ⟨t, by rw [hab, ht]; rfl⟩
      · rintro ⟨t, ht⟩
        have hab : a = b ∧ bs = as ++ t := by
          have := List.cons.inj ht
          exact ⟨this.1.symm, this.2⟩
        exact ⟨hab.1, t, hab.2⟩

/-- Bytes of a prefix occurrence, looked up pointwise. -/
theorem occ_get (q l : List Nat) (hp : q.isPrefixOf l = true) (i : Nat)
    (hi : i < q.length) : l.get? i = q.get? i := by
  obtain ⟨t, ht⟩ := (isPrefixOf_exists q l).mp hp
  rw [ht, List.get?_append hi]

/-- A prefix is at most as long as the whole. -/
theorem occ_len (q l : List Nat) (hp : q.isPrefixOf l = true) :
    q.length ≤ l.length := by
  obtain ⟨t, ht⟩ := (isPrefixOf_exists q l).mp hp
  rw [ht, List.length_append]
  omega

/-- A prefix of a list is a prefix of any sufficiently long take of it. -/
theorem occ_take (q l : List Nat) (n : Nat) (hp : q.isPrefixOf l = true)
    (hn : q.length ≤ n) : q.isPrefixOf (l.take n) = true := by
  obtain ⟨t, ht⟩ := (isPrefixOf_exists q l).mp hp
  rw [isPrefixOf_exists]
  refine ⟨t.take (n - q.length), ?_⟩
  rw [ht, List.take_append_eq_append_take, List.take_of_length_le hn]

/-- The length of an in-range byte span. -/
theorem slice_len (m : List Nat) (x y : Nat) (hxy : x ≤ y) (hy : y ≤ m.length) :
    (sliceBytes m x y).length = y - x := by
  show ((m.take y).drop x).length = y - x
  rw [List.length_drop, List.length_take]
  omega

/-- Dropping into a byte span advances its start. -/
theorem slice_drop (m : List Nat) (x y u : Nat) :
    (sliceBytes m x y).drop u = sliceBytes m (x + u) y := by
  show ((m.take y).drop x).drop u = (m.take y).drop (x + u)
  rw [List.drop_drop]

/-- Taking from a byte span truncates its end. -/
theorem slice_take (m : List Nat) (x y u : Nat) (hu : x + u ≤ y) :
    (sliceBytes m x y).take u = sliceBytes m x (x + u) := by
  show ((m.take y).drop x).take u = (m.take (x + u)).drop x
  rw [List.drop_take, List.drop_take, List.take_take,
    Nat.min_eq_left (by omega), Nat.add_sub_cancel_left]

/-- A byte span is an initial segment of the corresponding suffix. -/
theorem slice_as_take (m : List Nat) (x y : Nat) :
    sliceBytes m x y = (m.drop x).take (y - x) := by
  show (m.take y).drop x = _
  rw [List.drop_take]

/-- An occurrence inside a byte span is an occurrence in the buffer. -/
theorem occ_global (m q : List Nat) (x y u : Nat)
    (hocc : q.isPrefixOf ((sliceBytes m x y).drop u) = true) :
    q.isPrefixOf (m.drop (x + u)) = true := by
  rw [slice_drop, slice_as_take] at hocc
  obtain ⟨t, ht⟩ := (isPrefixOf_exists _ _).mp hocc
  rw [isPrefixOf_exists]
  refine ⟨t ++ (m.drop (x + u)).drop (y - (x + u)), ?_⟩
  conv_lhs => rw [← List.take_append_drop (y - (x + u)) (m.drop (x + u))]
  rw [ht, List.append_assoc]

/-- An occurrence in the buffer that fits inside a window is an occurrence
inside the window's byte span. -/
theorem occ_local (m q : List Nat) (x y P : Nat) (hx : x ≤ P)
    (hfit : P + q.length ≤ y) (hy : y ≤ m.length)
    (hocc : q.isPrefixOf (m.drop P) = true) :
    q.isPrefixOf ((sliceBytes m x y).drop (P - x)) = true := by
  rw [slice_drop, show x + (P - x) = P from by omega, slice_as_take]
  exact occ_take q (m.drop P) (y - P) hocc (by omega)

/-- In a strictly increasing list the head is a lower bound. -/
theorem sorted_head_min (l : List Nat) (hp : l.Pairwise (fun x y => x < y))
    (a : Nat) (ha : l.head? = some a) : ∀ x ∈ l, a ≤ x := by
  cases l with
  | nil => exact absurd ha (by simp)
  | cons b rest =>
    have hba : b = a := by simpa using ha
    subst hba
    intro x hx
    rcases List.mem_cons.mp hx with rfl | hm
    · exact Nat.le_refl _
    · exact Nat.le_of_lt ((List.pairwise_cons.mp hp).1 x hm)

/-- Characterisation of a successful forward scan over a numeric range. -/
theorem find_range_some (p : Nat → Bool) :
    ∀ (n s i : Nat), (List.range' s n).find? p = some i →
      s ≤ i ∧ i < s + n ∧ p i = true ∧ ∀ j, s ≤ j → j < i → p j = false := by
  intro n
  induction n with
  | zero =>
    intro s i h
    exact absurd h (by simp)
  | succ n2 ih =>
    intro s i h
    rw [show List.range' s (n2 + 1) = s :: List.range' (s + 1) n2 from rfl] at h
    by_cases hs : p s = true
    · rw [List.find?_cons_of_pos _ hs] at h
      have hsi : s = i := Option.some.inj h
      subst hsi
      exact ⟨Nat.le_refl _, by omega, hs, fun j h1 h2 => by omega⟩
    · rw [List.find?_cons_of_neg _ (by simpa using hs)] at h
      obtain ⟨h1, h2, h3, h4⟩ := ih (s + 1) i h
      refine ⟨by omega, by omega, h3, ?_⟩
      intro j hj1 hj2
      by_cases hjs : j = s
      · subst hjs
        simpa using hs
      · exact h4 j (by omega) hj2

/-- Characterisation of a failed forward scan over a numeric range. -/
theorem find_range_none (p : Nat → Bool) :
    ∀ (n s : Nat), (List.range' s n).find? p = none →
      ∀ j, s ≤ j → j < s + n → p j = false := by
  intro n
  induction n with
  | zero =>
    intro s _ j h1 h2
    omega
  | succ n2 ih =>
    intro s h j h1 h2
    rw [show List.range' s (n2 + 1) = s :: List.range' (s + 1) n2 from rfl] at h
    by_cases hs : p s = true
    · rw [List.find?_cons_of_pos _ hs] at h
      exact absurd h (by simp)
    · rw [List.find?_cons_of_neg _ (by simpa using hs)] at h
      by_cases hjs : j = s
      · subst hjs
        simpa using hs
      · exact ih (s + 1) h j (by omega) (by omega)

/-- Characterisation of a successful backward scan over a numeric range. -/
theorem find_rev_some (p : Nat → Bool) :
    ∀ (n i : Nat), ((List.range n).reverse).find? p = some i →
      i < n ∧ p i = true ∧ ∀ j, i < j → j < n → p j = false := by
  intro n
  induction n with
  | zero =>
    intro i h
    exact absurd h (by simp)
  | succ n2 ih =>
    intro i h
    rw [List.range_succ, List.reverse_append] at h
    rw [show ([n2].reverse ++ (List.range n2).reverse) =
      n2 :: (List.range n2).reverse from rfl] at h
    by_cases hs : p n2 = true
    · rw [List.find?_cons_of_pos _ hs] at h
      have hsi : n2 = i := Option.some.inj h
      subst hsi
      exact ⟨by omega, hs, fun j h1 h2 => by omega⟩
    · rw [List.find?_cons_of_neg _ (by simpa using hs)] at h
      obtain ⟨h1, h2, h3⟩ := ih i h
      refine ⟨by omega, h2, ?_⟩
      intro j hj1 hj2
      by_cases hjn : j = n2
      · subst hjn
        simpa using hs
      · exact h3 j hj1 (by omega)

/-- Characterisation of a failed backward scan over a numeric range. -/
theorem find_rev_none (p : Nat → Bool) :
    ∀ (n : Nat), ((List.range n).reverse).find? p = none →
      ∀ j, j < n → p j = false := by
  intro n
  induction n with
  | zero =>
    intro _ j h
    omega
  | succ n2 ih =>
    intro h j hj
    rw [List.range_succ, List.reverse_append] at h
    rw [show ([n2].reverse ++ (List.range n2).reverse) =
      n2 :: (List.range n2).reverse from rfl] at h
    by_cases hs : p n2 = true
    · rw [List.find?_cons_of_pos _ hs] at h
      exact absurd h (by simp)
    · rw [List.find?_cons_of_neg _ (by simpa using hs)] at h
      by_cases hjn : j = n2
      · subst hjn
        simpa using hs
      · exact ih h j (by omega)

/-- A successful indexed lookup is in bounds. -/
theorem get_some_lt (m : List Nat) (j b : Nat) (h : m.get? j = some b) :
    j < m.length := by
  by_contra hc
  push_neg at hc
  rw [List.get?_eq_getElem?, List.getElem?_eq_none hc] at h
  exact Option.noConfusion h

/-- One step past the last terminator the walk reaches the end of the
buffer. -/
theorem walk_total_succ (m : List Nat) :
    walkSkip m 0 (crlfGo 0 m + 1) = m.length := by
  obtain ⟨hle, hls, hcnt⟩ := walk_inv m (crlfGo 0 m) (Nat.le_refl _)
  have hstep : walkSkip m 0 (crlfGo 0 m + 1) =
      walkSkip m (walkSkip m 0 (crlfGo 0 m)) 1 :=
    walkSkip_add m (crlfGo 0 m) 0 1
  cases hft : findTerm (m.drop (walkSkip m 0 (crlfGo 0 m))) with
  | none =>
    rw [hstep]
    exact (walk_step_none m _ hle hft).1
  | some pos =>
    exfalso
    obtain ⟨_, _, _, h4, _⟩ := walk_step_some m _ pos hls hft
    have := cnt_le_total m (walkSkip m (walkSkip m 0 (crlfGo 0 m)) 1)
    omega

/-- The walk is monotone on line indices. -/
theorem walk_mono (m : List Nat) (a b : Nat) (h : a ≤ b) :
    walkSkip m 0 a ≤ walkSkip m 0 b := by
  have h1 : walkSkip m 0 b = walkSkip m (walkSkip m 0 a) (b - a) := by
    conv_lhs => rw [show b = a + (b - a) from by omega]
    exact walkSkip_add m a 0 (b - a)
  have h2 := (walkSkip_bounds m (b - a) (walkSkip m 0 a)
    ((walkSkip_bounds m a 0 (Nat.zero_le _)).2)).1
  omega

/-- A non-terminator byte lies at or after the start of its own line. -/
theorem walk_le_of_cnt (m : List Nat) (P b : Nat) (hb : m.get? P = some b)
    (hbLF : b ≠ LF) (hbCR : b ≠ CR) :
    walkSkip m 0 (crlfGo 0 (m.take P)) ≤ P := by
  cases hc : crlfGo 0 (m.take P) with
  | zero =>
    show walkSkip m 0 0 ≤ P
    exact Nat.zero_le P
  | succ l2 =>
    by_contra hcon
    push_neg at hcon
    have := walk_between m l2 P b hcon hb hbLF hbCR
    omega

/-- Pointwise bytes of a buffer occurrence. -/
theorem occ_byte (m q : List Nat) (P i : Nat)
    (hocc : q.isPrefixOf (m.drop P) = true) (hi : i < q.length) :
    ∃ b, m.get? (P + i) = some b ∧ b ∈ q := by
  have h1 : (m.drop P).get? i = q.get? i := occ_get q (m.drop P) hocc i hi
  have h2 : (m.drop P).get? i = m.get? (P + i) := get?_drop_my m P i
  cases hg : q.get? i with
  | none =>
    rw [List.get?_eq_getElem?, List.getElem?_eq_none_iff] at hg
    omega
  | some b =>
    exact ⟨b, by rw [← h2, h1, hg], List.get?_mem hg⟩

/-- A terminator-free occurrence lies entirely inside the terminated span of
its own line. -/
theorem occ_line (m q : List Nat) (P : Nat) (hq : q ≠ [])
    (hqt : ∀ b ∈ q, b ≠ LF ∧ b ≠ CR)
    (hocc : q.isPrefixOf (m.drop P) = true) :
    walkSkip m 0 (crlfGo 0 (m.take P)) ≤ P ∧
    P + q.length ≤ walkSkip m 0 (crlfGo 0 (m.take P) + 1) ∧
    crlfGo 0 (m.take P) ≤ crlfGo 0 m := by
  have hql : 0 < q.length := List.length_pos.mpr hq
  obtain ⟨b0, hb0, hb0q⟩ := occ_byte m q P 0 hocc hql
  rw [Nat.add_zero] at hb0
  have hb0t := hqt b0 hb0q
  have h1 : walkSkip m 0 (crlfGo 0 (m.take P)) ≤ P :=
    walk_le_of_cnt m P b0 hb0 hb0t.1 hb0t.2
  have h3 : crlfGo 0 (m.take P) ≤ crlfGo 0 m := cnt_le_total m P
  refine ⟨h1, ?_, h3⟩
  obtain ⟨bl, hbl, hblq⟩ := occ_byte m q P (q.length - 1) hocc (by omega)
  have hlen_lt : P + (q.length - 1) < m.length := get_some_lt m _ bl hbl
  have hconst : crlfGo 0 (m.take (P + (q.length - 1))) = crlfGo 0 (m.take P) := by
    apply cnt_no_term m P (P + (q.length - 1)) (by omega)
    intro j b hj1 hj2 hb
    obtain ⟨b2, hb2, hb2q⟩ := occ_byte m q P (j - P) hocc (by omega)
    rw [show P + (j - P) = j from by omega] at hb2
    have hbb : b2 = b := by
      rw [hb2] at hb
      exact Option.some.inj hb
    rw [← hbb]
    exact hqt b2 hb2q
  by_contra hcon
  push_neg at hcon
  rcases Nat.lt_or_ge (crlfGo 0 (m.take P) + 1) (crlfGo 0 m + 1) with hlt | hge
  · obtain ⟨_, _, hcnt2⟩ := walk_inv m (crlfGo 0 (m.take P) + 1) (by omega)
    have hmono := cnt_mono m (walkSkip m 0 (crlfGo 0 (m.take P) + 1))
      (P + (q.length - 1)) (by omega)
    omega
  · have hceq : crlfGo 0 (m.take P) = crlfGo 0 m := by omega
    have hwt := walk_total_succ m
    rw [hceq] at hcon
    omega

/-- Terminator counting across a span that starts on a line start ignores the
unseen previous byte. -/
theorem cnt_slice_ls (m : List Nat) (wa d : Nat) (hls : IsLineStart m wa)
    (hwa : wa ≤ m.length) :
    crlfGo 0 (m.take wa) + crlfGo 0 (sliceBytes m wa (wa + d)) =
      crlfGo 0 (m.take (wa + d)) := by
  have hsplit : m.take (wa + d) = m.take wa ++ sliceBytes m wa (wa + d) := by
    show _ = m.take wa ++ (m.take (wa + d)).drop wa
    conv_lhs => rw [← List.take_append_drop wa (m.take (wa + d))]
    rw [List.take_take, Nat.min_eq_left (by omega)]
  have hcongr : crlfGo ((m.take wa).getLastD 0) (sliceBytes m wa (wa + d)) =
      crlfGo 0 (sliceBytes m wa (wa + d)) := by
    apply crlfGo_congr
    intro hhead
    have hh2 : ((m.drop wa).take d).head? = some LF := by
      rw [slice_as_take, Nat.add_sub_cancel_left] at hhead
      exact hhead
    have hget : m.get? wa = some LF := by
      cases hd : d with
      | zero =>
        rw [hd] at hh2
        exact absurd hh2 (by simp)
      | succ d2 =>
        rw [hd] at hh2
        cases hmd : m.drop wa with
        | nil =>
          rw [hmd] at hh2
          exact absurd hh2 (by simp)
        | cons x xs =>
          rw [hmd] at hh2
          rw [show (x :: xs).take (d2 + 1) = x :: xs.take d2 from rfl] at hh2
          have hx : x = LF := by simpa using hh2
          have hg0 : (m.drop wa).get? 0 = m.get? (wa + 0) := get?_drop_my m wa 0
          rw [hmd, Nat.add_zero] at hg0
          rw [← hg0, hx]
          rfl
    have hprev : (m.take wa).getLastD 0 ≠ CR := by
      by_cases hwa0 : wa = 0
      · subst hwa0
        rw [List.take_zero]
        decide
      · rcases hls with h0 | hLF | ⟨hCR, hnLF⟩
        · exact absurd h0 hwa0
        · rw [getLastD_take m wa 0 (by omega) hwa, hLF]
          decide
        · exact absurd hget hnLF
    constructor
    · intro hp
      exact absurd hp hprev
    · intro h0
      exact absurd h0 (by decide)
  rw [hsplit, crlfGo_append, hcongr]

/-- The scan count of a walk-aligned span is the line-index advance. -/
theorem scan_slice (m : List Nat) (a pos : Nat) (ha : a ≤ crlfGo 0 m) :
    scanCount (sliceBytes m (walkSkip m 0 a) (walkSkip m 0 a + pos)) =
      crlfGo 0 (m.take (walkSkip m 0 a + pos)) - a := by
  obtain ⟨hle, hls, hcnt⟩ := walk_inv m a ha
  have h := cnt_slice_ls m (walkSkip m 0 a) pos hls hle
  rw [scanCount_eq_crlfGo]
  omega

/-- An occurrence witnesses containment. -/
theorem contains_of_occ (hay q : List Nat) (u : Nat)
    (hocc : q.isPrefixOf (hay.drop u) = true) (hu : u ≤ hay.length) :
    containsBytes hay q = true := by
  have hmem : u ∈ subPositions hay q :=
    (subPositions_mem hay q u).mpr ⟨by omega, hocc⟩
  show (subPositions hay q).head?.isSome = true
  cases hsp : subPositions hay q with
  | nil =>
    rw [hsp] at hmem
    exact absurd hmem (List.not_mem_nil u)
  | cons x xs => rfl

/-- Containment yields an occurrence. -/
theorem occ_of_contains (hay q : List Nat) (hc : containsBytes hay q = true) :
    ∃ u, u ≤ hay.length ∧ q.isPrefixOf (hay.drop u) = true := by
  unfold containsBytes at hc
  cases hsp : (subPositions hay q).head? with
  | none =>
    rw [hsp] at hc
    exact absurd hc (by simp)
  | some pos =>
    have hmem := head?_mem_my _ _ hsp
    have := (subPositions_mem hay q pos).mp hmem
    exact ⟨pos, by omega, this.2⟩

/-- A terminator-free occurrence inside the byte span of a line window
identifies a matching line of the window, with the occurrence confined to
that line's terminated span. -/
theorem window_occ_to_line (m q : List Nat) (a b u : Nat) (hq : q ≠ [])
    (hqt : ∀ x ∈ q, x ≠ LF ∧ x ≠ CR)
    (hab : a < b) (hbcrl : b ≤ crlfGo 0 m + 1)
    (hocc : q.isPrefixOf
      ((sliceBytes m (walkSkip m 0 a) (walkSkip m 0 b)).drop u) = true) :
    ∃ ln, a ≤ ln ∧ ln < b ∧
      crlfGo 0 (m.take (walkSkip m 0 a + u)) = ln ∧
      containsBytes (origLineT m ln) q = true ∧
      walkSkip m 0 ln ≤ walkSkip m 0 a + u ∧
      walkSkip m 0 a + u + q.length ≤ walkSkip m 0 (ln + 1) := by
  have hql : 0 < q.length := List.length_pos.mpr hq
  have hwb_len : walkSkip m 0 b ≤ m.length := (walkSkip_bounds m b 0 (Nat.zero_le _)).2
  have hwab : walkSkip m 0 a ≤ walkSkip m 0 b := walk_mono m a b (by omega)
  have hocc_g : q.isPrefixOf (m.drop (walkSkip m 0 a + u)) = true :=
    occ_global m q (walkSkip m 0 a) (walkSkip m 0 b) u hocc
  have hulen : u + q.length ≤ walkSkip m 0 b - walkSkip m 0 a := by
    have h1 := occ_len q _ hocc
    rw [List.length_drop, slice_len m _ _ hwab hwb_len] at h1
    omega
  obtain ⟨hw1, hw2, hw3⟩ := occ_line m q (walkSkip m 0 a + u) hq hqt hocc_g
  refine ⟨crlfGo 0 (m.take (walkSkip m 0 a + u)), ?_, ?_, rfl, ?_, hw1, hw2⟩
  · have hacnt : crlfGo 0 (m.take (walkSkip m 0 a)) = a :=
      (walk_inv m a (by omega)).2.2
    have := cnt_mono m (walkSkip m 0 a) (walkSkip m 0 a + u) (by omega)
    omega
  · by_contra hcon
    push_neg at hcon
    have hmono := walk_mono m b (crlfGo 0 (m.take (walkSkip m 0 a + u))) hcon
    omega
  · apply contains_of_occ (origLineT m (crlfGo 0 (m.take (walkSkip m 0 a + u)))) q
      (walkSkip m 0 a + u - walkSkip m 0 (crlfGo 0 (m.take (walkSkip m 0 a + u))))
    · show q.isPrefixOf ((sliceBytes m
        (walkSkip m 0 (crlfGo 0 (m.take (walkSkip m 0 a + u))))
        (walkSkip m 0 (crlfGo 0 (m.take (walkSkip m 0 a + u)) + 1))).drop _) = true
      exact occ_local m q _ _ _ hw1 hw2
        ((walkSkip_bounds m _ 0 (Nat.zero_le _)).2) hocc_g
    · show _ ≤ (sliceBytes m (walkSkip m 0 (crlfGo 0 (m.take (walkSkip m 0 a + u))))
        (walkSkip m 0 (crlfGo 0 (m.take (walkSkip m 0 a + u)) + 1))).length
      rw [slice_len m _ _
        (walk_mono m _ _ (by omega))
        ((walkSkip_bounds m _ 0 (Nat.zero_le _)).2)]
      omega

/-- A matching line of a window yields a terminator-free occurrence inside
the window's byte span, confined to that line's terminated span. -/
theorem window_line_to_occ (m q : List Nat) (a b ln : Nat) (hq : q ≠ [])
    (haln : a ≤ ln) (hlnb : ln < b) (hbcrl : b ≤ crlfGo 0 m + 1)
    (hcont : containsBytes (origLineT m ln) q = true) :
    ∃ u, q.isPrefixOf
        ((sliceBytes m (walkSkip m 0 a) (walkSkip m 0 b)).drop u) = true ∧
      walkSkip m 0 ln ≤ walkSkip m 0 a + u ∧
      walkSkip m 0 a + u + q.length ≤ walkSkip m 0 (ln + 1) := by
  have hql : 0 < q.length := List.length_pos.mpr hq
  obtain ⟨v, hv, hvocc⟩ := occ_of_contains _ q hcont
  have hlnlen : (origLineT m ln).length = walkSkip m 0 (ln + 1) - walkSkip m 0 ln := by
    show (sliceBytes m (walkSkip m 0 ln) (walkSkip m 0 (ln + 1))).length = _
    exact slice_len m _ _ (walk_mono m _ _ (Nat.le_succ _))
      ((walkSkip_bounds m _ 0 (Nat.zero_le _)).2)
  have hvlen : v + q.length ≤ walkSkip m 0 (ln + 1) - walkSkip m 0 ln := by
    have h1 := occ_len q _ hvocc
    rw [List.length_drop, hlnlen] at h1
    omega
  have hocc_g : q.isPrefixOf (m.drop (walkSkip m 0 ln + v)) = true :=
    occ_global m q (walkSkip m 0 ln) (walkSkip m 0 (ln + 1)) v hvocc
  have hwa_ln : walkSkip m 0 a ≤ walkSkip m 0 ln := walk_mono m a ln haln
  have hfit : walkSkip m 0 ln + v + q.length ≤ walkSkip m 0 b := by
    have := walk_mono m (ln + 1) b (by omega)
    omega
  refine ⟨walkSkip m 0 ln + v - walkSkip m 0 a, ?_, by omega, by omega⟩
  exact occ_local m q (walkSkip m 0 a) (walkSkip m 0 b) (walkSkip m 0 ln + v)
    (by omega) hfit ((walkSkip_bounds m b 0 (Nat.zero_le _)).2) hocc_g

/-- Summed counts distribute over concatenation. -/
theorem sumCounts_append (x y : List Piece) :
    sumCounts (x ++ y) = sumCounts x + sumCounts y := by
  show ((x ++ y).map Piece.lineCount).sum = _
  rw [List.map_append, List.sum_append]
  rfl

/-- Summed counts of a prefix extended by the next piece. -/
theorem sumCounts_take_succ (ps : List Piece) (k : Nat) (p : Piece)
    (hk : ps.get? k = some p) :
    sumCounts (ps.take (k + 1)) = sumCounts (ps.take k) + p.lineCount := by
  rw [List.take_succ, sumCounts_append]
  rw [List.get?_eq_getElem?] at hk
  rw [hk]
  show _ + sumCounts [p] = _
  rw [show sumCounts [p] = p.lineCount from by
    rw [show ([p] : List Piece) = p :: [] from rfl, sumCounts_cons]
    show p.lineCount + 0 = p.lineCount
    omega]

/-- The lines before and inside piece `k` all fit below the total. -/
theorem sumCounts_take_le (ps : List Piece) (k : Nat) (p : Piece)
    (hk : ps.get? k = some p) :
    sumCounts (ps.take k) + p.lineCount ≤ sumCounts ps := by
  rw [← sumCounts_take_succ ps k p hk]
  conv_rhs => rw [← List.take_append_drop (k + 1) ps]
  rw [sumCounts_append]
  omega

/-- Indexing into the rendered document inside piece `k`. -/
theorem docBy_get (g mem : Nat → List Nat) (ps : List Piece) (k j : Nat)
    (p : Piece) (hk : ps.get? k = some p) (hj : j < p.lineCount) :
    (docBy g mem ps).get? (sumCounts (ps.take k) + j) =
      (pieceLinesBy g mem p).get? j := by
  have hklen : k < ps.length := by
    rw [List.get?_eq_getElem?] at hk
    by_contra hc
    push_neg at hc
    rw [List.getElem?_eq_none hc] at hk
    exact Option.noConfusion hk
  have hsplit : docBy g mem ps = docBy g mem (ps.take k) ++ docBy g mem (ps.drop k) := by
    rw [← docBy_append, List.take_append_drop]
  rw [hsplit,
    show sumCounts (ps.take k) = (docBy g mem (ps.take k)).length from
      (docBy_length g mem (ps.take k)).symm,
    List.get?_append_right (Nat.le_add_right _ _), Nat.add_sub_cancel_left]
  have hdropk : ps.drop k = p :: ps.drop (k + 1) := by
    rw [List.drop_eq_getElem_cons hklen]
    congr 1
    · rw [List.get?_eq_getElem?, List.getElem?_eq_getElem hklen] at hk
      exact Option.some.inj hk
  rw [hdropk, docBy_cons, List.get?_append (by rw [pieceLinesBy_length]; omega)]

/-- Line lookup of the terminated document inside an Original piece. -/
theorem docT_get_orig (e : LogEngine) (k j s c : Nat)
    (hk : e.pieces.get? k = some (Piece.Original s c)) (hj : j < c) :
    (docT e).get? (sumCounts (e.pieces.take k) + j) =
      some (origLineT e.mmap (s + j)) := by
  show (docBy (origLineT e.mmap) (memLine e) e.pieces).get? _ = _
  rw [docBy_get (origLineT e.mmap) (memLine e) e.pieces k j _ hk hj]
  show ((List.range c).map (fun i => origLineT e.mmap (s + i))).get? j = _
  rw [List.get?_eq_getElem?, List.getElem?_map,
    List.getElem?_range hj]
  rfl

/-- Line lookup of the terminated document inside a Memory piece. -/
theorem docT_get_mem (e : LogEngine) (k j s c : Nat)
    (hk : e.pieces.get? k = some (Piece.Memory s c)) (hj : j < c) :
    (docT e).get? (sumCounts (e.pieces.take k) + j) =
      some (memLine e (s + j)) := by
  show (docBy (origLineT e.mmap) (memLine e) e.pieces).get? _ = _
  rw [docBy_get (origLineT e.mmap) (memLine e) e.pieces k j _ hk hj]
  show ((List.range c).map (fun i => memLine e (s + i))).get? j = _
  rw [List.get?_eq_getElem?, List.getElem?_map, List.getElem?_range hj]
  rfl

/-- Locating line zero in a non-empty well-formed table. -/
theorem find_zero (e : LogEngine) (hinv : EngInv e) (hnn : 0 < e.total_lines) :
    e.find_piece_idx 0 = (0, 0) := by
  cases hps : e.pieces with
  | nil =>
    exfalso
    rw [total_sumCounts, hps] at hnn
    exact absurd hnn (by decide)
  | cons p rest =>
    have hc1 : 1 ≤ p.lineCount := hinv.hcount p (by rw [hps]; exact List.mem_cons_self _ _)
    show findPieceGo 0 e.pieces 0 0 = (0, 0)
    rw [hps]
    show (if 0 < 0 + p.lineCount then ((0 : Nat), 0 - 0) else _) = (0, 0)
    rw [if_pos (by omega)]

/-- Under the invariant an in-range original window resolves to the byte span
between its walk positions. -/
theorem orig_bytes (e : LogEngine) (hinv : EngInv e) (s0 cdel : Nat)
    (hnz : cdel ≠ 0) (hbound : s0 + cdel ≤ e.original_total_lines) :
    e.get_original_bytes s0 cdel =
      sliceBytes e.mmap (walkSkip e.mmap 0 s0) (walkSkip e.mmap 0 (s0 + cdel)) := by
  unfold LogEngine.get_original_bytes
  rw [if_neg hnz, line_off_walk e hinv s0 (by omega),
    line_off_walk e hinv (s0 + cdel) hbound]

/-- Hitting a global line inside an Original piece tests the terminated
original line. -/
theorem lineHit_orig (e : LogEngine) (q : List Nat) (k s0 c i : Nat)
    (hk : e.pieces.get? k = some (Piece.Original s0 c)) (hi : i < c) :
    lineHit q (docT e) (sumCounts (e.pieces.take k) + i) =
      (containsBytes (origLineT e.mmap (s0 + i)) q = true) := by
  show (containsBytes (((docT e).get? _).getD []) q = true) = _
  rw [docT_get_orig e k i s0 c hk hi]
  rfl

/-- Hitting a global line inside a Memory piece tests the stored buffer
line. -/
theorem lineHit_mem (e : LogEngine) (q : List Nat) (k s0 c i : Nat)
    (hk : e.pieces.get? k = some (Piece.Memory s0 c)) (hi : i < c) :
    lineHit q (docT e) (sumCounts (e.pieces.take k) + i) =
      (containsBytes ((e.memory_buffer.get? (s0 + i)).getD []) q = true) := by
  show (containsBytes (((docT e).get? _).getD []) q = true) = _
  rw [docT_get_mem e k i s0 c hk hi]
  rfl

/-- A first match inside a forward Original window identifies the first
matching line at or after the window start. -/
theorem orig_window_head (e : LogEngine) (hinv : EngInv e) (q : List Nat)
    (hq : q ≠ []) (hqt : ∀ x ∈ q, x ≠ LF ∧ x ≠ CR)
    (k s0 c off pos : Nat) (hk : e.pieces.get? k = some (Piece.Original s0 c))
    (hoff : off < c)
    (hhead : (subPositions (e.get_original_bytes (s0 + off) (c - off)) q).head? =
      some pos) :
    ∃ ln, s0 + off ≤ ln ∧ ln < s0 + c ∧
      scanCount ((e.get_original_bytes (s0 + off) (c - off)).take pos) =
        ln - (s0 + off) ∧
      lineHit q (docT e) (sumCounts (e.pieces.take k) + (ln - s0)) ∧
      (∀ i, off ≤ i → i < ln - s0 →
        ¬ lineHit q (docT e) (sumCounts (e.pieces.take k) + i)) := by
  have hp : Piece.Original s0 c ∈ e.pieces := List.get?_mem hk
  have hbound : s0 + c ≤ e.original_total_lines := hinv.horig s0 c hp
  have hotlc : e.original_total_lines ≤ crlfGo 0 e.mmap + 1 := by
    rw [hinv.hotl]
    rcases new_otl_cases e.mmap hinv.hne with ⟨h1, _⟩ | ⟨h1, _, _⟩ <;> omega
  have hbytes : e.get_original_bytes (s0 + off) (c - off) =
      sliceBytes e.mmap (walkSkip e.mmap 0 (s0 + off))
        (walkSkip e.mmap 0 (s0 + c)) := by
    rw [orig_bytes e hinv (s0 + off) (c - off) (by omega) (by omega),
      show s0 + off + (c - off) = s0 + c from by omega]
  have hmem0 := head?_mem_my _ _ hhead
  obtain ⟨hposlt, hocc⟩ := (subPositions_mem _ _ pos).mp hmem0
  rw [hbytes] at hocc
  obtain ⟨ln, hln1, hln2, hlncnt, hlncont, hlnw1, hlnw2⟩ :=
    window_occ_to_line e.mmap q (s0 + off) (s0 + c) pos hq hqt (by omega)
      (by omega) hocc
  have hql : 0 < q.length := List.length_pos.mpr hq
  refine ⟨ln, hln1, hln2, ?_, ?_, ?_⟩
  · have hslen := slice_len e.mmap (walkSkip e.mmap 0 (s0 + off))
      (walkSkip e.mmap 0 (s0 + c)) (walk_mono _ _ _ (by omega))
      ((walkSkip_bounds e.mmap (s0 + c) 0 (Nat.zero_le _)).2)
    have h1 := occ_len q _ hocc
    rw [List.length_drop] at h1
    have hll : walkSkip e.mmap 0 (s0 + off) + pos ≤ walkSkip e.mmap 0 (s0 + c) := by
      omega
    rw [hbytes, slice_take e.mmap _ _ pos hll,
      scan_slice e.mmap (s0 + off) pos (by omega), hlncnt]
  · rw [lineHit_orig e q k s0 c (ln - s0) hk (by omega)]
    rw [show s0 + (ln - s0) = ln from by omega]
    exact hlncont
  · intro i hi1 hi2
    rw [lineHit_orig e q k s0 c i hk (by omega)]
    intro hcont2
    obtain ⟨u2, hu2occ, hu2w1, hu2w2⟩ := window_line_to_occ e.mmap q (s0 + off)
      (s0 + c) (s0 + i) hq (by omega) (by omega) (by omega) hcont2
    have hlemono : walkSkip e.mmap 0 (s0 + i + 1) ≤ walkSkip e.mmap 0 ln :=
      walk_mono e.mmap _ _ (by omega)
    have hu2pos : u2 < pos := by omega
    have hu2mem : u2 ∈ subPositions (e.get_original_bytes (s0 + off) (c - off)) q := by
      rw [subPositions_mem]
      refine ⟨by omega, ?_⟩
      rw [hbytes]
      exact hu2occ
    have := sorted_head_min _ (subPositions_sorted _ _) pos hhead u2 hu2mem
    omega

/-- No match inside a forward Original window means no matching line in the
window. -/
theorem orig_window_none (e : LogEngine) (hinv : EngInv e) (q : List Nat)
    (hq : q ≠ []) (hqt : ∀ x ∈ q, x ≠ LF ∧ x ≠ CR)
    (k s0 c off : Nat) (hk : e.pieces.get? k = some (Piece.Original s0 c))
    (hoff : off < c)
    (hnone : (subPositions (e.get_original_bytes (s0 + off) (c - off)) q).head? =
      none) :
    ∀ i, off ≤ i → i < c →
      ¬ lineHit q (docT e) (sumCounts (e.pieces.take k) + i) := by
  have hp : Piece.Original s0 c ∈ e.pieces := List.get?_mem hk
  have hbound : s0 + c ≤ e.original_total_lines := hinv.horig s0 c hp
  have hotlc : e.original_total_lines ≤ crlfGo 0 e.mmap + 1 := by
    rw [hinv.hotl]
    rcases new_otl_cases e.mmap hinv.hne with ⟨h1, _⟩ | ⟨h1, _, _⟩ <;> omega
  have hbytes : e.get_original_bytes (s0 + off) (c - off) =
      sliceBytes e.mmap (walkSkip e.mmap 0 (s0 + off))
        (walkSkip e.mmap 0 (s0 + c)) := by
    rw [orig_bytes e hinv (s0 + off) (c - off) (by omega) (by omega),
      show s0 + off + (c - off) = s0 + c from by omega]
  have hql : 0 < q.length := List.length_pos.mpr hq
  intro i hi1 hi2
  rw [lineHit_orig e q k s0 c i hk hi2]
  intro hcont2
  obtain ⟨u2, hu2occ, _, _⟩ := window_line_to_occ e.mmap q (s0 + off) (s0 + c)
    (s0 + i) hq (by omega) (by omega) (by omega) hcont2
  have hu2mem : u2 ∈ subPositions (e.get_original_bytes (s0 + off) (c - off)) q := by
    rw [subPositions_mem]
    have h1 := occ_len q _ hu2occ
    rw [List.length_drop] at h1
    refine ⟨by rw [hbytes]; omega, ?_⟩
    rw [hbytes]
    exact hu2occ
  cases hsp : subPositions (e.get_original_bytes (s0 + off) (c - off)) q with
  | nil =>
    rw [hsp] at hu2mem
    exact absurd hu2mem (List.not_mem_nil u2)
  | cons x xs =>
    rw [hsp] at hnone
    exact absurd hnone (by simp)

/-- A last match inside a backward Original window identifies the last
matching line at or before the window end. -/
theorem orig_window_last (e : LogEngine) (hinv : EngInv e) (q : List Nat)
    (hq : q ≠ []) (hqt : ∀ x ∈ q, x ≠ LF ∧ x ≠ CR)
    (k s0 c off pos : Nat) (hk : e.pieces.get? k = some (Piece.Original s0 c))
    (hoff : off < c)
    (hlast : (subPositions (e.get_original_bytes s0 (off + 1)) q).getLast? =
      some pos) :
    ∃ ln, s0 ≤ ln ∧ ln ≤ s0 + off ∧
      scanCount ((e.get_original_bytes s0 (off + 1)).take pos) = ln - s0 ∧
      lineHit q (docT e) (sumCounts (e.pieces.take k) + (ln - s0)) ∧
      (∀ i, ln - s0 < i → i ≤ off →
        ¬ lineHit q (docT e) (sumCounts (e.pieces.take k) + i)) := by
  have hp : Piece.Original s0 c ∈ e.pieces := List.get?_mem hk
  have hbound : s0 + c ≤ e.original_total_lines := hinv.horig s0 c hp
  have hotlc : e.original_total_lines ≤ crlfGo 0 e.mmap + 1 := by
    rw [hinv.hotl]
    rcases new_otl_cases e.mmap hinv.hne with ⟨h1, _⟩ | ⟨h1, _, _⟩ <;> omega
  have hbytes : e.get_original_bytes s0 (off + 1) =
      sliceBytes e.mmap (walkSkip e.mmap 0 s0)
        (walkSkip e.mmap 0 (s0 + (off + 1))) :=
    orig_bytes e hinv s0 (off + 1) (by omega) (by omega)
  have hmem0 := List.mem_of_getLast?_eq_some hlast
  obtain ⟨hposlt, hocc⟩ := (subPositions_mem _ _ pos).mp hmem0
  rw [hbytes] at hocc
  obtain ⟨ln, hln1, hln2, hlncnt, hlncont, hlnw1, hlnw2⟩ :=
    window_occ_to_line e.mmap q s0 (s0 + (off + 1)) pos hq hqt (by omega)
      (by omega) hocc
  have hql : 0 < q.length := List.length_pos.mpr hq
  refine ⟨ln, hln1, by omega, ?_, ?_, ?_⟩
  · have hslen := slice_len e.mmap (walkSkip e.mmap 0 s0)
      (walkSkip e.mmap 0 (s0 + (off + 1))) (walk_mono _ _ _ (by omega))
      ((walkSkip_bounds e.mmap (s0 + (off + 1)) 0 (Nat.zero_le _)).2)
    have h1 := occ_len q _ hocc
    rw [List.length_drop] at h1
    have hll : walkSkip e.mmap 0 s0 + pos ≤ walkSkip e.mmap 0 (s0 + (off + 1)) := by
      omega
    rw [hbytes, slice_take e.mmap _ _ pos hll,
      scan_slice e.mmap s0 pos (by omega), hlncnt]
  · rw [lineHit_orig e q k s0 c (ln - s0) hk (by omega)]
    rw [show s0 + (ln - s0) = ln from by omega]
    exact hlncont
  · intro i hi1 hi2
    rw [lineHit_orig e q k s0 c i hk (by omega)]
    intro hcont2
    obtain ⟨u2, hu2occ, hu2w1, hu2w2⟩ := window_line_to_occ e.mmap q s0
      (s0 + (off + 1)) (s0 + i) hq (by omega) (by omega) (by omega) hcont2
    have hlemono : walkSkip e.mmap 0 (ln + 1) ≤ walkSkip e.mmap 0 (s0 + i) :=
      walk_mono e.mmap _ _ (by omega)
    have hu2pos : pos < u2 := by omega
    have hu2mem : u2 ∈ subPositions (e.get_original_bytes s0 (off + 1)) q := by
      rw [subPositions_mem]
      have h1 := occ_len q _ hu2occ
      rw [List.length_drop] at h1
      refine ⟨by rw [hbytes]; omega, ?_⟩
      rw [hbytes]
      exact hu2occ
    have := head_le_getLast _ (subPositions_sorted _ _) u2 pos hu2mem hlast
    omega

/-- No match inside a backward Original window means no matching line in the
window. -/
theorem orig_window_last_none (e : LogEngine) (hinv : EngInv e) (q : List Nat)
    (hq : q ≠ []) (hqt : ∀ x ∈ q, x ≠ LF ∧ x ≠ CR)
    (k s0 c off : Nat) (hk : e.pieces.get? k = some (Piece.Original s0 c))
    (hoff : off < c)
    (hlast : (subPositions (e.get_original_bytes s0 (off + 1)) q).getLast? =
      none) :
    ∀ i, i ≤ off → ¬ lineHit q (docT e) (sumCounts (e.pieces.take k) + i) := by
  have hp : Piece.Original s0 c ∈ e.pieces := List.get?_mem hk
  have hbound : s0 + c ≤ e.original_total_lines := hinv.horig s0 c hp
  have hotlc : e.original_total_lines ≤ crlfGo 0 e.mmap + 1 := by
    rw [hinv.hotl]
    rcases new_otl_cases e.mmap hinv.hne with ⟨h1, _⟩ | ⟨h1, _, _⟩ <;> omega
  have hbytes : e.get_original_bytes s0 (off + 1) =
      sliceBytes e.mmap (walkSkip e.mmap 0 s0)
        (walkSkip e.mmap 0 (s0 + (off + 1))) :=
    orig_bytes e hinv s0 (off + 1) (by omega) (by omega)
  have hql : 0 < q.length := List.length_pos.mpr hq
  intro i hi1
  rw [lineHit_orig e q k s0 c i hk (by omega)]
  intro hcont2
  obtain ⟨u2, hu2occ, _, _⟩ := window_line_to_occ e.mmap q s0 (s0 + (off + 1))
    (s0 + i) hq (by omega) (by omega) (by omega) hcont2
  have hu2mem : u2 ∈ subPositions (e.get_original_bytes s0 (off + 1)) q := by
    rw [subPositions_mem]
    have h1 := occ_len q _ hu2occ
    rw [List.length_drop] at h1
    refine ⟨by rw [hbytes]; omega, ?_⟩
    rw [hbytes]
    exact hu2occ
  cases hsp : subPositions (e.get_original_bytes s0 (off + 1)) q with
  | nil =>
    rw [hsp] at hu2mem
    exact absurd hu2mem (List.not_mem_nil u2)
  | cons x xs =>
    rw [hsp] at hlast
    rw [List.getLast?_eq_getLast (x :: xs) (by simp)] at hlast
    exact Option.noConfusion hlast

/-- The forward search loop, characterised against the terminated-line
document: started inside piece `k` at the calibrated logical line, it returns
the first line at or after the start that contains the query, and `-1` when
no such line exists. -/
theorem searchGo_spec (e : LogEngine) (hinv : EngInv e) (q : List Nat)
    (hq : q ≠ []) (hqt : ∀ x ∈ q, x ≠ LF ∧ x ≠ CR) :
    ∀ (ps : List Piece) (k off : Nat), e.pieces.drop k = ps →
    k < e.pieces.length →
    ∀ p0, e.pieces.get? k = some p0 → off < p0.lineCount →
    (∀ j0, sumCounts (e.pieces.take k) + off ≤ j0 → j0 < e.total_lines →
      lineHit q (docT e) j0 →
      (∀ i, sumCounts (e.pieces.take k) + off ≤ i → i < j0 →
        ¬ lineHit q (docT e) i) →
      searchGo e q ps off (sumCounts (e.pieces.take k) + off) = Int.ofNat j0) ∧
    ((∀ j, sumCounts (e.pieces.take k) + off ≤ j → j < e.total_lines →
        ¬ lineHit q (docT e) j) →
      searchGo e q ps off (sumCounts (e.pieces.take k) + off) = -1) := by
  intro ps
  induction ps with
  | nil =>
    intro k off hdrop hk p0 hp0 hoffp
    exfalso
    have hlen := congrArg List.length hdrop
    rw [List.length_drop] at hlen
    simp at hlen
    omega
  | cons p rest ih =>
    intro k off hdrop hk p0 hp0 hoffp
    have hget : e.pieces.get? k = some p := by
      have h0 : (e.pieces.drop k).get? 0 = some p := by rw [hdrop]; rfl
      rw [List.get?_eq_getElem?, List.getElem?_drop, Nat.add_zero,
        ← List.get?_eq_getElem?] at h0
      exact h0
    have hpp0 : p0 = p := by
      rw [hget] at hp0
      exact (Option.some.inj hp0).symm
    subst hpp0
    have hrest : e.pieces.drop (k + 1) = rest := by
      have h1 : (e.pieces.drop k).drop 1 = rest := by rw [hdrop]; rfl
      rw [List.drop_drop] at h1
      exact h1
    have htot : sumCounts (e.pieces.take k) + p0.lineCount ≤ e.total_lines := by
      rw [total_sumCounts]
      exact sumCounts_take_le e.pieces k p0 hget
    have hSsucc : sumCounts (e.pieces.take (k + 1)) =
        sumCounts (e.pieces.take k) + p0.lineCount :=
      sumCounts_take_succ e.pieces k p0 hget
    cases p0 with
    | Original s0 c =>
      have hlc : (Piece.Original s0 c).lineCount = c := rfl
      cases hh : (subPositions (e.get_original_bytes (s0 + off) (c - off)) q).head? with
      | some pos =>
        have hunfold : searchGo e q (Piece.Original s0 c :: rest) off
            (sumCounts (e.pieces.take k) + off) =
            Int.ofNat ((sumCounts (e.pieces.take k) + off) +
              scanCount ((e.get_original_bytes (s0 + off) (c - off)).take pos)) := by
          show (match (subPositions (e.get_original_bytes (s0 + off) (c - off))
              q).head? with
            | some pos2 => Int.ofNat ((sumCounts (e.pieces.take k) + off) +
                scanCount ((e.get_original_bytes (s0 + off) (c - off)).take pos2))
            | none => searchGo e q rest 0 ((sumCounts (e.pieces.take k) + off) +
                ((Piece.Original s0 c).lineCount - off))) = _
          rw [hh]
        obtain ⟨ln, hln1, hln2, hscan, hlnhit, hlnmin⟩ :=
          orig_window_head e hinv q hq hqt k s0 c off pos hget hoffp hh
        constructor
        · intro j0 hj1 hj2 hj3 hj4
          rw [hunfold, hscan]
          have hj0eq : j0 = sumCounts (e.pieces.take k) + (ln - s0) := by
            by_cases hcmp : j0 < sumCounts (e.pieces.take k) + (ln - s0)
            · exfalso
              have hloc := hlnmin (j0 - sumCounts (e.pieces.take k))
                (by omega) (by omega)
              rw [show sumCounts (e.pieces.take k) +
                (j0 - sumCounts (e.pieces.take k)) = j0 from by omega] at hloc
              exact hloc hj3
            · by_cases hcmp2 : sumCounts (e.pieces.take k) + (ln - s0) < j0
              · exact absurd hlnhit (hj4 _ (by omega) hcmp2)
              · omega
          rw [hj0eq]
          congr 1
          omega
        · intro hnone2
          exact absurd hlnhit (hnone2 _ (by omega) (by omega))
      | none =>
        have hwin := orig_window_none e hinv q hq hqt k s0 c off hget hoffp hh
        have hunfold : searchGo e q (Piece.Original s0 c :: rest) off
            (sumCounts (e.pieces.take k) + off) =
            searchGo e q rest 0 ((sumCounts (e.pieces.take k) + off) +
              ((Piece.Original s0 c).lineCount - off)) := by
          show (match (subPositions (e.get_original_bytes (s0 + off) (c - off))
              q).head? with
            | some pos2 => Int.ofNat ((sumCounts (e.pieces.take k) + off) +
                scanCount ((e.get_original_bytes (s0 + off) (c - off)).take pos2))
            | none => searchGo e q rest 0 ((sumCounts (e.pieces.take k) + off) +
                ((Piece.Original s0 c).lineCount - off))) = _
          rw [hh]
        have hshift : (sumCounts (e.pieces.take k) + off) +
            ((Piece.Original s0 c).lineCount - off) =
            sumCounts (e.pieces.take (k + 1)) := by
          rw [hSsucc]
          rw [hlc] at hoffp ⊢
          omega
        cases rest with
        | nil =>
          have htoteq : e.total_lines = sumCounts (e.pieces.take (k + 1)) := by
            rw [total_sumCounts]
            conv_lhs => rw [← List.take_append_drop (k + 1) e.pieces]
            rw [sumCounts_append, hrest]
            show _ + 0 = _
            omega
          constructor
          · intro j0 hj1 hj2 hj3 hj4
            exfalso
            have hloc := hwin (j0 - sumCounts (e.pieces.take k))
              (by omega) (by rw [hlc] at hSsucc; omega)
            rw [show sumCounts (e.pieces.take k) +
              (j0 - sumCounts (e.pieces.take k)) = j0 from by omega] at hloc
            exact hloc hj3
          · intro _
            rw [hunfold]
            rfl
        | cons p2 rest2 =>
          have hk1 : k + 1 < e.pieces.length := by
            have hlen := congrArg List.length hrest
            rw [List.length_drop] at hlen
            simp at hlen
            omega
          have hget2 : e.pieces.get? (k + 1) = some p2 := by
            have h0 : (e.pieces.drop (k + 1)).get? 0 = some p2 := by rw [hrest]; rfl
            rw [List.get?_eq_getElem?, List.getElem?_drop, Nat.add_zero,
              ← List.get?_eq_getElem?] at h0
            exact h0
          have hcnt2 : 0 < p2.lineCount := hinv.hcount p2 (List.get?_mem hget2)
          obtain ⟨ihf, ihn⟩ := ih (k + 1) 0 hrest hk1 p2 hget2 hcnt2
          rw [Nat.add_zero] at ihf ihn
          constructor
          · intro j0 hj1 hj2 hj3 hj4
            rw [hunfold, hshift]
            apply ihf j0 ?_ hj2 hj3 ?_
            · by_contra hcon
              push_neg at hcon
              have hloc := hwin (j0 - sumCounts (e.pieces.take k))
                (by omega) (by rw [hlc] at hSsucc; omega)
              rw [show sumCounts (e.pieces.take k) +
                (j0 - sumCounts (e.pieces.take k)) = j0 from by omega] at hloc
              exact hloc hj3
            · intro i hi1 hi2
              exact hj4 i (by omega) hi2
          · intro hnone2
            rw [hunfold, hshift]
            apply ihn
            intro j hjj1 hjj2
            exact hnone2 j (by omega) hjj2
    | Memory s0 c =>
      have hlc : (Piece.Memory s0 c).lineCount = c := rfl
      cases hh : ((List.range' off (c - off)).find?
          (fun i => containsBytes ((e.memory_buffer.get? (s0 + i)).getD []) q)) with
      | some i =>
        have hunfold : searchGo e q (Piece.Memory s0 c :: rest) off
            (sumCounts (e.pieces.take k) + off) =
            Int.ofNat ((sumCounts (e.pieces.take k) + off) + i - off) := by
          show (match ((List.range' off (c - off)).find?
              (fun i2 => containsBytes ((e.memory_buffer.get? (s0 + i2)).getD []) q)) with
            | some i2 => Int.ofNat ((sumCounts (e.pieces.take k) + off) + i2 - off)
            | none => searchGo e q rest 0 ((sumCounts (e.pieces.take k) + off) +
                ((Piece.Memory s0 c).lineCount - off))) = _
          rw [hh]
        obtain ⟨hi1, hi2, hi3, hi4⟩ := find_range_some _ (c - off) off i hh
        have hic : i < c := by omega
        have hihit : lineHit q (docT e) (sumCounts (e.pieces.take k) + i) := by
          rw [lineHit_mem e q k s0 c i hget hic]
          exact hi3
        constructor
        · intro j0 hj1 hj2 hj3 hj4
          rw [hunfold]
          have hj0eq : j0 = sumCounts (e.pieces.take k) + i := by
            by_cases hcmp : j0 < sumCounts (e.pieces.take k) + i
            · exfalso
              have hpf := hi4 (j0 - sumCounts (e.pieces.take k)) (by omega) (by omega)
              have hloc : ¬ lineHit q (docT e) j0 := by
                rw [show j0 = sumCounts (e.pieces.take k) +
                  (j0 - sumCounts (e.pieces.take k)) from by omega]
                rw [lineHit_mem e q k s0 c (j0 - sumCounts (e.pieces.take k)) hget
                  (by omega)]
                rw [hpf]
                simp
              exact hloc hj3
            · by_cases hcmp2 : sumCounts (e.pieces.take k) + i < j0
              · exact absurd hihit (hj4 _ (by omega) hcmp2)
              · omega
          rw [hj0eq]
          congr 1
          omega
        · intro hnone2
          exact absurd hihit (hnone2 _ (by omega) (by omega))
      | none =>
        have hwin : ∀ i2, off ≤ i2 → i2 < c →
            ¬ lineHit q (docT e) (sumCounts (e.pieces.take k) + i2) := by
          intro i2 h1 h2
          rw [lineHit_mem e q k s0 c i2 hget h2]
          rw [find_range_none _ (c - off) off hh i2 h1 (by omega)]
          simp
        have hunfold : searchGo e q (Piece.Memory s0 c :: rest) off
            (sumCounts (e.pieces.take k) + off) =
            searchGo e q rest 0 ((sumCounts (e.pieces.take k) + off) +
              ((Piece.Memory s0 c).lineCount - off)) := by
          show (match ((List.range' off (c - off)).find?
              (fun i2 => containsBytes ((e.memory_buffer.get? (s0 + i2)).getD []) q)) with
            | some i2 => Int.ofNat ((sumCounts (e.pieces.take k) + off) + i2 - off)
            | none => searchGo e q rest 0 ((sumCounts (e.pieces.take k) + off) +
                ((Piece.Memory s0 c).lineCount - off))) = _
          rw [hh]
        have hshift : (sumCounts (e.pieces.take k) + off) +
            ((Piece.Memory s0 c).lineCount - off) =
            sumCounts (e.pieces.take (k + 1)) := by
          rw [hSsucc]
          rw [hlc] at hoffp ⊢
          omega
        cases rest with
        | nil =>
          have htoteq : e.total_lines = sumCounts (e.pieces.take (k + 1)) := by
            rw [total_sumCounts]
            conv_lhs => rw [← List.take_append_drop (k + 1) e.pieces]
            rw [sumCounts_append, hrest]
            show _ + 0 = _
            omega
          constructor
          · intro j0 hj1 hj2 hj3 hj4
            exfalso
            have hloc := hwin (j0 - sumCounts (e.pieces.take k))
              (by omega) (by rw [hlc] at hSsucc; omega)
            rw [show sumCounts (e.pieces.take k) +
              (j0 - sumCounts (e.pieces.take k)) = j0 from by omega] at hloc
            exact hloc hj3
          · intro _
            rw [hunfold]
            rfl
        | cons p2 rest2 =>
          have hk1 : k + 1 < e.pieces.length := by
            have hlen := congrArg List.length hrest
            rw [List.length_drop] at hlen
            simp at hlen
            omega
          have hget2 : e.pieces.get? (k + 1) = some p2 := by
            have h0 : (e.pieces.drop (k + 1)).get? 0 = some p2 := by rw [hrest]; rfl
            rw [List.get?_eq_getElem?, List.getElem?_drop, Nat.add_zero,
              ← List.get?_eq_getElem?] at h0
            exact h0
          have hcnt2 : 0 < p2.lineCount := hinv.hcount p2 (List.get?_mem hget2)
          obtain ⟨ihf, ihn⟩ := ih (k + 1) 0 hrest hk1 p2 hget2 hcnt2
          rw [Nat.add_zero] at ihf ihn
          constructor
          · intro j0 hj1 hj2 hj3 hj4
            rw [hunfold, hshift]
            apply ihf j0 ?_ hj2 hj3 ?_
            · by_contra hcon
              push_neg at hcon
              have hloc := hwin (j0 - sumCounts (e.pieces.take k))
                (by omega) (by rw [hlc] at hSsucc; omega)
              rw [show sumCounts (e.pieces.take k) +
                (j0 - sumCounts (e.pieces.take k)) = j0 from by omega] at hloc
              exact hloc hj3
            · intro i hi1 hi2
              exact hj4 i (by omega) hi2
          · intro hnone2
            rw [hunfold, hshift]
            apply ihn
            intro j hjj1 hjj2
            exact hnone2 j (by omega) hjj2

/-- The backward search loop, characterised against the terminated-line
document: started inside piece `k` at the calibrated logical line, it returns
the last line at or before the start that contains the query, and `-1` when
no such line exists. -/
theorem searchBackGo_spec (e : LogEngine) (hinv : EngInv e) (q : List Nat)
    (hq : q ≠ []) (hqt : ∀ x ∈ q, x ≠ LF ∧ x ≠ CR) :
    ∀ (k : Nat), k < e.pieces.length →
    ∀ off p0, e.pieces.get? k = some p0 → off < p0.lineCount →
    (∀ j0, j0 ≤ sumCounts (e.pieces.take k) + off → lineHit q (docT e) j0 →
      (∀ i, j0 < i → i ≤ sumCounts (e.pieces.take k) + off →
        ¬ lineHit q (docT e) i) →
      searchBackGo e q k off (sumCounts (e.pieces.take k) + off) = Int.ofNat j0) ∧
    ((∀ j, j ≤ sumCounts (e.pieces.take k) + off → ¬ lineHit q (docT e) j) →
      searchBackGo e q k off (sumCounts (e.pieces.take k) + off) = -1) := by
  intro k
  induction k with
  | zero =>
    intro hk off p0 hget hoffp
    have hS0 : sumCounts (e.pieces.take 0) = 0 := rfl
    cases p0 with
    | Original s0 c =>
      have hlc : (Piece.Original s0 c).lineCount = c := rfl
      rw [hlc] at hoffp
      cases hh : (subPositions (e.get_original_bytes s0 (off + 1)) q).getLast? with
      | some pos =>
        have hunfold : searchBackGo e q 0 off (sumCounts (e.pieces.take 0) + off) =
            Int.ofNat ((sumCounts (e.pieces.take 0) + off) - off +
              scanCount ((e.get_original_bytes s0 (off + 1)).take pos)) := by
          conv_lhs => rw [searchBackGo]
          rw [hget]
          show (match (match (subPositions (e.get_original_bytes s0 (off + 1))
                q).getLast? with
              | some pos2 => some (Int.ofNat ((sumCounts (e.pieces.take 0) + off) -
                  off + scanCount ((e.get_original_bytes s0 (off + 1)).take pos2)))
              | none => (none : Option Int)) with
            | some r => r
            | none =>
              (match 0 with
               | 0 => (-1 : Int)
               | k2 + 1 => searchBackGo e q k2
                   (((e.pieces.get? k2).getD (Piece.Original 0 0)).lineCount - 1)
                   ((sumCounts (e.pieces.take 0) + off) - (off + 1)))) = _
          rw [hh]
        obtain ⟨ln, hln1, hln2, hscan, hlnhit, hlnmax⟩ :=
          orig_window_last e hinv q hq hqt 0 s0 c off pos hget hoffp hh
        constructor
        · intro j0 hj1 hj2 hj3
          rw [hunfold, hscan]
          have hj0eq : j0 = sumCounts (e.pieces.take 0) + (ln - s0) := by
            by_cases hcmp : j0 < sumCounts (e.pieces.take 0) + (ln - s0)
            · exact absurd hlnhit (hj3 _ (by omega) (by omega))
            · by_cases hcmp2 : sumCounts (e.pieces.take 0) + (ln - s0) < j0
              · exfalso
                have hloc := hlnmax (j0 - sumCounts (e.pieces.take 0))
                  (by omega) (by omega)
                rw [show sumCounts (e.pieces.take 0) +
                  (j0 - sumCounts (e.pieces.take 0)) = j0 from by omega] at hloc
                exact hloc hj2
              · omega
          rw [hj0eq]
          congr 1
          omega
        · intro hnone2
          exact absurd hlnhit (hnone2 _ (by omega))
      | none =>
        have hwin := orig_window_last_none e hinv q hq hqt 0 s0 c off hget hoffp hh
        have hunfold : searchBackGo e q 0 off (sumCounts (e.pieces.take 0) + off) =
            (-1 : Int) := by
          conv_lhs => rw [searchBackGo]
          rw [hget]
          show (match (match (subPositions (e.get_original_bytes s0 (off + 1))
                q).getLast? with
              | some pos2 => some (Int.ofNat ((sumCounts (e.pieces.take 0) + off) -
                  off + scanCount ((e.get_original_bytes s0 (off + 1)).take pos2)))
              | none => (none : Option Int)) with
            | some r => r
            | none =>
              (match 0 with
               | 0 => (-1 : Int)
               | k2 + 1 => searchBackGo e q k2
                   (((e.pieces.get? k2).getD (Piece.Original 0 0)).lineCount - 1)
                   ((sumCounts (e.pieces.take 0) + off) - (off + 1)))) = _
          rw [hh]
        constructor
        · intro j0 hj1 hj2 hj3
          exfalso
          have hloc := hwin (j0 - sumCounts (e.pieces.take 0)) (by omega)
          rw [show sumCounts (e.pieces.take 0) +
            (j0 - sumCounts (e.pieces.take 0)) = j0 from by omega] at hloc
          exact hloc hj2
        · intro _
          exact hunfold
    | Memory s0 c =>
      have hlc : (Piece.Memory s0 c).lineCount = c := rfl
      rw [hlc] at hoffp
      cases hh : (((List.range (off + 1)).reverse).find?
          (fun i => containsBytes ((e.memory_buffer.get? (s0 + i)).getD []) q)) with
      | some i =>
        have hunfold : searchBackGo e q 0 off (sumCounts (e.pieces.take 0) + off) =
            Int.ofNat ((sumCounts (e.pieces.take 0) + off) - off + i) := by
          conv_lhs => rw [searchBackGo]
          rw [hget]
          show (match (match (((List.range (off + 1)).reverse).find?
                (fun i2 => containsBytes ((e.memory_buffer.get? (s0 + i2)).getD []) q)) with
              | some i2 => some (Int.ofNat ((sumCounts (e.pieces.take 0) + off) - off + i2))
              | none => (none : Option Int)) with
            | some r => r
            | none =>
              (match 0 with
               | 0 => (-1 : Int)
               | k2 + 1 => searchBackGo e q k2
                   (((e.pieces.get? k2).getD (Piece.Original 0 0)).lineCount - 1)
                   ((sumCounts (e.pieces.take 0) + off) - (off + 1)))) = _
          rw [hh]
        obtain ⟨hi1, hi2, hi3⟩ := find_rev_some _ (off + 1) i hh
        have hihit : lineHit q (docT e) (sumCounts (e.pieces.take 0) + i) := by
          rw [lineHit_mem e q 0 s0 c i hget (by omega)]
          exact hi2
        constructor
        · intro j0 hj1 hj2 hj3
          rw [hunfold]
          have hj0eq : j0 = sumCounts (e.pieces.take 0) + i := by
            by_cases hcmp : j0 < sumCounts (e.pieces.take 0) + i
            · exact absurd hihit (hj3 _ (by omega) (by omega))
            · by_cases hcmp2 : sumCounts (e.pieces.take 0) + i < j0
              · exfalso
                have hpf := hi3 (j0 - sumCounts (e.pieces.take 0)) (by omega) (by omega)
                have hloc : ¬ lineHit q (docT e) j0 := by
                  rw [show j0 = sumCounts (e.pieces.take 0) +
                    (j0 - sumCounts (e.pieces.take 0)) from by omega]
                  rw [lineHit_mem e q 0 s0 c (j0 - sumCounts (e.pieces.take 0)) hget
                    (by omega)]
                  rw [hpf]
                  simp
                exact hloc hj2
              · omega
          rw [hj0eq]
          congr 1
          omega
        · intro hnone2
          exact absurd hihit (hnone2 _ (by omega))
      | none =>
        have hwin : ∀ i2, i2 ≤ off →
            ¬ lineHit q (docT e) (sumCounts (e.pieces.take 0) + i2) := by
          intro i2 h1
          rw [lineHit_mem e q 0 s0 c i2 hget (by omega)]
          rw [find_rev_none _ (off + 1) hh i2 (by omega)]
          simp
        have hunfold : searchBackGo e q 0 off (sumCounts (e.pieces.take 0) + off) =
            (-1 : Int) := by
          conv_lhs => rw [searchBackGo]
          rw [hget]
          show (match (match (((List.range (off + 1)).reverse).find?
                (fun i2 => containsBytes ((e.memory_buffer.get? (s0 + i2)).getD []) q)) with
              | some i2 => some (Int.ofNat ((sumCounts (e.pieces.take 0) + off) - off + i2))
              | none => (none : Option Int)) with
            | some r => r
            | none =>
              (match 0 with
               | 0 => (-1 : Int)
               | k2 + 1 => searchBackGo e q k2
                   (((e.pieces.get? k2).getD (Piece.Original 0 0)).lineCount - 1)
                   ((sumCounts (e.pieces.take 0) + off) - (off + 1)))) = _
          rw [hh]
        constructor
        · intro j0 hj1 hj2 hj3
          exfalso
          have hloc := hwin (j0 - sumCounts (e.pieces.take 0)) (by omega)
          rw [show sumCounts (e.pieces.take 0) +
            (j0 - sumCounts (e.pieces.take 0)) = j0 from by omega] at hloc
          exact hloc hj2
        · intro _
          exact hunfold
  | succ k2 ih =>
    intro hk off p0 hget hoffp
    have hk2 : k2 < e.pieces.length := by omega
    obtain ⟨p2, hget2⟩ : ∃ p2, e.pieces.get? k2 = some p2 := by
      rw [List.get?_eq_getElem?, List.getElem?_eq_getElem hk2]
      exact ⟨_, rfl⟩
    have hcnt2 : 1 ≤ p2.lineCount := hinv.hcount p2 (List.get?_mem hget2)
    have hgetD : ((e.pieces.get? k2).getD (Piece.Original 0 0)) = p2 := by
      rw [hget2]
      rfl
    have hSsucc2 : sumCounts (e.pieces.take (k2 + 1)) =
        sumCounts (e.pieces.take k2) + p2.lineCount :=
      sumCounts_take_succ e.pieces k2 p2 hget2
    have hcur2 : (sumCounts (e.pieces.take (k2 + 1)) + off) - (off + 1) =
        sumCounts (e.pieces.take k2) + (p2.lineCount - 1) := by
      omega
    obtain ⟨ihf, ihn⟩ := ih hk2 (p2.lineCount - 1) p2 hget2 (by omega)
    cases p0 with
    | Original s0 c =>
      have hlc : (Piece.Original s0 c).lineCount = c := rfl
      rw [hlc] at hoffp
      cases hh : (subPositions (e.get_original_bytes s0 (off + 1)) q).getLast? with
      | some pos =>
        have hunfold : searchBackGo e q (k2 + 1) off
            (sumCounts (e.pieces.take (k2 + 1)) + off) =
            Int.ofNat ((sumCounts (e.pieces.take (k2 + 1)) + off) - off +
              scanCount ((e.get_original_bytes s0 (off + 1)).take pos)) := by
          conv_lhs => rw [searchBackGo]
          rw [hget]
          show (match (match (subPositions (e.get_original_bytes s0 (off + 1))
                q).getLast? with
              | some pos2 => some (Int.ofNat
                  ((sumCounts (e.pieces.take (k2 + 1)) + off) - off +
                    scanCount ((e.get_original_bytes s0 (off + 1)).take pos2)))
              | none => (none : Option Int)) with
            | some r => r
            | none =>
              (match k2 + 1 with
               | 0 => (-1 : Int)
               | k3 + 1 => searchBackGo e q k3
                   (((e.pieces.get? k3).getD (Piece.Original 0 0)).lineCount - 1)
                   ((sumCounts (e.pieces.take (k2 + 1)) + off) - (off + 1)))) = _
          rw [hh]
        obtain ⟨ln, hln1, hln2, hscan, hlnhit, hlnmax⟩ :=
          orig_window_last e hinv q hq hqt (k2 + 1) s0 c off pos hget hoffp hh
        constructor
        · intro j0 hj1 hj2 hj3
          rw [hunfold, hscan]
          have hj0eq : j0 = sumCounts (e.pieces.take (k2 + 1)) + (ln - s0) := by
            by_cases hcmp : j0 < sumCounts (e.pieces.take (k2 + 1)) + (ln - s0)
            · exact absurd hlnhit (hj3 _ (by omega) (by omega))
            · by_cases hcmp2 : sumCounts (e.pieces.take (k2 + 1)) + (ln - s0) < j0
              · exfalso
                have hloc := hlnmax (j0 - sumCounts (e.pieces.take (k2 + 1)))
                  (by omega) (by omega)
                rw [show sumCounts (e.pieces.take (k2 + 1)) +
                  (j0 - sumCounts (e.pieces.take (k2 + 1))) = j0 from by omega] at hloc
                exact hloc hj2
              · omega
          rw [hj0eq]
          congr 1
          omega
        · intro hnone2
          exact absurd hlnhit (hnone2 _ (by omega))
      | none =>
        have hwin := orig_window_last_none e hinv q hq hqt (k2 + 1) s0 c off
          hget hoffp hh
        have hunfold : searchBackGo e q (k2 + 1) off
            (sumCounts (e.pieces.take (k2 + 1)) + off) =
            searchBackGo e q k2
              (((e.pieces.get? k2).getD (Piece.Original 0 0)).lineCount - 1)
              ((sumCounts (e.pieces.take (k2 + 1)) + off) - (off + 1)) := by
          conv_lhs => rw [searchBackGo]
          rw [hget]
          show (match (match (subPositions (e.get_original_bytes s0 (off + 1))
                q).getLast? with
              | some pos2 => some (Int.ofNat
                  ((sumCounts (e.pieces.take (k2 + 1)) + off) - off +
                    scanCount ((e.get_original_bytes s0 (off + 1)).take pos2)))
              | none => (none : Option Int)) with
            | some r => r
            | none =>
              (match k2 + 1 with
               | 0 => (-1 : Int)
               | k3 + 1 => searchBackGo e q k3
                   (((e.pieces.get? k3).getD (Piece.Original 0 0)).lineCount - 1)
                   ((sumCounts (e.pieces.take (k2 + 1)) + off) - (off + 1)))) = _
          rw [hh]
        rw [hunfold, hgetD, hcur2]
        constructor
        · intro j0 hj1 hj2 hj3
          have hj0lt : j0 < sumCounts (e.pieces.take (k2 + 1)) := by
            by_contra hcon
            push_neg at hcon
            have hloc := hwin (j0 - sumCounts (e.pieces.take (k2 + 1))) (by omega)
            rw [show sumCounts (e.pieces.take (k2 + 1)) +
              (j0 - sumCounts (e.pieces.take (k2 + 1))) = j0 from by omega] at hloc
            exact hloc hj2
          apply ihf j0 (by omega) hj2
          intro i hi1 hi2
          exact hj3 i hi1 (by omega)
        · intro hnone2
          apply ihn
          intro j hj
          exact hnone2 j (by omega)
    | Memory s0 c =>
      have hlc : (Piece.Memory s0 c).lineCount = c := rfl
      rw [hlc] at hoffp
      cases hh : (((List.range (off + 1)).reverse).find?
          (fun i => containsBytes ((e.memory_buffer.get? (s0 + i)).getD []) q)) with
      | some i =>
        have hunfold : searchBackGo e q (k2 + 1) off
            (sumCounts (e.pieces.take (k2 + 1)) + off) =
            Int.ofNat ((sumCounts (e.pieces.take (k2 + 1)) + off) - off + i) := by
          conv_lhs => rw [searchBackGo]
          rw [hget]
          show (match (match (((List.range (off + 1)).reverse).find?
                (fun i2 => containsBytes ((e.memory_buffer.get? (s0 + i2)).getD []) q)) with
              | some i2 => some (Int.ofNat
                  ((sumCounts (e.pieces.take (k2 + 1)) + off) - off + i2))
              | none => (none : Option Int)) with
            | some r => r
            | none =>
              (match k2 + 1 with
               | 0 => (-1 : Int)
               | k3 + 1 => searchBackGo e q k3
                   (((e.pieces.get? k3).getD (Piece.Original 0 0)).lineCount - 1)
                   ((sumCounts (e.pieces.take (k2 + 1)) + off) - (off + 1)))) = _
          rw [hh]
        obtain ⟨hi1, hi2, hi3⟩ := find_rev_some _ (off + 1) i hh
        have hihit : lineHit q (docT e) (sumCounts (e.pieces.take (k2 + 1)) + i) := by
          rw [lineHit_mem e q (k2 + 1) s0 c i hget (by omega)]
          exact hi2
        constructor
        · intro j0 hj1 hj2 hj3
          rw [hunfold]
          have hj0eq : j0 = sumCounts (e.pieces.take (k2 + 1)) + i := by
            by_cases hcmp : j0 < sumCounts (e.pieces.take (k2 + 1)) + i
            · exact absurd hihit (hj3 _ (by omega) (by omega))
            · by_cases hcmp2 : sumCounts (e.pieces.take (k2 + 1)) + i < j0
              · exfalso
                have hpf := hi3 (j0 - sumCounts (e.pieces.take (k2 + 1)))
                  (by omega) (by omega)
                have hloc : ¬ lineHit q (docT e) j0 := by
                  rw [show j0 = sumCounts (e.pieces.take (k2 + 1)) +
                    (j0 - sumCounts (e.pieces.take (k2 + 1))) from by omega]
                  rw [lineHit_mem e q (k2 + 1) s0 c
                    (j0 - sumCounts (e.pieces.take (k2 + 1))) hget (by omega)]
                  rw [hpf]
                  simp
                exact hloc hj2
              · omega
          rw [hj0eq]
          congr 1
          omega
        · intro hnone2
          exact absurd hihit (hnone2 _ (by omega))
      | none =>
        have hwin : ∀ i2, i2 ≤ off →
            ¬ lineHit q (docT e) (sumCounts (e.pieces.take (k2 + 1)) + i2) := by
          intro i2 h1
          rw [lineHit_mem e q (k2 + 1) s0 c i2 hget (by omega)]
          rw [find_rev_none _ (off + 1) hh i2 (by omega)]
          simp
        have hunfold : searchBackGo e q (k2 + 1) off
            (sumCounts (e.pieces.take (k2 + 1)) + off) =
            searchBackGo e q k2
              (((e.pieces.get? k2).getD (Piece.Original 0 0)).lineCount - 1)
              ((sumCounts (e.pieces.take (k2 + 1)) + off) - (off + 1)) := by
          conv_lhs => rw [searchBackGo]
          rw [hget]
          show (match (match (((List.range (off + 1)).reverse).find?
                (fun i2 => containsBytes ((e.memory_buffer.get? (s0 + i2)).getD []) q)) with
              | some i2 => some (Int.ofNat
                  ((sumCounts (e.pieces.take (k2 + 1)) + off) - off + i2))
              | none => (none : Option Int)) with
            | some r => r
            | none =>
              (match k2 + 1 with
               | 0 => (-1 : Int)
               | k3 + 1 => searchBackGo e q k3
                   (((e.pieces.get? k3).getD (Piece.Original 0 0)).lineCount - 1)
                   ((sumCounts (e.pieces.take (k2 + 1)) + off) - (off + 1)))) = _
          rw [hh]
        rw [hunfold, hgetD, hcur2]
        constructor
        · intro j0 hj1 hj2 hj3
          have hj0lt : j0 < sumCounts (e.pieces.take (k2 + 1)) := by
            by_contra hcon
            push_neg at hcon
            have hloc := hwin (j0 - sumCounts (e.pieces.take (k2 + 1))) (by omega)
            rw [show sumCounts (e.pieces.take (k2 + 1)) +
              (j0 - sumCounts (e.pieces.take (k2 + 1))) = j0 from by omega] at hloc
            exact hloc hj2
          apply ihf j0 (by omega) hj2
          intro i hi1 hi2
          exact hj3 i hi1 (by omega)
        · intro hnone2
          apply ihn
          intro j hj
          exact hnone2 j (by omega)

/-- Forward search from line zero, characterised: it returns the first line
of the document that contains the (terminator-free) query, and `-1` when no
line does. -/
theorem search_spec (e : LogEngine) (hinv : EngInv e) (q : List Nat)
    (hq : q ≠ []) (hqt : ∀ x ∈ q, x ≠ LF ∧ x ≠ CR) (hnn : 0 < e.total_lines) :
    (∀ j0, j0 < e.total_lines → lineHit q (docT e) j0 →
      (∀ i, i < j0 → ¬ lineHit q (docT e) i) →
      e.search q 0 = Int.ofNat j0) ∧
    ((∀ j, j < e.total_lines → ¬ lineHit q (docT e) j) → e.search q 0 = -1) := by
  have hfz := find_zero e hinv hnn
  have hps : e.pieces ≠ [] := by
    intro hc
    rw [total_sumCounts, hc] at hnn
    exact absurd hnn (by decide)
  have hlen0 : 0 < e.pieces.length := List.length_pos.mpr hps
  obtain ⟨p0, hget0⟩ : ∃ p0, e.pieces.get? 0 = some p0 := by
    rw [List.get?_eq_getElem?, List.getElem?_eq_getElem hlen0]
    exact ⟨_, rfl⟩
  have hcnt0 : 0 < p0.lineCount := hinv.hcount p0 (List.get?_mem hget0)
  obtain ⟨hf, hn⟩ := searchGo_spec e hinv q hq hqt e.pieces 0 0 rfl hlen0 p0
    hget0 hcnt0
  have hS : sumCounts (e.pieces.take 0) + 0 = 0 := rfl
  rw [hS] at hf hn
  have hw : e.search q 0 = searchGo e q e.pieces 0 0 := by
    show (if q = [] then (-1 : Int) else _) = _
    rw [if_neg hq]
    show searchGo e q (e.pieces.drop (e.find_piece_idx 0).1)
      (e.find_piece_idx 0).2 0 = _
    rw [hfz]
    rfl
  constructor
  · intro j0 hj1 hj2 hj3
    rw [hw]
    exact hf j0 (Nat.zero_le _) hj1 hj2 (fun i _ hi2 => hj3 i hi2)
  · intro hall
    rw [hw]
    exact hn (fun j _ hj2 => hall j hj2)

/-- Backward search from an in-range start line, characterised: it returns
the last line at or before the start that contains the (terminator-free)
query, and `-1` when no such line exists. -/
theorem search_backward_spec (e : LogEngine) (hinv : EngInv e) (q : List Nat)
    (hq : q ≠ []) (hqt : ∀ x ∈ q, x ≠ LF ∧ x ≠ CR) (s : Nat)
    (hs : s < e.total_lines) :
    (∀ j0, j0 ≤ s → lineHit q (docT e) j0 →
      (∀ i, j0 < i → i ≤ s → ¬ lineHit q (docT e) i) →
      e.search_backward q s = Int.ofNat j0) ∧
    ((∀ j, j ≤ s → ¬ lineHit q (docT e) j) → e.search_backward q s = -1) := by
  rw [total_sumCounts] at hs
  obtain ⟨k, hk1, hk2, hk3, hk4⟩ := findPieceGo_spec s e.pieces 0 0
    (Nat.zero_le _) (by omega)
  have hfst : (e.find_piece_idx s).1 = k := by
    show (findPieceGo s e.pieces 0 0).1 = k
    omega
  obtain ⟨off, hoff⟩ : ∃ off, (e.find_piece_idx s).2 = off := ⟨_, rfl⟩
  have hoff2 : (findPieceGo s e.pieces 0 0).2 = off := hoff
  rw [hoff2] at hk3 hk4
  obtain ⟨p0, hget0⟩ : ∃ p0, e.pieces.get? k = some p0 := by
    rw [List.get?_eq_getElem?, List.getElem?_eq_getElem hk2]
    exact ⟨_, rfl⟩
  have hoffp : off < p0.lineCount := by
    rw [hget0] at hk4
    exact hk4
  have hseq : s = sumCounts (e.pieces.take k) + off := by omega
  have hnc : ¬ e.pieces.length ≤ (e.find_piece_idx s).1 := by
    rw [hfst]
    omega
  have hw : e.search_backward q s = searchBackGo e q k off s := by
    show (if q = [] then (-1 : Int) else _) = _
    rw [if_neg hq]
    show searchBackGo e q
      (if e.pieces.length ≤ (e.find_piece_idx s).1 then
        (e.pieces.length - 1,
          ((e.pieces.get? (e.pieces.length - 1)).getD
            (Piece.Original 0 0)).lineCount - 1)
       else e.find_piece_idx s).1
      (if e.pieces.length ≤ (e.find_piece_idx s).1 then
        (e.pieces.length - 1,
          ((e.pieces.get? (e.pieces.length - 1)).getD
            (Piece.Original 0 0)).lineCount - 1)
       else e.find_piece_idx s).2 s = _
    rw [if_neg hnc, hfst, hoff]
  obtain ⟨hf, hn⟩ := searchBackGo_spec e hinv q hq hqt k hk2 off p0 hget0 hoffp
  rw [← hseq] at hf hn
  constructor
  · intro j0 hj1 hj2 hj3
    rw [hw]
    exact hf j0 hj1 hj2 hj3
  · intro hall
    rw [hw]
    exact hn hall

/-- C9 (amended): on every reachable single-chunk engine with a non-empty
document and a non-empty query containing no LF or CR byte, if
`search(q, 0)` returns `L ≥ 0` then `search_backward(q, total_lines() − 1)`
returns a value `≥ L` and `search_backward(q, L)` returns exactly `L`.  The
original claim fails for queries containing a terminator byte: such a query
can match across a line boundary, which the forward byte-level scan sees but
the backward per-window scans never revisit. -/
theorem c9_amended (e : LogEngine) (q : List Nat) (L : Nat)
    (hre : Reachable e) (hlen : e.mmap.length ≤ chunkSize)
    (hq : q ≠ []) (hqt : ∀ b ∈ q, b ≠ LF ∧ b ≠ CR)
    (hnn : 0 < e.total_lines)
    (hsearch : e.search q 0 = Int.ofNat L) :
    Int.ofNat L ≤ e.search_backward q (e.total_lines - 1) ∧
    e.search_backward q L = Int.ofNat L := by
  have hinv := inv_of_reachable e hre hlen
  obtain ⟨hsf, hsn⟩ := search_spec e hinv q hq hqt hnn
  haveI hdec : DecidablePred (fun j => lineHit q (docT e) j) :=
    fun j => instDecidableEqBool _ _
  by_cases hex : ∃ j, j < e.total_lines ∧ lineHit q (docT e) j
  case neg =>
    exfalso
    have hm1 := hsn (fun j hj1 hj2 => hex ⟨j, hj1, hj2⟩)
    rw [hsearch] at hm1
    have h3 : (0 : Int) ≤ Int.ofNat L := Int.ofNat_nonneg L
    rw [hm1] at h3
    exact absurd h3 (by decide)
  case pos =>
    have hj0spec := Nat.find_spec hex
    have hj0min : ∀ i, i < Nat.find hex →
        ¬ (i < e.total_lines ∧ lineHit q (docT e) i) :=
      fun i hi => Nat.find_min hex hi
    have hLs : e.search q 0 = Int.ofNat (Nat.find hex) := by
      apply hsf (Nat.find hex) hj0spec.1 hj0spec.2
      intro i hi1 hhit
      exact hj0min i hi1 ⟨Nat.lt_trans hi1 hj0spec.1, hhit⟩
    have hLeq : L = Nat.find hex := by
      rw [hsearch] at hLs
      exact Int.ofNat.inj hLs
    have hLhit : lineHit q (docT e) L := by
      rw [hLeq]
      exact hj0spec.2
    have hLlt : L < e.total_lines := by
      rw [hLeq]
      exact hj0spec.1
    constructor
    · obtain ⟨hbf, _⟩ := search_backward_spec e hinv q hq hqt
        (e.total_lines - 1) (by omega)
      have hg1 : lineHit q (docT e)
          (Nat.findGreatest (fun i => lineHit q (docT e) i) (e.total_lines - 1)) :=
        Nat.findGreatest_spec (show L ≤ e.total_lines - 1 from by omega) hLhit
      have hgle : Nat.findGreatest (fun i => lineHit q (docT e) i)
          (e.total_lines - 1) ≤ e.total_lines - 1 := Nat.findGreatest_le _
      have hgmax : ∀ i,
          Nat.findGreatest (fun i => lineHit q (docT e) i) (e.total_lines - 1) < i →
          i ≤ e.total_lines - 1 → ¬ lineHit q (docT e) i :=
        fun i h1 h2 => Nat.findGreatest_is_greatest h1 h2
      rw [hbf _ hgle hg1 hgmax]
      exact Int.ofNat_le.mpr (Nat.le_findGreatest (by omega) hLhit)
    · obtain ⟨hbf, _⟩ := search_backward_spec e hinv q hq hqt L hLlt
      exact hbf L (Nat.le_refl _) hLhit (fun i h1 h2 => absurd h2 (by omega))

/-- Concrete instance of the amended C9 on the reachable scenario engine
(document lines `foo`, `foo`, `bar`, `foo`): the forward search for `"foo"`
finds line 0, the backward search from the last line lands at or after it,
and the backward search from line 0 returns line 0. -/
theorem c9_witness :
    Int.ofNat 0 ≤ scenarioEngine.search_backward fooQ (scenarioEngine.total_lines - 1) ∧
    scenarioEngine.search_backward fooQ 0 = Int.ofNat 0 :=
  c9_amended scenarioEngine fooQ 0
    (Reachable.step (LogEngine.new fooBarFoo) 1 0 [102, 111, 111, 10]
      (Reachable.base fooBarFoo (by decide)))
    (by decide) (by decide) (by decide) (by decide) (by decide)
